import Mathlib

/-!
# unpacket: tag-driven packing and unpacking of fixed-layout records

A shallow embedding of `unpacket.go`.

* A Go `[]byte` and the bytes of a Go `string` are lists of `Byte`.
* A Go `int` is the 64-bit signed integer: sums and differences of `int`s are
  wrapped with `wrapInt 64`.
* A call ends in a value, in a returned `error` (with its message), or in a
  run-time fault (an index or slice expression out of range, `make` with a
  negative length): `Result`.
* A struct handed to `Unpack` or `Pack` is the list of its fields in declaration
  order; the argument always points to a struct, so the branches that return
  "not supplied a struct" and "expected a struct" are not taken.  Fields are
  exported, so `reflect` may set them.
* Memory is unbounded: `make` with a non-negative length always gives a buffer.
  The runtime refuses a length above `maxAlloc` (`makeslice: len out of
  range`); this refusal is not part of `makeBytes`, and the properties that
  assert what `Pack` returns on spans of any size (C1, C11) take the length it
  asks for to be at most `maxAlloc`.
* The capacity of a slice is taken to be its length: every slice expression of
  the program is either guarded by a test on the length or applied to a buffer
  that `make` just returned.
* The package-level scratch buffers `buf2`, `buf4`, `buf8` are overwritten in full
  by `fieldToBytes` before they are returned and copied out by `Pack` before the
  next call, so within one call they behave as fresh buffers and are modelled so
  in `fieldToBytes`; `fieldToBytesShared` and `PackCall` carry them as explicit
  state shared by calls whose steps interleave, and `Pack_run_alone` relates the
  two models.
* The diagnostic `fmt.Printf` in the `int64` decode branch writes to standard
  output only and is left out.
-/

namespace Unpacket

/-! ## Basic types -/

/-- One byte of a slice or string. -/
abbrev Byte := Fin 256

/-- Outcome of a call: a value, a returned error, or a run-time fault. -/
inductive Result (α : Type) where
  | ok (a : α)
  | error (msg : String)
  | fault
  deriving DecidableEq, Repr

/-- Sequencing of calls: the first error or fault ends the computation. -/
def Result.bind {α β : Type} (x : Result α) (f : α → Result β) : Result β :=
  match x with
  | .ok a => f a
  | .error m => .error m
  | .fault => .fault

/-- Largest value of a Go `int`. -/
def maxInt : Int := 2 ^ 63 - 1

/-- Smallest value of a Go `int`. -/
def minInt : Int := -(2 ^ 63)

/-- The allocation limit of the Go runtime on a 64-bit platform (`maxAlloc` of
`runtime/malloc.go`, `2^48` bytes): `make([]byte, n)` with `n` above it ends in
the fault `makeslice: len out of range`. -/
def maxAlloc : Int := 2 ^ 48

/-- Conversion of an integer to the signed type of `bits` bits: the value is
truncated to `bits` bits and read in two's complement. -/
def wrapInt (bits : Nat) (x : Int) : Int :=
  (x + 2 ^ (bits - 1)) % 2 ^ bits - 2 ^ (bits - 1)

/-- Conversion of an integer to the unsigned type of `bits` bits. -/
def wrapUint (bits : Nat) (x : Int) : Nat :=
  (x % 2 ^ bits).toNat

/-- Sum of two Go `int`s. -/
def addInt (a b : Int) : Int := wrapInt 64 (a + b)

/-- Difference of two Go `int`s. -/
def subInt (a b : Int) : Int := wrapInt 64 (a - b)

/-- Value of an unsigned integer type of `bits` bits. -/
abbrev UIntN (bits : Nat) := Fin (2 ^ bits)

/-- Value of a signed integer type of `bits` bits. -/
abbrev SIntN (bits : Nat) := { i : Int // -(2 ^ (bits - 1)) ≤ i ∧ i < 2 ^ (bits - 1) }

theorem wrapInt_range (bits : Nat) (x : Int) :
    -(2 ^ (bits - 1)) ≤ wrapInt bits x ∧ wrapInt bits x < 2 ^ (bits - 1) := by
  unfold wrapInt
  have hm : (0 : Int) < 2 ^ bits := by positivity
  have h1 := Int.emod_nonneg (x + 2 ^ (bits - 1)) (ne_of_gt hm)
  have h2 := Int.emod_lt_of_pos (x + 2 ^ (bits - 1)) hm
  have h3 : (2 : Int) ^ bits ≤ 2 * 2 ^ (bits - 1) := by
    rcases Nat.eq_zero_or_pos bits with h | h
    · subst h; norm_num
    · have : bits = (bits - 1) + 1 := by omega
      conv_lhs => rw [this]
      rw [pow_succ]; linarith
  constructor <;> linarith

theorem wrapUint_lt (bits : Nat) (x : Int) : wrapUint bits x < 2 ^ bits := by
  unfold wrapUint
  have hm : (0 : Int) < 2 ^ bits := by positivity
  have h1 := Int.emod_nonneg x (ne_of_gt hm)
  have h2 := Int.emod_lt_of_pos x hm
  have : ((x % 2 ^ bits).toNat : Int) < ((2 ^ bits : Nat) : Int) := by
    rw [Int.toNat_of_nonneg h1]; push_cast; exact h2
  exact_mod_cast this

/-- Conversion to `uintN`, as a value of the type. -/
def toU (bits : Nat) (x : Int) : UIntN bits := ⟨wrapUint bits x, wrapUint_lt bits x⟩

/-- Conversion to `intN`, as a value of the type. -/
def toS (bits : Nat) (x : Int) : SIntN bits := ⟨wrapInt bits x, wrapInt_range bits x⟩

/-- The conversion `byte(x)`. -/
def toByte (x : Nat) : Byte := ⟨x % 256, Nat.mod_lt _ (by decide)⟩

/-! ## Strings of the standard library used by the tag parser -/

/-- Go `strings.Split(s, sep)` for a one-character separator. -/
def splitOn (sep : Char) : List Char → List (List Char)
  | [] => [[]]
  | c :: cs =>
    if c = sep then [] :: splitOn sep cs
    else
      match splitOn sep cs with
      | [] => [[c]]
      | p :: ps => (c :: p) :: ps

/-- Go `strings.HasPrefix(s, lead)`. -/
def startsWith (lead s : List Char) : Bool := lead.isPrefixOf s

/-- Go `strings.TrimPrefix(s, lead)`. -/
def dropLead (lead s : List Char) : List Char :=
  if startsWith lead s then s.drop lead.length else s

/-- Whether a character is one of `0` .. `9`. -/
def isDigit (c : Char) : Bool := 48 ≤ c.toNat && c.toNat ≤ 57

/-- Value of a run of decimal digits, `none` when a character is not a digit. -/
def parseDigits : List Char → Nat → Option Nat
  | [], acc => some acc
  | c :: cs, acc => if isDigit c then parseDigits cs (acc * 10 + (c.toNat - 48)) else none

/-- Go `strconv.Atoi`: an optional sign, then one or more decimal digits, the
value within the range of `int`; `none` stands for a returned error. -/
def Atoi (s : List Char) : Option Int :=
  match s with
  | [] => none
  | c :: rest =>
    let neg := decide (c = '-')
    let body := if c = '-' ∨ c = '+' then rest else s
    match body with
    | [] => none
    | _ :: _ =>
      match parseDigits body 0 with
      | none => none
      | some n =>
        let v : Int := if neg then -(n : Int) else (n : Int)
        if minInt ≤ v ∧ v ≤ maxInt then some v else none

/-! ## parseUnpackTag -/

/-- The loop of `parseUnpackTag` over the parts of the tag, with the current
`offset` and `length`. -/
def parseParts : List (List Char) → Int → Int → Result (Int × Int)
  | [], offset, length => .ok (offset, length)
  | part :: rest, offset, length =>
    if startsWith "offset=".toList part then
      match Atoi (dropLead "offset=".toList part) with
      | none => .error "invalid offset"
      | some o => parseParts rest o length
    else if startsWith "length=".toList part then
      match Atoi (dropLead "length=".toList part) with
      | none => .error "invalid length"
      | some l => parseParts rest offset l
    else parseParts rest offset length

/-- Go `parseUnpackTag`: the offset and length of a tag. -/
def parseUnpackTag (tag : String) : Result (Int × Int) :=
  match parseParts (splitOn ',' tag.toList) (-1) (-1) with
  | .ok (offset, length) =>
    if offset = -1 ∨ length = -1 then .error "missing offset or length"
    else .ok (offset, length)
  | .error m => .error m
  | .fault => .fault

/-! ## Slices -/

/-- Go `make([]byte, n)`: a zeroed buffer, a fault when `n` is negative.  Memory
is unbounded here: the fault of the runtime on a length above `maxAlloc` is left
out. -/
def makeBytes (n : Int) : Result (List Byte) :=
  if n < 0 then .fault else .ok (List.replicate n.toNat 0)

/-- Go slice expression `s[lo:hi]` on a slice whose capacity is its length: a
fault unless `0 <= lo <= hi <= len(s)`. -/
def slice (s : List Byte) (lo hi : Int) : Result (List Byte) :=
  if 0 ≤ lo ∧ lo ≤ hi ∧ hi ≤ (s.length : Int) then
    .ok ((s.drop lo.toNat).take (hi - lo).toNat)
  else .fault

/-- Go `copy(dst, src)`: the new content of `dst`, whose first
`min(len(dst), len(src))` bytes are those of `src`. -/
def copyBytes (dst src : List Byte) : List Byte :=
  src.take dst.length ++ dst.drop src.length

/-- Go `copy(result[lo:hi], src)`: the new content of `result`, a fault when the
slice expression is out of range. -/
def copyAt (result : List Byte) (lo hi : Int) (src : List Byte) : Result (List Byte) :=
  if 0 ≤ lo ∧ lo ≤ hi ∧ hi ≤ (result.length : Int) then
    .ok (result.take lo.toNat
      ++ copyBytes ((result.drop lo.toNat).take (hi - lo).toNat) src
      ++ result.drop hi.toNat)
  else .fault

/-! ## encoding/binary -/

/-- Go `binary.ByteOrder`, one of `binary.BigEndian` and `binary.LittleEndian`. -/
inductive ByteOrder where
  | BigEndian
  | LittleEndian
  deriving DecidableEq, Repr

/-- Go `ByteOrder.Uint16(b)`; a fault when `b` has fewer than 2 bytes. -/
def ByteOrder.Uint16 : ByteOrder → List Byte → Result Nat
  | .BigEndian, b0 :: b1 :: _ => .ok (b1.val ||| (b0.val <<< 8))
  | .LittleEndian, b0 :: b1 :: _ => .ok (b0.val ||| (b1.val <<< 8))
  | _, _ => .fault

/-- Go `ByteOrder.Uint32(b)`; a fault when `b` has fewer than 4 bytes. -/
def ByteOrder.Uint32 : ByteOrder → List Byte → Result Nat
  | .BigEndian, b0 :: b1 :: b2 :: b3 :: _ =>
    .ok (b3.val ||| (b2.val <<< 8) ||| (b1.val <<< 16) ||| (b0.val <<< 24))
  | .LittleEndian, b0 :: b1 :: b2 :: b3 :: _ =>
    .ok (b0.val ||| (b1.val <<< 8) ||| (b2.val <<< 16) ||| (b3.val <<< 24))
  | _, _ => .fault

/-- Go `ByteOrder.Uint64(b)`; a fault when `b` has fewer than 8 bytes. -/
def ByteOrder.Uint64 : ByteOrder → List Byte → Result Nat
  | .BigEndian, b0 :: b1 :: b2 :: b3 :: b4 :: b5 :: b6 :: b7 :: _ =>
    .ok (b7.val ||| (b6.val <<< 8) ||| (b5.val <<< 16) ||| (b4.val <<< 24)
      ||| (b3.val <<< 32) ||| (b2.val <<< 40) ||| (b1.val <<< 48) ||| (b0.val <<< 56))
  | .LittleEndian, b0 :: b1 :: b2 :: b3 :: b4 :: b5 :: b6 :: b7 :: _ =>
    .ok (b0.val ||| (b1.val <<< 8) ||| (b2.val <<< 16) ||| (b3.val <<< 24)
      ||| (b4.val <<< 32) ||| (b5.val <<< 40) ||| (b6.val <<< 48) ||| (b7.val <<< 56))
  | _, _ => .fault

/-- Go `ByteOrder.PutUint16(b, v)` on a 2-byte buffer: the bytes written. -/
def ByteOrder.PutUint16 : ByteOrder → Nat → List Byte
  | .BigEndian, v => [toByte (v >>> 8), toByte v]
  | .LittleEndian, v => [toByte v, toByte (v >>> 8)]

/-- Go `ByteOrder.PutUint32(b, v)` on a 4-byte buffer: the bytes written. -/
def ByteOrder.PutUint32 : ByteOrder → Nat → List Byte
  | .BigEndian, v => [toByte (v >>> 24), toByte (v >>> 16), toByte (v >>> 8), toByte v]
  | .LittleEndian, v => [toByte v, toByte (v >>> 8), toByte (v >>> 16), toByte (v >>> 24)]

/-- Go `ByteOrder.PutUint64(b, v)` on an 8-byte buffer: the bytes written. -/
def ByteOrder.PutUint64 : ByteOrder → Nat → List Byte
  | .BigEndian, v =>
    [toByte (v >>> 56), toByte (v >>> 48), toByte (v >>> 40), toByte (v >>> 32),
     toByte (v >>> 24), toByte (v >>> 16), toByte (v >>> 8), toByte v]
  | .LittleEndian, v =>
    [toByte v, toByte (v >>> 8), toByte (v >>> 16), toByte (v >>> 24),
     toByte (v >>> 32), toByte (v >>> 40), toByte (v >>> 48), toByte (v >>> 56)]

/-! ## strings.TrimSpace -/

/-- The six ASCII bytes Go counts as white space: tab, line feed, vertical tab,
form feed, carriage return, space. -/
def asciiSpace (b : Byte) : Bool :=
  b.val = 9 || b.val = 10 || b.val = 11 || b.val = 12 || b.val = 13 || b.val = 32

/-- The UTF-8 encodings of the white space runes beyond ASCII (`unicode.IsSpace`):
U+0085, U+00A0, U+1680, U+2000 to U+200A, U+2028, U+2029, U+202F, U+205F, U+3000. -/
def spaceRunes : List (List Byte) :=
  [[0xC2, 0x85], [0xC2, 0xA0], [0xE1, 0x9A, 0x80],
   [0xE2, 0x80, 0x80], [0xE2, 0x80, 0x81], [0xE2, 0x80, 0x82], [0xE2, 0x80, 0x83],
   [0xE2, 0x80, 0x84], [0xE2, 0x80, 0x85], [0xE2, 0x80, 0x86], [0xE2, 0x80, 0x87],
   [0xE2, 0x80, 0x88], [0xE2, 0x80, 0x89], [0xE2, 0x80, 0x8A],
   [0xE2, 0x80, 0xA8], [0xE2, 0x80, 0xA9], [0xE2, 0x80, 0xAF],
   [0xE2, 0x81, 0x9F], [0xE3, 0x80, 0x80]]

/-- Number of bytes of the white space rune at the start of `s`, 0 when `s` does
not start with one. -/
def leadingSpace (s : List Byte) : Nat :=
  match s with
  | [] => 0
  | b :: _ =>
    if asciiSpace b then 1
    else
      match spaceRunes.find? (fun r => r.isPrefixOf s) with
      | some r => r.length
      | none => 0

/-- Number of bytes of the white space rune at the end of `s`, 0 when `s` does
not end with one. -/
def trailingSpace (s : List Byte) : Nat :=
  match s.reverse with
  | [] => 0
  | b :: _ =>
    if asciiSpace b then 1
    else
      match spaceRunes.find? (fun r => r.reverse.isPrefixOf s.reverse) with
      | some r => r.length
      | none => 0

/-- Removal of the leading white space runes, at most `fuel` of them. -/
def trimLeft : Nat → List Byte → List Byte
  | 0, s => s
  | fuel + 1, s =>
    match leadingSpace s with
    | 0 => s
    | n + 1 => trimLeft fuel (s.drop (n + 1))

/-- Removal of the trailing white space runes, at most `fuel` of them. -/
def trimRight : Nat → List Byte → List Byte
  | 0, s => s
  | fuel + 1, s =>
    match trailingSpace s with
    | 0 => s
    | n + 1 => trimRight fuel (s.take (s.length - (n + 1)))

/-- Go `strings.TrimSpace`: the string without its leading and trailing white
space.  Every rune has at least one byte, so `len(s)` rounds suffice. -/
def TrimSpace (s : List Byte) : List Byte :=
  let t := trimLeft s.length s
  trimRight t.length t

/-! ## Records -/

/-- The value a struct field holds, by the type the codec tells apart:
`time.Duration`, then the kinds of the `switch`, then every other kind. -/
inductive Value where
  | duration (ns : SIntN 64)
  | uint8 (v : UIntN 8)
  | uint16 (v : UIntN 16)
  | uint32 (v : UIntN 32)
  | uint64 (v : UIntN 64)
  | int8 (v : SIntN 8)
  | int16 (v : SIntN 16)
  | int32 (v : SIntN 32)
  | int64 (v : SIntN 64)
  | bool (b : Bool)
  | string (s : List Byte)
  | other
  deriving DecidableEq

/-- One struct field: its name, the name of its type, its `unpack` tag when it
has one, and its value. -/
structure Field where
  name : String
  typeName : String
  tag : Option String
  value : Value
  deriving DecidableEq

/-! ## The scalar codec -/

/-- Go `setFieldFromBytes`: the value the field is set to.  On an error or a
fault the field keeps its value, every branch setting the field as its last
step. -/
def setFieldFromBytes (typeName : String) (fieldValue : Value) (data : List Byte)
    (byteOrder : ByteOrder) : Result Value :=
  match fieldValue with
  | .duration _ =>
    if (data.length : Int) < 6 then .error "invalid length for time.Duration"
    else
      match makeBytes (subInt 8 data.length) with
      | .ok pad =>
        match byteOrder.Uint64 (pad ++ data) with
        | .ok val => .ok (.duration (toS 64 val))
        | .error m => .error m
        | .fault => .fault
      | .error m => .error m
      | .fault => .fault
  | .uint8 _ =>
    if (data.length : Int) < 1 then .error "invalid length for uint8"
    else
      match data with
      | b :: _ => .ok (.uint8 (toU 8 b.val))
      | [] => .fault
  | .uint16 _ =>
    if (data.length : Int) < 2 then .error "invalid length for uint16"
    else
      match (slice data 0 2).bind byteOrder.Uint16 with
      | .ok val => .ok (.uint16 (toU 16 val))
      | .error m => .error m
      | .fault => .fault
  | .uint32 _ =>
    if (data.length : Int) < 4 then .error "invalid length for uint32"
    else
      match (slice data 0 4).bind byteOrder.Uint32 with
      | .ok val => .ok (.uint32 (toU 32 val))
      | .error m => .error m
      | .fault => .fault
  | .uint64 _ =>
    if (data.length : Int) < 8 then .error "invalid length for uint64"
    else
      match (slice data 0 8).bind byteOrder.Uint64 with
      | .ok val => .ok (.uint64 (toU 64 val))
      | .error m => .error m
      | .fault => .fault
  | .int8 _ =>
    if (data.length : Int) < 1 then .error "invalid length for int8"
    else
      match data with
      | b :: _ => .ok (.int8 (toS 8 b.val))
      | [] => .fault
  | .int16 _ =>
    if (data.length : Int) < 2 then .error "invalid length for int16"
    else
      match (slice data 0 2).bind byteOrder.Uint16 with
      | .ok val => .ok (.int16 (toS 16 val))
      | .error m => .error m
      | .fault => .fault
  | .int32 _ =>
    if (data.length : Int) < 4 then .error "invalid length for int32"
    else
      match (slice data 0 4).bind byteOrder.Uint32 with
      | .ok val => .ok (.int32 (toS 32 val))
      | .error m => .error m
      | .fault => .fault
  | .int64 _ =>
    if (data.length : Int) < 8 then .error "invalid length for int64"
    else
      match (slice data 0 8).bind byteOrder.Uint64 with
      | .ok val => .ok (.int64 (toS 64 val))
      | .error m => .error m
      | .fault => .fault
  | .bool _ =>
    if (data.length : Int) < 1 then .error "invalid length for bool"
    else
      match data with
      | b :: _ => .ok (.bool (decide (b ≠ 0)))
      | [] => .fault
  | .string _ => .ok (.string (TrimSpace data))
  | .other => .error ("unsupported field type: " ++ typeName)

/-- Go `fieldToBytes`: the bytes of a field value for a declared length. -/
def fieldToBytes (typeName : String) (fieldValue : Value) (length : Int)
    (order : ByteOrder) : Result (List Byte) :=
  match fieldValue with
  | .duration ns => slice (order.PutUint64 (wrapUint 64 ns.val)) (subInt 8 length) 8
  | .uint8 v => .ok [toByte (wrapUint 8 v.val)]
  | .uint16 v => .ok (order.PutUint16 (wrapUint 16 v.val))
  | .uint32 v => .ok (order.PutUint32 (wrapUint 32 v.val))
  | .uint64 v => .ok (order.PutUint64 (wrapUint 64 v.val))
  | .int8 v => .ok [toByte (wrapUint 8 v.val)]
  | .int16 v => .ok (order.PutUint16 (wrapUint 16 v.val))
  | .int32 v => .ok (order.PutUint32 (wrapUint 32 v.val))
  | .int64 v => .ok (order.PutUint64 (wrapUint 64 v.val))
  | .string s =>
    match (if (s.length : Int) > length then slice s 0 length else .ok s) with
    | .ok str =>
      match makeBytes length with
      | .ok buf => .ok (copyBytes buf str)
      | .error m => .error m
      | .fault => .fault
    | .error m => .error m
    | .fault => .fault
  | .bool _ => .error ("unsupported field type: " ++ typeName)
  | .other => .error ("unsupported field type: " ++ typeName)

/-! ## Unpack -/

/-- The body of the loop of `Unpack` for one field: the field after the
iteration, or the error the call returns, or a fault. -/
def unpackField (data : List Byte) (order : ByteOrder) (field : Field) : Result Field :=
  match field.tag with
  | none => .ok field
  | some tag =>
    match parseUnpackTag tag with
    | .error err =>
      .error ("failed parsing unpack tag for field [" ++ field.name ++ "]: " ++ err)
    | .fault => .fault
    | .ok (offset, length) =>
      if addInt offset length > (data.length : Int) then .error "data out of bounds"
      else
        match slice data offset (addInt offset length) with
        | .error m => .error m
        | .fault => .fault
        | .ok fieldBytes =>
          match setFieldFromBytes field.typeName field.value fieldBytes order with
          | .error err => .error ("failed to set field " ++ field.name ++ ": " ++ err)
          | .fault => .fault
          | .ok v => .ok { field with value := v }

/-- What a call of `Unpack` leaves: the struct as mutated and what was returned
(`ok` for a nil error). -/
structure Unpacked where
  record : List Field
  outcome : Result Unit
  deriving DecidableEq

/-- Go `Unpack` on a pointer to a struct: the fields are walked in declaration
order and the first error or fault ends the walk. -/
def Unpack (data : List Byte) (order : ByteOrder) : List Field → Unpacked
  | [] => ⟨[], .ok ()⟩
  | field :: rest =>
    match unpackField data order field with
    | .ok field1 =>
      let r := Unpack data order rest
      ⟨field1 :: r.record, r.outcome⟩
    | .error m => ⟨field :: rest, .error m⟩
    | .fault => ⟨field :: rest, .fault⟩

/-! ## Pack -/

/-- The first loop of `Pack`: the largest `offset + length`, starting from
`maxOffset`. -/
def packSize : List Field → Int → Result Int
  | [], maxOffset => .ok maxOffset
  | field :: rest, maxOffset =>
    if field.tag.getD "" = "" then packSize rest maxOffset
    else
      match parseUnpackTag (field.tag.getD "") with
      | .error m => .error m
      | .fault => .fault
      | .ok (offset, length) =>
        if addInt offset length > maxOffset then packSize rest (addInt offset length)
        else packSize rest maxOffset

/-- The body of the second loop of `Pack` for one field: a tagged field is
converted and copied into its span of `result`. -/
def packField (order : ByteOrder) (field : Field) (result : List Byte) : Result (List Byte) :=
  if field.tag.getD "" = "" then .ok result
  else
    match parseUnpackTag (field.tag.getD "") with
    | .error m => .error m
    | .fault => .fault
    | .ok (offset, length) =>
      match fieldToBytes field.typeName field.value length order with
      | .error err =>
        .error ("failed to convert field [" ++ field.name ++ "] to bytes: " ++ err)
      | .fault => .fault
      | .ok fieldBytes => copyAt result offset (addInt offset length) fieldBytes

/-- The second loop of `Pack`, over the fields in declaration order. -/
def packFields (order : ByteOrder) : List Field → List Byte → Result (List Byte)
  | [], result => .ok result
  | field :: rest, result =>
    match packField order field result with
    | .error m => .error m
    | .fault => .fault
    | .ok result1 => packFields order rest result1

/-- Go `Pack` on a pointer to a struct. -/
def Pack (order : ByteOrder) (dataStruct : List Field) : Result (List Byte) :=
  match packSize dataStruct 0 with
  | .error m => .error m
  | .fault => .fault
  | .ok maxOffset =>
    match makeBytes maxOffset with
    | .error m => .error m
    | .fault => .fault
    | .ok result => packFields order dataStruct result

/-- The `SystemEvent` struct of `cmd/unpacket/main.go`. -/
def systemEvent (ts : SIntN 64) (loc trk : UIntN 16) (code : UIntN 8) : List Field :=
  [⟨"Timestamp", "time.Duration", some "offset=5,length=6", .duration ts⟩,
   ⟨"StockLocate", "uint16", some "offset=1,length=2", .uint16 loc⟩,
   ⟨"TrackingNumber", "uint16", some "offset=3,length=2", .uint16 trk⟩,
   ⟨"EventCode", "main.EventCode", some "offset=11,length=1", .uint8 code⟩]

/-! ## Tags as the claims describe them -/

/-- The decimal digits of `n` put in front of `acc`, most significant first;
`fuel` bounds the number of digits. -/
def decimalDigits : Nat → Nat → List Char → List Char
  | 0, _, acc => acc
  | fuel + 1, n, acc =>
    if n / 10 = 0 then Nat.digitChar (n % 10) :: acc
    else decimalDigits fuel (n / 10) (Nat.digitChar (n % 10) :: acc)

/-- The decimal numeral of an integer: a minus sign when it is negative, then
the digits of its absolute value. -/
def decimal (i : Int) : List Char :=
  if i < 0 then '-' :: decimalDigits (i.natAbs + 1) i.natAbs []
  else decimalDigits (i.natAbs + 1) i.natAbs []

/-- The parts of a tag put together with commas in between. -/
def joinComma : List (List Char) → List Char
  | [] => []
  | [p] => p
  | p :: q :: ps => p ++ ',' :: joinComma (q :: ps)

/-- The part `offset=<o>` of a tag. -/
def offsetPart (o : Int) : List Char := "offset=".toList ++ decimal o

/-- The part `length=<l>` of a tag. -/
def lengthPart (l : Int) : List Char := "length=".toList ++ decimal l

/-- A part of a tag whose key is neither `offset` nor `length`: it holds no
comma and starts with neither `offset=` nor `length=`. -/
def OtherPart (p : List Char) : Prop :=
  ',' ∉ p ∧ startsWith "offset=".toList p = false ∧ startsWith "length=".toList p = false

/-- The parts of a tag that gives offset `o` and length `l`, both machine
integers: `offset=<o>` and `length=<l>` are among them, in any order, and
every other part has another key. -/
def TagParts (o l : Int) (parts : List (List Char)) : Prop :=
  (minInt ≤ o ∧ o ≤ maxInt) ∧ (minInt ≤ l ∧ l ≤ maxInt) ∧
  offsetPart o ∈ parts ∧ lengthPart l ∈ parts ∧
  ∀ p ∈ parts, p = offsetPart o ∨ p = lengthPart l ∨ OtherPart p

/-! ## Reference values of integer fields -/

/-- The big-endian value of a byte string: the sum of `b[i] * 256^(w-1-i)`. -/
def bigEndianValue (bs : List Byte) : Nat :=
  ((List.range bs.length).map (fun i => (bs.getD i 0).val * 256 ^ (bs.length - 1 - i))).sum

/-- The little-endian value of a byte string: the sum of `b[i] * 256^i`. -/
def littleEndianValue (bs : List Byte) : Nat :=
  ((List.range bs.length).map (fun i => (bs.getD i 0).val * 256 ^ i)).sum

/-- The value of a byte string under a byte order. -/
def orderValue : ByteOrder → List Byte → Nat
  | .BigEndian, bs => bigEndianValue bs
  | .LittleEndian, bs => littleEndianValue bs

/-- The two's-complement reading of an unsigned value of `w` bytes:
`value - 2^(8w)` when `value >= 2^(8w-1)`. -/
def twosComplement (w : Nat) (value : Nat) : Int :=
  if value ≥ 2 ^ (8 * w - 1) then (value : Int) - 2 ^ (8 * w) else (value : Int)

/-- The eight integer types of the codec. -/
inductive IntType where
  | uint8 | uint16 | uint32 | uint64 | int8 | int16 | int32 | int64
  deriving DecidableEq, Repr

/-- Byte width of an integer type. -/
def IntType.width : IntType → Nat
  | .uint8 => 1 | .uint16 => 2 | .uint32 => 4 | .uint64 => 8
  | .int8 => 1 | .int16 => 2 | .int32 => 4 | .int64 => 8

/-- Whether an integer type is signed. -/
def IntType.signed : IntType → Bool
  | .uint8 => false | .uint16 => false | .uint32 => false | .uint64 => false
  | .int8 => true | .int16 => true | .int32 => true | .int64 => true

/-- The integer type of a value, `none` for the other types. -/
def Value.intType : Value → Option IntType
  | .uint8 _ => some .uint8 | .uint16 _ => some .uint16
  | .uint32 _ => some .uint32 | .uint64 _ => some .uint64
  | .int8 _ => some .int8 | .int16 _ => some .int16
  | .int32 _ => some .int32 | .int64 _ => some .int64
  | _ => none

/-- The number an integer or duration value holds (0 for the other types). -/
def Value.toInt : Value → Int
  | .duration ns => ns.val
  | .uint8 v => v.val | .uint16 v => v.val | .uint32 v => v.val | .uint64 v => v.val
  | .int8 v => v.val | .int16 v => v.val | .int32 v => v.val | .int64 v => v.val
  | _ => 0

/-- The number the reference definition gives an integer field of type `t` for
the bytes of its span. -/
def referenceInt (t : IntType) (order : ByteOrder) (span : List Byte) : Int :=
  if t.signed then twosComplement t.width (orderValue order span)
  else (orderValue order span : Int)

/-- The bytes of `data` at indices `offset` to `offset + length - 1`. -/
def spanBytes (data : List Byte) (offset length : Int) : List Byte :=
  (data.drop offset.toNat).take length.toNat

/-! ## Spans of a record -/

/-- The offset and length the tag of a field declares, `none` for a field
without a tag or with a tag that `parseUnpackTag` rejects. -/
def Field.span (f : Field) : Option (Int × Int) :=
  match f.tag with
  | none => none
  | some tag =>
    match parseUnpackTag tag with
    | .ok p => some p
    | _ => none

/-- Whether byte index `i` lies in the span `[offset, offset+length)` of a field. -/
def Field.covers (f : Field) (i : Nat) : Bool :=
  match f.span with
  | some (o, l) => decide (o ≤ (i : Int) ∧ (i : Int) < o + l)
  | none => false

/-- The largest `offset + length` over the spans of the fields, and `m`. -/
def maxSpanFrom : List Field → Int → Int
  | [], m => m
  | f :: fs, m =>
    match f.span with
    | some (o, l) => maxSpanFrom fs (max m (o + l))
    | none => maxSpanFrom fs m

/-- The largest `offset + length` over the spans of a record, 0 without spans. -/
def maxSpan (r : List Field) : Int := maxSpanFrom r 0

/-! ## Records of integer fields -/

/-- The type of a value, as a number: 0 for `time.Duration`, 1 to 8 for the
integer types, 9 for `bool`, 10 for `string`, 11 for every other type. -/
def Value.kind : Value → Nat
  | .duration _ => 0
  | .uint8 _ => 1
  | .uint16 _ => 2
  | .uint32 _ => 3
  | .uint64 _ => 4
  | .int8 _ => 5
  | .int16 _ => 6
  | .int32 _ => 7
  | .int64 _ => 8
  | .bool _ => 9
  | .string _ => 10
  | .other => 11

/-- Two fields of one struct type at the same position: same name, type and tag;
the values held may differ. -/
def sameLayout (f g : Field) : Prop :=
  f.name = g.name ∧ f.typeName = g.typeName ∧ f.tag = g.tag ∧
    f.value.kind = g.value.kind

/-- A field that, when tagged, is of an integer type, at a non-negative offset
and with the byte width of its type as declared length. -/
def IntegerField (f : Field) : Prop :=
  match f.tag, f.span, f.value.intType with
  | none, _, _ => True
  | some _, some (o, l), some t => 0 ≤ o ∧ l = (t.width : Int)
  | _, _, _ => False

instance (f : Field) : Decidable (IntegerField f) := by
  unfold IntegerField
  split <;> infer_instance

/-- The spans of two fields do not overlap. -/
def disjointSpans (f g : Field) : Prop :=
  match f.span, g.span with
  | some (o1, l1), some (o2, l2) => o1 + l1 ≤ o2 ∨ o2 + l2 ≤ o1
  | _, _ => True

instance (f g : Field) : Decidable (disjointSpans f g) := by
  unfold disjointSpans
  split <;> infer_instance

/-- The span of a field ends at or below the allocation limit of the runtime. -/
def Field.fits (f : Field) : Prop :=
  match f.span with
  | some (o, l) => o + l ≤ maxAlloc
  | none => True

instance (f : Field) : Decidable f.fits := by
  unfold Field.fits
  split <;> infer_instance

/-- The integer round trip on a record `r` and a second struct `q` of the same
type, under a byte order: `Pack` gives a buffer, and `Unpack` of that buffer into
`q` succeeds and leaves every tagged field of `q` equal to that of `r`. -/
def IntegerRoundTrip (order : ByteOrder) (r q : List Field) : Prop :=
  ∃ b, Pack order r = .ok b ∧ (Unpack b order q).outcome = .ok () ∧
    ∀ (i : Nat) (f : Field), r[i]? = some f → f.tag ≠ none → (Unpack b order q).record[i]? = some f

/-! ## Reference byte strings -/

/-- The `w`-byte big-endian representation of `v`: byte `i` is
`v / 256^(w-1-i)` modulo 256. -/
def bigEndianBytes (w : Nat) (v : Nat) : List Byte :=
  (List.range w).map (fun i => toByte (v / 256 ^ (w - 1 - i)))

/-- The `w`-byte little-endian representation of `v`: byte `i` is `v / 256^i`
modulo 256. -/
def littleEndianBytes (w : Nat) (v : Nat) : List Byte :=
  (List.range w).map (fun i => toByte (v / 256 ^ i))

/-! ## Reference encodings of durations and text -/

/-- The `w`-byte representation of `v` under a byte order. -/
def orderBytes : ByteOrder → Nat → Nat → List Byte
  | .BigEndian, w, v => bigEndianBytes w v
  | .LittleEndian, w, v => littleEndianBytes w v

/-- The last `n` bytes of the 8-byte encoding, under a byte order, of a duration
taken as a 64-bit value (a negative one modulo `2^64`). -/
def durationTail (order : ByteOrder) (d : SIntN 64) (n : Int) : List Byte :=
  (orderBytes order 8 (wrapUint 64 d.val)).drop (8 - n).toNat

/-- The text `s` cut or padded to `n` bytes: the first `min(len(s), n)` bytes of
`s`, then `n - min(len(s), n)` zero bytes. -/
def paddedText (s : List Byte) (n : Nat) : List Byte :=
  s.take (min s.length n) ++ List.replicate (n - min s.length n) 0

/-- The span of a duration field with `8 - len(span)` zero bytes put in front. -/
def zeroPadded (span : List Byte) : List Byte :=
  List.replicate (8 - span.length) 0 ++ span

/-- A duration field is decoded by the rule of the claim: `Unpack` sets it, from
the bytes of its span `[o, o+n)`, to the duration whose 64-bit value is the
unsigned integer read, in the byte order, from the span with zero bytes put in
front. -/
def DurationDecoded (data : List Byte) (order : ByteOrder) (f : Field) (o n : Int) : Prop :=
  ∃ d : SIntN 64, unpackField data order f = .ok { f with value := .duration d } ∧
    wrapUint 64 d.val = orderValue order (zeroPadded (spanBytes data o n))

/-! ## Well-formed tags and encodable fields -/

/-- Whether a call ended in a value. -/
def Result.isOk {α : Type} : Result α → Bool
  | .ok _ => true
  | _ => false

/-- A field whose tag, when it has one, is accepted by `parseUnpackTag`. -/
def Field.wellFormed (f : Field) : Prop :=
  match f.tag with
  | none => True
  | some tag => (parseUnpackTag tag).isOk = true

instance (f : Field) : Decidable f.wellFormed := by
  unfold Field.wellFormed
  split <;> infer_instance

/-- A field that `Pack` can encode: when it has a span, `fieldToBytes` gives
bytes for it and the span is a range of byte indices, offset and length
non-negative and their sum at most the allocation limit of the runtime. -/
def Field.encodable (order : ByteOrder) (f : Field) : Prop :=
  match f.span with
  | none => True
  | some (o, l) =>
    (fieldToBytes f.typeName f.value l order).isOk = true ∧ 0 ≤ o ∧ 0 ≤ l ∧ o + l ≤ maxAlloc

instance (order : ByteOrder) (f : Field) : Decidable (f.encodable order) := by
  unfold Field.encodable
  split <;> infer_instance

/-- The sum of offset and length of a field, as the first loop of `Pack` computes
it in `int` arithmetic, is at most the allocation limit of the runtime. -/
def Field.withinLimit (f : Field) : Prop :=
  match f.span with
  | none => True
  | some (o, l) => addInt o l ≤ maxAlloc

instance (f : Field) : Decidable f.withinLimit := by
  unfold Field.withinLimit
  split <;> infer_instance

/-! ## Malformed values in a tag -/

/-- The number a run of decimal digits denotes. -/
def digitsValue (s : List Char) : Nat :=
  s.foldl (fun acc c => acc * 10 + (c.toNat - 48)) 0

/-- Whether a string is a base-10 integer: an optional sign, then one or more of
the digits `0` to `9`. -/
def isNumeral (s : List Char) : Bool :=
  match s with
  | [] => false
  | c :: rest =>
    if c = '-' ∨ c = '+' then !rest.isEmpty && rest.all isDigit else s.all isDigit

/-- The integer a base-10 integer denotes. -/
def numeralValue (s : List Char) : Int :=
  match s with
  | [] => 0
  | c :: rest =>
    if c = '-' then -(digitsValue rest : Int)
    else if c = '+' then (digitsValue rest : Int)
    else (digitsValue s : Int)

/-- Whether a string is a base-10 integer within the range of a machine `int`. -/
def isMachineInt (s : List Char) : Bool :=
  isNumeral s && decide (minInt ≤ numeralValue s ∧ numeralValue s ≤ maxInt)

/-- Whether a part of a tag starts with `offset=` or `length=` and has a value
that is not an integer, for a given notion of integer. -/
def badPart (isInt : List Char → Bool) (p : List Char) : Bool :=
  if startsWith "offset=".toList p then !isInt (dropLead "offset=".toList p)
  else if startsWith "length=".toList p then !isInt (dropLead "length=".toList p)
  else false

/-- The error the claim names for a bad part: "invalid offset" for an offset
part, "invalid length" for a length part. -/
def badPartError (p : List Char) : String :=
  if startsWith "offset=".toList p then "invalid offset" else "invalid length"

/-! ## The package-level buffers as state shared between calls -/

/-- The package-level variables `buf2`, `buf4` and `buf8`. -/
structure Scratch where
  buf2 : List Byte
  buf4 : List Byte
  buf8 : List Byte
  deriving DecidableEq

/-- The buffers as the package initialises them: `make([]byte, 2)`,
`make([]byte, 4)`, `make([]byte, 8)`. -/
def Scratch.init : Scratch := ⟨[0, 0], [0, 0, 0, 0], [0, 0, 0, 0, 0, 0, 0, 0]⟩

/-- The slice `fieldToBytes` returns: one allocated by the call, or one of the
package-level buffers. -/
inductive Encoded where
  | fresh (bytes : List Byte)
  | shared2
  | shared4
  | shared8
  deriving DecidableEq

/-- The bytes of a returned slice at the time it is read. -/
def Encoded.read : Encoded → Scratch → List Byte
  | .fresh bytes, _ => bytes
  | .shared2, g => g.buf2
  | .shared4, g => g.buf4
  | .shared8, g => g.buf8

/-- A slice allocated by the call, from the outcome of the expression that
builds it. -/
def Encoded.ofResult : Result (List Byte) → Result Encoded
  | .ok bytes => .ok (.fresh bytes)
  | .error m => .error m
  | .fault => .fault

/-- Go `fieldToBytes` with the package-level buffers as explicit state: the
2-, 4- and 8-byte integers are written into `buf2`, `buf4`, `buf8` and the
buffer itself is returned; the other branches return a slice of their own. -/
def fieldToBytesShared (typeName : String) (fieldValue : Value) (length : Int)
    (order : ByteOrder) (g : Scratch) : Result Encoded × Scratch :=
  match fieldValue with
  | .uint16 v => (.ok .shared2, { g with buf2 := order.PutUint16 (wrapUint 16 v.val) })
  | .uint32 v => (.ok .shared4, { g with buf4 := order.PutUint32 (wrapUint 32 v.val) })
  | .uint64 v => (.ok .shared8, { g with buf8 := order.PutUint64 (wrapUint 64 v.val) })
  | .int16 v => (.ok .shared2, { g with buf2 := order.PutUint16 (wrapUint 16 v.val) })
  | .int32 v => (.ok .shared4, { g with buf4 := order.PutUint32 (wrapUint 32 v.val) })
  | .int64 v => (.ok .shared8, { g with buf8 := order.PutUint64 (wrapUint 64 v.val) })
  | v => (Encoded.ofResult (fieldToBytes typeName v length order), g)

/-- A call of `Pack` in its second loop: the fields still to process, the
result buffer, the slice `fieldToBytes` returned with the offset and length of
its span while it waits to be copied, and what the call returned once it has
ended. -/
structure PackCall where
  order : ByteOrder
  rest : List Field
  result : List Byte
  pending : Option (Encoded × Int × Int)
  returned : Option (Result (List Byte))
  deriving DecidableEq

/-- The start of a call of `Pack`: the first loop and the allocation of the
result, which touch no shared state. -/
def PackCall.start (order : ByteOrder) (dataStruct : List Field) : PackCall :=
  match packSize dataStruct 0 with
  | .error m => ⟨order, [], [], none, some (.error m)⟩
  | .fault => ⟨order, [], [], none, some .fault⟩
  | .ok maxOffset =>
    match makeBytes maxOffset with
    | .error m => ⟨order, [], [], none, some (.error m)⟩
    | .fault => ⟨order, [], [], none, some .fault⟩
    | .ok result => ⟨order, dataStruct, result, none, none⟩

/-- One step of a call of `Pack` on the shared buffers: the copy of a slice that
waits, or else the tag parse and `fieldToBytes` of the next field, or the
return at the end of the loop.  A call that has returned does nothing. -/
def PackCall.step (c : PackCall) (g : Scratch) : PackCall × Scratch :=
  match c.returned with
  | some _ => (c, g)
  | none =>
    match c.pending with
    | some (e, offset, length) =>
      match copyAt c.result offset (addInt offset length) (e.read g) with
      | .ok result1 => ({ c with result := result1, pending := none }, g)
      | .error m => ({ c with returned := some (.error m) }, g)
      | .fault => ({ c with returned := some .fault }, g)
    | none =>
      match c.rest with
      | [] => ({ c with returned := some (.ok c.result) }, g)
      | field :: rest =>
        if field.tag.getD "" = "" then ({ c with rest := rest }, g)
        else
          match parseUnpackTag (field.tag.getD "") with
          | .error m => ({ c with returned := some (.error m) }, g)
          | .fault => ({ c with returned := some .fault }, g)
          | .ok (offset, length) =>
            match fieldToBytesShared field.typeName field.value length c.order g with
            | (.error err, g1) =>
              ({ c with returned := some (.error
                  ("failed to convert field [" ++ field.name ++ "] to bytes: " ++ err)) }, g1)
            | (.fault, g1) => ({ c with returned := some .fault }, g1)
            | (.ok e, g1) => ({ c with rest := rest, pending := some (e, offset, length) }, g1)

/-- A call running alone for `n` steps. -/
def PackCall.run : Nat → PackCall → Scratch → PackCall × Scratch
  | 0, c, g => (c, g)
  | n + 1, c, g => PackCall.run n (c.step g).1 (c.step g).2

/-- Two calls running on the same buffers under a schedule: at each entry the
first call takes a step when the entry is `true`, the second when it is
`false`. -/
def runTwo : List Bool → PackCall → PackCall → Scratch → PackCall × PackCall × Scratch
  | [], a, b, g => (a, b, g)
  | true :: s, a, b, g => runTwo s (a.step g).1 b (a.step g).2
  | false :: s, a, b, g => runTwo s a (b.step g).1 (b.step g).2


/-! ## Records that decode and encode again -/

/-- A field that, when tagged, is an integer with the byte width of its type as
declared length or a `time.Duration` with a declared length from 6 to 8, at a
non-negative offset and with its span inside a buffer of `size` bytes. -/
def LayoutField (size : Nat) (f : Field) : Prop :=
  match f.tag, f.span, f.value.intType with
  | none, _, _ => True
  | some _, some (o, l), some t => 0 ≤ o ∧ o + l ≤ (size : Int) ∧ l = (t.width : Int)
  | some _, some (o, l), none =>
    0 ≤ o ∧ o + l ≤ (size : Int) ∧ f.value.kind = 0 ∧ 6 ≤ l ∧ l ≤ 8
  | _, _, _ => False

instance (size : Nat) (f : Field) : Decidable (LayoutField size f) := by
  unfold LayoutField
  split <;> infer_instance

/-! ## Lemmas on the tag parser -/

theorem digitChar_spec (m : Nat) (h : m < 10) :
    isDigit (Nat.digitChar m) = true ∧ (Nat.digitChar m).toNat - 48 = m ∧
    Nat.digitChar m ≠ ',' ∧ Nat.digitChar m ≠ '-' ∧ Nat.digitChar m ≠ '+' := by
  interval_cases m <;> decide

theorem parseDigits_decimalDigits (fuel : Nat) :
    ∀ (n : Nat) (acc : List Char) (a : Nat), n < fuel →
      ∃ k, parseDigits (decimalDigits fuel n acc) a = parseDigits acc (a * 10 ^ k + n) := by
  induction fuel with
  | zero => intro n acc a h; omega
  | succ fuel ih =>
    intro n acc a h
    have hd := digitChar_spec (n % 10) (Nat.mod_lt _ (by decide))
    unfold decimalDigits
    by_cases h0 : n / 10 = 0
    · refine ⟨1, ?_⟩
      simp only [h0, if_true, parseDigits, hd.1, hd.2.1]
      congr 1; omega
    · obtain ⟨k, hk⟩ := ih (n / 10) (Nat.digitChar (n % 10) :: acc) a (by omega)
      refine ⟨k + 1, ?_⟩
      simp only [h0, if_false, hk, parseDigits, hd.1, hd.2.1, if_true]
      congr 1
      rw [pow_succ]
      have := Nat.div_add_mod n 10
      nlinarith [this]

theorem decimalDigits_head (fuel : Nat) :
    ∀ (n : Nat) (acc : List Char), 0 < fuel →
      ∃ c cs, decimalDigits fuel n acc = c :: cs ∧ c ≠ '-' ∧ c ≠ '+' := by
  induction fuel with
  | zero => intro n acc h; omega
  | succ fuel ih =>
    intro n acc _
    have hd := digitChar_spec (n % 10) (Nat.mod_lt _ (by decide))
    unfold decimalDigits
    by_cases h0 : n / 10 = 0
    · rw [if_pos h0]
      exact ⟨_, _, rfl, hd.2.2.2.1, hd.2.2.2.2⟩
    · rw [if_neg h0]
      rcases Nat.eq_zero_or_pos fuel with hf | hf
      · subst hf
        exact ⟨_, _, rfl, hd.2.2.2.1, hd.2.2.2.2⟩
      · exact ih _ _ hf

theorem decimalDigits_no_comma (fuel : Nat) :
    ∀ (n : Nat) (acc : List Char), ',' ∉ acc → ',' ∉ decimalDigits fuel n acc := by
  induction fuel with
  | zero => intro n acc h; simpa only [decimalDigits] using h
  | succ fuel ih =>
    intro n acc h
    have hd := digitChar_spec (n % 10) (Nat.mod_lt _ (by decide))
    have hacc : ',' ∉ Nat.digitChar (n % 10) :: acc := by
      simp only [List.mem_cons, not_or]
      exact ⟨fun e => hd.2.2.1 e.symm, h⟩
    unfold decimalDigits
    by_cases h0 : n / 10 = 0
    · simpa only [h0, if_true] using hacc
    · simpa only [h0, if_false] using ih _ _ hacc

theorem decimal_no_comma (i : Int) : ',' ∉ decimal i := by
  unfold decimal
  have h := decimalDigits_no_comma (i.natAbs + 1) i.natAbs [] (by simp)
  split
  · simp only [List.mem_cons, not_or]
    exact ⟨by decide, h⟩
  · exact h

theorem Atoi_decimal (i : Int) (h : minInt ≤ i ∧ i ≤ maxInt) : Atoi (decimal i) = some i := by
  obtain ⟨k, hk⟩ := parseDigits_decimalDigits (i.natAbs + 1) i.natAbs [] 0 (by omega)
  obtain ⟨c, cs, hc, hc1, hc2⟩ := decimalDigits_head (i.natAbs + 1) i.natAbs [] (by omega)
  simp only [parseDigits, zero_mul, zero_add] at hk
  unfold decimal
  by_cases hneg : i < 0
  · simp only [hneg, if_true, Atoi, true_or, decide_True]
    rw [hc] at hk ⊢
    simp only [hk]
    have : -((i.natAbs : Nat) : Int) = i := by omega
    simp only [this, h, and_self, if_true]
  · simp only [hneg, if_false]
    rw [hc] at hk ⊢
    simp only [Atoi, hc1, hc2, or_self, if_false, decide_False, hk]
    have : ((i.natAbs : Nat) : Int) = i := by omega
    simp [this, h]

theorem splitOn_ne_nil (sep : Char) (s : List Char) : splitOn sep s ≠ [] := by
  cases s with
  | nil => simp [splitOn]
  | cons c cs =>
    unfold splitOn
    split
    · simp
    · split <;> simp

theorem splitOn_no_sep (sep : Char) (p : List Char) (h : sep ∉ p) : splitOn sep p = [p] := by
  induction p with
  | nil => rfl
  | cons c cs ih =>
    simp only [List.mem_cons, not_or] at h
    have hc : ¬ c = sep := fun e => h.1 e.symm
    simp only [splitOn, hc, if_false, ih h.2]

theorem splitOn_append (sep : Char) (p rest : List Char) (h : sep ∉ p) :
    splitOn sep (p ++ sep :: rest) = p :: splitOn sep rest := by
  induction p with
  | nil => simp [splitOn]
  | cons c cs ih =>
    simp only [List.mem_cons, not_or] at h
    have hc : ¬ c = sep := fun e => h.1 e.symm
    simp only [List.cons_append, splitOn, hc, if_false, List.append_eq, ih h.2]

theorem splitOn_joinComma (parts : List (List Char)) (hne : parts ≠ [])
    (h : ∀ p ∈ parts, ',' ∉ p) : splitOn ',' (joinComma parts) = parts := by
  induction parts with
  | nil => exact absurd rfl hne
  | cons p ps ih =>
    cases ps with
    | nil => exact splitOn_no_sep _ _ (h p (by simp))
    | cons q qs =>
      simp only [joinComma]
      rw [splitOn_append _ _ _ (h p (by simp)), ih (by simp) (fun x hx => h x (by simp [hx]))]

theorem startsWith_append (lead s : List Char) : startsWith lead (lead ++ s) = true := by
  simp [startsWith]

theorem dropLead_append (lead s : List Char) : dropLead lead (lead ++ s) = s := by
  simp [dropLead, startsWith_append]

theorem startsWith_offset_lengthPart (l : Int) :
    startsWith "offset=".toList (lengthPart l) = false := by
  rfl

theorem parseParts_tagParts (o l : Int) (ho : minInt ≤ o ∧ o ≤ maxInt)
    (hl : minInt ≤ l ∧ l ≤ maxInt) (parts : List (List Char)) :
    ∀ (o0 l0 : Int),
      (∀ p ∈ parts, p = offsetPart o ∨ p = lengthPart l ∨ OtherPart p) →
      parseParts parts o0 l0 =
        .ok (if offsetPart o ∈ parts then o else o0, if lengthPart l ∈ parts then l else l0) := by
  induction parts with
  | nil => intro o0 l0 _; simp [parseParts]
  | cons p ps ih =>
    intro o0 l0 h
    have hps : ∀ q ∈ ps, q = offsetPart o ∨ q = lengthPart l ∨ OtherPart q :=
      fun q hq => h q (by simp [hq])
    have hso : startsWith "offset=".toList (offsetPart o) = true := startsWith_append _ _
    have hsl : startsWith "length=".toList (lengthPart l) = true := startsWith_append _ _
    have hne : offsetPart o ≠ lengthPart l := by
      intro e
      have h1 := startsWith_offset_lengthPart l
      rw [← e, hso] at h1
      cases h1
    rcases h p (by simp) with hp | hp | hp
    · subst hp
      have h2 : dropLead "offset=".toList (offsetPart o) = decimal o := dropLead_append _ _
      rw [parseParts, if_pos hso, h2, Atoi_decimal o ho]
      simp only [ih _ _ hps, List.mem_cons, true_or, if_true, hne.symm, false_or, ite_self]
    · subst hp
      have h0 := startsWith_offset_lengthPart l
      have h2 : dropLead "length=".toList (lengthPart l) = decimal l := dropLead_append _ _
      rw [parseParts, if_neg (by rw [h0]; decide), if_pos hsl, h2, Atoi_decimal l hl]
      simp only [ih _ _ hps, List.mem_cons, true_or, if_true, hne, false_or, ite_self]
    · obtain ⟨_, hp1, hp2⟩ := hp
      have e1 : offsetPart o ≠ p := by
        intro e; rw [← e, hso] at hp1; cases hp1
      have e2 : lengthPart l ≠ p := by
        intro e; rw [← e, hsl] at hp2; cases hp2
      rw [parseParts, if_neg (by rw [hp1]; decide), if_neg (by rw [hp2]; decide)]
      simp only [ih _ _ hps, List.mem_cons, e1, e2, false_or]

/-! ## Machine arithmetic -/

theorem wrapInt_eq_self (x : Int) (h : minInt ≤ x ∧ x ≤ maxInt) : wrapInt 64 x = x := by
  unfold wrapInt minInt maxInt at *
  norm_num at *
  omega

theorem addInt_eq (a b : Int) (h : minInt ≤ a + b ∧ a + b ≤ maxInt) : addInt a b = a + b :=
  wrapInt_eq_self _ h

theorem lor_shiftLeft (a b k : Nat) (h : a < 2 ^ k) : a ||| (b <<< k) = a + b * 2 ^ k := by
  rw [Nat.or_comm, Nat.shiftLeft_eq, Nat.mul_comm, ← Nat.mul_add_lt_is_or h, Nat.add_comm,
    Nat.mul_comm]

theorem uint16_value (a b : Byte) : a.val ||| (b.val <<< 8) = a.val + b.val * 256 := by
  rw [lor_shiftLeft _ _ _ (by have := a.isLt; omega)]
  norm_num

theorem uint32_value (a b c d : Byte) :
    a.val ||| (b.val <<< 8) ||| (c.val <<< 16) ||| (d.val <<< 24)
      = a.val + b.val * 256 + c.val * 65536 + d.val * 16777216 := by
  have ha := a.isLt; have hb := b.isLt; have hc := c.isLt; have hd := d.isLt
  rw [lor_shiftLeft a.val _ 8 (by omega), lor_shiftLeft _ _ 16 (by omega),
    lor_shiftLeft _ _ 24 (by omega)]
  norm_num

theorem uint64_value (a b c d e f g h : Byte) :
    a.val ||| (b.val <<< 8) ||| (c.val <<< 16) ||| (d.val <<< 24)
      ||| (e.val <<< 32) ||| (f.val <<< 40) ||| (g.val <<< 48) ||| (h.val <<< 56)
      = a.val + b.val * 256 + c.val * 65536 + d.val * 16777216 + e.val * 4294967296
        + f.val * 1099511627776 + g.val * 281474976710656 + h.val * 72057594037927936 := by
  have ha := a.isLt; have hb := b.isLt; have hc := c.isLt; have hd := d.isLt
  have he := e.isLt; have hf := f.isLt; have hg := g.isLt
  rw [lor_shiftLeft a.val _ 8 (by omega), lor_shiftLeft _ _ 16 (by omega),
    lor_shiftLeft _ _ 24 (by omega), lor_shiftLeft _ _ 32 (by omega),
    lor_shiftLeft _ _ 40 (by omega), lor_shiftLeft _ _ 48 (by omega),
    lor_shiftLeft _ _ 56 (by omega)]
  norm_num

theorem length_eq_four {α : Type} (l : List α) (h : l.length = 4) :
    ∃ a b c d, l = [a, b, c, d] := by
  rcases l with _ | ⟨a, _ | ⟨b, _ | ⟨c, _ | ⟨d, _ | ⟨e, l⟩⟩⟩⟩⟩ <;> simp at h
  exact ⟨a, b, c, d, rfl⟩

theorem length_eq_eight {α : Type} (l : List α) (h : l.length = 8) :
    ∃ a b c d e f g k, l = [a, b, c, d, e, f, g, k] := by
  rcases l with _ | ⟨a, _ | ⟨b, _ | ⟨c, _ | ⟨d, _ | ⟨e, _ | ⟨f, _ | ⟨g, _ | ⟨k, _ | ⟨m, l⟩⟩⟩⟩⟩⟩⟩⟩⟩ <;>
    simp at h
  exact ⟨a, b, c, d, e, f, g, k, rfl⟩

theorem range_one : List.range 1 = [0] := rfl

/-! ## Decoding of integers -/

theorem setFieldFromBytes_int (tn : String) (fv : Value) (t : IntType) (data : List Byte)
    (order : ByteOrder) (ht : fv.intType = some t) (hlen : data.length = t.width) :
    ∃ v, setFieldFromBytes tn fv data order = .ok v ∧ v.intType = some t ∧
      v.toInt = referenceInt t order data := by
  cases fv <;> simp only [Value.intType, Option.some.injEq, reduceCtorEq] at ht <;> subst ht <;>
    simp only [IntType.width] at hlen
  · obtain ⟨a, rfl⟩ := List.length_eq_one.mp hlen
    have ha := a.isLt
    refine ⟨_, rfl, rfl, ?_⟩
    cases order <;>
      simp [referenceInt, IntType.signed, Value.toInt,
        orderValue, bigEndianValue, littleEndianValue, toU, wrapUint, range_one] <;> omega
  · obtain ⟨a, b, rfl⟩ := List.length_eq_two.mp hlen
    have ha := a.isLt; have hb := b.isLt
    cases order <;> refine ⟨_, rfl, rfl, ?_⟩ <;>
      simp [slice, Result.bind, ByteOrder.Uint16, referenceInt, IntType.signed, Value.toInt,
        orderValue, bigEndianValue, littleEndianValue, toU, wrapUint, uint16_value,
        List.range_succ] <;> omega
  · obtain ⟨a, b, c, d, rfl⟩ := length_eq_four _ hlen
    have ha := a.isLt; have hb := b.isLt; have hc := c.isLt; have hd := d.isLt
    cases order <;> refine ⟨_, rfl, rfl, ?_⟩ <;>
      simp [slice, Result.bind, ByteOrder.Uint32, referenceInt, IntType.signed, Value.toInt,
        orderValue, bigEndianValue, littleEndianValue, toU, wrapUint, uint32_value,
        List.range_succ] <;> omega
  · obtain ⟨a, b, c, d, e, f, g, k, rfl⟩ := length_eq_eight _ hlen
    have ha := a.isLt; have hb := b.isLt; have hc := c.isLt; have hd := d.isLt
    have he := e.isLt; have hf := f.isLt; have hg := g.isLt; have hk := k.isLt
    cases order <;> refine ⟨_, rfl, rfl, ?_⟩ <;>
      simp [slice, Result.bind, ByteOrder.Uint64, referenceInt, IntType.signed, Value.toInt,
        orderValue, bigEndianValue, littleEndianValue, toU, wrapUint, uint64_value,
        List.range_succ] <;> omega
  · obtain ⟨a, rfl⟩ := List.length_eq_one.mp hlen
    have ha := a.isLt
    refine ⟨_, rfl, rfl, ?_⟩
    cases order <;>
      simp [referenceInt, IntType.signed, IntType.width, Value.toInt, twosComplement,
        orderValue, bigEndianValue, littleEndianValue, toS, wrapInt, range_one] <;> omega
  · obtain ⟨a, b, rfl⟩ := List.length_eq_two.mp hlen
    have ha := a.isLt; have hb := b.isLt
    cases order <;> refine ⟨_, rfl, rfl, ?_⟩ <;>
      simp [slice, Result.bind, ByteOrder.Uint16, referenceInt, IntType.signed, IntType.width,
        Value.toInt, twosComplement,
        orderValue, bigEndianValue, littleEndianValue, toS, wrapInt, uint16_value,
        List.range_succ] <;> omega
  · obtain ⟨a, b, c, d, rfl⟩ := length_eq_four _ hlen
    have ha := a.isLt; have hb := b.isLt; have hc := c.isLt; have hd := d.isLt
    cases order <;> refine ⟨_, rfl, rfl, ?_⟩ <;>
      simp [slice, Result.bind, ByteOrder.Uint32, referenceInt, IntType.signed, IntType.width,
        Value.toInt, twosComplement,
        orderValue, bigEndianValue, littleEndianValue, toS, wrapInt, uint32_value,
        List.range_succ] <;> omega
  · obtain ⟨a, b, c, d, e, f, g, k, rfl⟩ := length_eq_eight _ hlen
    have ha := a.isLt; have hb := b.isLt; have hc := c.isLt; have hd := d.isLt
    have he := e.isLt; have hf := f.isLt; have hg := g.isLt; have hk := k.isLt
    cases order <;> refine ⟨_, rfl, rfl, ?_⟩ <;>
      simp [slice, Result.bind, ByteOrder.Uint64, referenceInt, IntType.signed, IntType.width,
        Value.toInt, twosComplement,
        orderValue, bigEndianValue, littleEndianValue, toS, wrapInt, uint64_value,
        List.range_succ] <;> omega

/-! ## Slices and spans -/

theorem spanBytes_length (data : List Byte) (o l : Int) (ho : 0 ≤ o)
    (h : o + l ≤ (data.length : Int)) : ((spanBytes data o l).length : Int) = max l 0 := by
  unfold spanBytes
  simp only [List.length_take, List.length_drop]
  omega

theorem slice_span (data : List Byte) (o l : Int) (ho : 0 ≤ o) (hl : 0 ≤ l)
    (h : o + l ≤ (data.length : Int)) : slice data o (o + l) = .ok (spanBytes data o l) := by
  unfold slice spanBytes
  rw [if_pos ⟨ho, by omega, h⟩]
  simp

/-! ## The walk of Unpack -/

theorem unpackField_tagged (data : List Byte) (order : ByteOrder) (f : Field) (tag : String)
    (o l : Int) (v : Value) (hlen : (data.length : Int) ≤ maxInt) (htag : f.tag = some tag)
    (hparse : parseUnpackTag tag = .ok (o, l)) (ho : 0 ≤ o) (hl : 0 ≤ l)
    (h : o + l ≤ (data.length : Int))
    (hset : setFieldFromBytes f.typeName f.value (spanBytes data o l) order = .ok v) :
    unpackField data order f = .ok { f with value := v } := by
  have hadd : addInt o l = o + l := addInt_eq _ _ (by unfold minInt; constructor <;> omega)
  unfold unpackField
  simp only [htag, hparse, hadd, slice_span data o l ho hl h, hset]
  rw [if_neg (by omega)]

theorem unpackField_untagged (data : List Byte) (order : ByteOrder) (f : Field)
    (htag : f.tag = none) : unpackField data order f = .ok f := by
  unfold unpackField
  simp only [htag]

theorem Unpack_cons (data : List Byte) (order : ByteOrder) (f : Field) (rest : List Field) :
    Unpack data order (f :: rest) =
      match unpackField data order f with
      | .ok g => ⟨g :: (Unpack data order rest).record, (Unpack data order rest).outcome⟩
      | .error m => ⟨f :: rest, .error m⟩
      | .fault => ⟨f :: rest, .fault⟩ := by
  rw [Unpack]

theorem Unpack_length (data : List Byte) (order : ByteOrder) (r : List Field) :
    (Unpack data order r).record.length = r.length := by
  induction r with
  | nil => rfl
  | cons f rest ih =>
    rw [Unpack_cons]
    cases unpackField data order f <;> simp [ih]

theorem Unpack_append (data : List Byte) (order : ByteOrder) (pre rest : List Field)
    (h : (Unpack data order pre).outcome = .ok ()) :
    Unpack data order (pre ++ rest) =
      ⟨(Unpack data order pre).record ++ (Unpack data order rest).record,
        (Unpack data order rest).outcome⟩ := by
  induction pre with
  | nil => simp [Unpack]
  | cons f pre ih =>
    rw [List.cons_append, Unpack_cons]
    rw [Unpack_cons] at h
    cases hf : unpackField data order f with
    | ok g =>
      simp only [hf] at h ⊢
      rw [ih h, Unpack_cons, hf]
      simp
    | error m => simp [hf] at h
    | fault => simp [hf] at h

theorem Unpack_reaches (data : List Byte) (order : ByteOrder) (pre post : List Field)
    (f g : Field) (h : (Unpack data order pre).outcome = .ok ())
    (hf : unpackField data order f = .ok g) :
    (Unpack data order (pre ++ f :: post)).record[pre.length]? = some g := by
  rw [Unpack_append data order pre _ h]
  have hl := Unpack_length data order pre
  simp only [Unpack_cons, hf]
  rw [List.getElem?_append_right (by omega)]
  simp [hl]

/-! ## Writing into a buffer -/

theorem copyBytes_length (dst src : List Byte) : (copyBytes dst src).length = dst.length := by
  unfold copyBytes
  simp only [List.length_append, List.length_take, List.length_drop]
  omega

theorem copyBytes_getElem? (dst src : List Byte) (j : Nat) :
    (copyBytes dst src)[j]? =
      if j < min dst.length src.length then src[j]? else dst[j]? := by
  unfold copyBytes
  by_cases h : j < min dst.length src.length
  · rw [if_pos h, List.getElem?_append_left (by simp; omega), List.getElem?_take_of_lt (by omega)]
  · rw [if_neg h, List.getElem?_append_right (by simp; omega), List.getElem?_drop]
    simp only [List.length_take]
    by_cases h2 : j < dst.length
    · congr 1; omega
    · rw [List.getElem?_eq_none (by omega), List.getElem?_eq_none (by omega)]

theorem splice_length (buf enc : List Byte) (o l : Nat) (h : o + l ≤ buf.length) :
    (buf.take o ++ copyBytes ((buf.drop o).take l) enc ++ buf.drop (o + l)).length
      = buf.length := by
  simp only [List.length_append, List.length_take, List.length_drop, copyBytes_length]
  omega

theorem splice_getElem? (buf enc : List Byte) (o l : Nat) (h : o + l ≤ buf.length) (i : Nat) :
    (buf.take o ++ copyBytes ((buf.drop o).take l) enc ++ buf.drop (o + l))[i]? =
      if o ≤ i ∧ i < o + min l enc.length then enc[i - o]? else buf[i]? := by
  have hlen : ((buf.drop o).take l).length = l := by
    simp only [List.length_take, List.length_drop]; omega
  by_cases h1 : i < o
  · rw [if_neg (by omega), List.append_assoc, List.getElem?_append_left (by simp; omega),
      List.getElem?_take_of_lt h1]
  · by_cases h2 : i < o + l
    · rw [List.getElem?_append_left (by simp [copyBytes_length]; omega),
        List.getElem?_append_right (by simp; omega), copyBytes_getElem?]
      simp only [List.length_take, hlen]
      have e : i - min o buf.length = i - o := by omega
      rw [e]
      by_cases h3 : i - o < min l enc.length
      · rw [if_pos h3, if_pos (by omega)]
      · rw [if_neg h3, if_neg (by omega), List.getElem?_take_of_lt (by omega),
          List.getElem?_drop]
        congr 1; omega
    · rw [if_neg (by omega), List.getElem?_append_right (by simp [copyBytes_length]; omega),
        List.getElem?_drop]
      simp only [List.length_append, List.length_take, copyBytes_length, hlen]
      congr 1; omega

/-! ## Range of parsed tags -/

theorem Atoi_range (s : List Char) (v : Int) (h : Atoi s = some v) :
    minInt ≤ v ∧ v ≤ maxInt := by
  unfold Atoi at h
  split at h
  · cases h
  · simp only at h
    split at h
    · cases h
    · split at h
      · cases h
      · simp only [Option.ite_none_right_eq_some, Option.some.injEq] at h
        obtain ⟨hc, rfl⟩ := h
        exact hc

theorem parseParts_range (parts : List (List Char)) :
    ∀ (o0 l0 o l : Int), (minInt ≤ o0 ∧ o0 ≤ maxInt) → (minInt ≤ l0 ∧ l0 ≤ maxInt) →
      parseParts parts o0 l0 = .ok (o, l) →
      (minInt ≤ o ∧ o ≤ maxInt) ∧ (minInt ≤ l ∧ l ≤ maxInt) := by
  induction parts with
  | nil =>
    intro o0 l0 o l h1 h2 h
    simp only [parseParts, Result.ok.injEq, Prod.mk.injEq] at h
    obtain ⟨rfl, rfl⟩ := h
    exact ⟨h1, h2⟩
  | cons p ps ih =>
    intro o0 l0 o l h1 h2 h
    rw [parseParts] at h
    split at h
    · split at h
      · cases h
      · rename_i v hv
        exact ih _ _ _ _ (Atoi_range _ _ hv) h2 h
    · split at h
      · split at h
        · cases h
        · rename_i v hv
          exact ih _ _ _ _ h1 (Atoi_range _ _ hv) h
      · exact ih _ _ _ _ h1 h2 h

theorem parseUnpackTag_range (tag : String) (o l : Int) (h : parseUnpackTag tag = .ok (o, l)) :
    (minInt ≤ o ∧ o ≤ maxInt) ∧ (minInt ≤ l ∧ l ≤ maxInt) := by
  unfold parseUnpackTag at h
  split at h
  · rename_i o1 l1 hp
    split at h
    · cases h
    · simp only [Result.ok.injEq, Prod.mk.injEq] at h
      obtain ⟨rfl, rfl⟩ := h
      exact parseParts_range _ _ _ _ _ (by decide) (by decide) hp
  · cases h
  · cases h

theorem span_range (f : Field) (o l : Int) (h : f.span = some (o, l)) :
    (minInt ≤ o ∧ o ≤ maxInt) ∧ (minInt ≤ l ∧ l ≤ maxInt) := by
  unfold Field.span at h
  split at h
  · cases h
  · split at h
    · simp only [Option.some.injEq] at h
      subst h
      exact parseUnpackTag_range _ _ _ (by assumption)
    · cases h

theorem span_of_tag (f : Field) (tag : String) (o l : Int) (ht : f.tag = some tag)
    (hp : parseUnpackTag tag = .ok (o, l)) : f.span = some (o, l) := by
  unfold Field.span
  simp only [ht, hp]

theorem tag_of_span (f : Field) (o l : Int) (h : f.span = some (o, l)) :
    ∃ tag, f.tag = some tag ∧ parseUnpackTag tag = .ok (o, l) ∧ ¬ f.tag.getD "" = "" := by
  unfold Field.span at h
  split at h
  · cases h
  · rename_i tag ht
    split at h
    · rename_i p hp
      simp only [Option.some.injEq] at h
      subst h
      refine ⟨tag, ht, hp, ?_⟩
      rw [ht]
      intro e
      simp only [Option.getD_some] at e
      subst e
      have hd : parseUnpackTag "" = .error "missing offset or length" := by decide
      rw [hd] at hp
      cases hp
    · cases h

theorem span_of_skipped (f : Field) (h : f.tag.getD "" = "") : f.span = none := by
  cases hs : f.span with
  | none => rfl
  | some p =>
    obtain ⟨_, _, _, hne⟩ := tag_of_span f p.1 p.2 hs
    exact absurd h hne

theorem tag_of_not_skipped (f : Field) (h : ¬ f.tag.getD "" = "") :
    f.tag = some (f.tag.getD "") := by
  cases ht : f.tag with
  | none => simp [ht] at h
  | some tag => rfl

theorem addInt_of_le (o l : Int) (ho : 0 ≤ o) (hl : minInt ≤ l ∧ l ≤ maxInt)
    (hor : o ≤ maxInt) (h : o ≤ addInt o l) : addInt o l = o + l ∧ 0 ≤ l := by
  unfold addInt wrapInt minInt maxInt at *
  norm_num at *
  omega

/-! ## One step of the second loop of Pack -/

theorem packField_ok (order : ByteOrder) (f : Field) (buf out : List Byte)
    (h : packField order f buf = .ok out) :
    (f.span = none ∧ f.tag.getD "" = "" ∧ out = buf) ∨
    ∃ o l enc, f.span = some (o, l) ∧
      fieldToBytes f.typeName f.value l order = .ok enc ∧
      0 ≤ o ∧ 0 ≤ l ∧ o + l ≤ (buf.length : Int) ∧ addInt o l = o + l ∧
      out = buf.take o.toNat ++ copyBytes (spanBytes buf o l) enc ++ buf.drop (o + l).toNat := by
  unfold packField at h
  by_cases hs : f.tag.getD "" = ""
  · rw [if_pos hs] at h
    cases h
    exact Or.inl ⟨span_of_skipped f hs, hs, rfl⟩
  · rw [if_neg hs] at h
    right
    cases hp : parseUnpackTag (f.tag.getD "") with
    | error m => simp [hp] at h
    | fault => simp [hp] at h
    | ok p =>
      obtain ⟨o, l⟩ := p
      simp only [hp] at h
      cases he : fieldToBytes f.typeName f.value l order with
      | error m => simp [he] at h
      | fault => simp [he] at h
      | ok enc =>
        simp only [he] at h
        unfold copyAt at h
        split at h
        · rename_i hb
          have hr := parseUnpackTag_range _ _ _ hp
          obtain ⟨ha, hl0⟩ := addInt_of_le o l hb.1 hr.2 hr.1.2 hb.2.1
          rw [ha] at h hb
          simp only [Result.ok.injEq] at h
          refine ⟨o, l, enc, span_of_tag f _ o l (tag_of_not_skipped f hs) hp, he, hb.1, hl0,
            hb.2.2, ha, ?_⟩
          rw [← h]
          simp [spanBytes]
        · cases h

theorem packField_tagged (order : ByteOrder) (f : Field) (buf enc : List Byte) (o l : Int)
    (hs : f.span = some (o, l)) (he : fieldToBytes f.typeName f.value l order = .ok enc)
    (ho : 0 ≤ o) (hl : 0 ≤ l) (h : o + l ≤ (buf.length : Int)) (hm : o + l ≤ maxInt) :
    packField order f buf =
      .ok (buf.take o.toNat ++ copyBytes (spanBytes buf o l) enc ++ buf.drop (o + l).toNat) := by
  obtain ⟨tag, ht, hp, hne⟩ := tag_of_span f o l hs
  have ha : addInt o l = o + l := addInt_eq _ _ (by unfold minInt; constructor <;> omega)
  unfold packField
  rw [if_neg hne]
  simp only [ht, Option.getD_some, hp, he, ha]
  unfold copyAt
  rw [if_pos ⟨ho, by omega, h⟩]
  simp [spanBytes]

theorem packField_untagged (order : ByteOrder) (f : Field) (buf : List Byte)
    (h : f.tag = none) : packField order f buf = .ok buf := by
  unfold packField
  simp [h]

theorem packField_length (order : ByteOrder) (f : Field) (buf out : List Byte)
    (h : packField order f buf = .ok out) : out.length = buf.length := by
  rcases packField_ok order f buf out h with ⟨_, _, rfl⟩ | ⟨o, l, enc, _, _, ho, hl, hb, _, rfl⟩
  · rfl
  · have e : (o + l).toNat = o.toNat + l.toNat := by omega
    rw [e]
    exact splice_length buf enc o.toNat l.toNat (by omega)

theorem packField_getElem? (order : ByteOrder) (f : Field) (buf out : List Byte) (i : Nat)
    (h : packField order f buf = .ok out) (hc : f.covers i = false) : out[i]? = buf[i]? := by
  rcases packField_ok order f buf out h with ⟨_, _, rfl⟩ | ⟨o, l, enc, hs, _, ho, hl, hb, _, rfl⟩
  · rfl
  · have e : (o + l).toNat = o.toNat + l.toNat := by omega
    rw [e]
    unfold spanBytes
    rw [splice_getElem? buf enc o.toNat l.toNat (by omega)]
    simp only [Field.covers, hs, decide_eq_false_iff_not] at hc
    rw [if_neg (by omega)]

/-! ## The second loop of Pack -/

theorem packFields_cons (order : ByteOrder) (f : Field) (rest : List Field) (buf : List Byte) :
    packFields order (f :: rest) buf =
      match packField order f buf with
      | .error m => .error m
      | .fault => .fault
      | .ok b => packFields order rest b := by
  rw [packFields]

theorem packFields_cons_ok (order : ByteOrder) (f : Field) (rest : List Field)
    (buf out : List Byte) (h : packFields order (f :: rest) buf = .ok out) :
    ∃ b, packField order f buf = .ok b ∧ packFields order rest b = .ok out := by
  rw [packFields_cons] at h
  cases hf : packField order f buf with
  | ok b => rw [hf] at h; exact ⟨b, rfl, h⟩
  | error m => rw [hf] at h; cases h
  | fault => rw [hf] at h; cases h

theorem packFields_append_ok (order : ByteOrder) (pre post : List Field) :
    ∀ (buf out : List Byte), packFields order (pre ++ post) buf = .ok out →
      ∃ b, packFields order pre buf = .ok b ∧ packFields order post b = .ok out := by
  induction pre with
  | nil => intro buf out h; exact ⟨buf, rfl, h⟩
  | cons f pre ih =>
    intro buf out h
    obtain ⟨b1, h1, h2⟩ := packFields_cons_ok order f (pre ++ post) buf out h
    obtain ⟨b, h3, h4⟩ := ih b1 out h2
    refine ⟨b, ?_, h4⟩
    rw [packFields_cons, h1]
    exact h3

theorem packFields_length (order : ByteOrder) (fs : List Field) :
    ∀ (buf out : List Byte), packFields order fs buf = .ok out → out.length = buf.length := by
  induction fs with
  | nil => intro buf out h; cases h; rfl
  | cons f fs ih =>
    intro buf out h
    obtain ⟨b, h1, h2⟩ := packFields_cons_ok order f fs buf out h
    rw [ih b out h2, packField_length order f buf b h1]

theorem packFields_getElem? (order : ByteOrder) (fs : List Field) (i : Nat) :
    ∀ (buf out : List Byte), packFields order fs buf = .ok out →
      (∀ f ∈ fs, f.covers i = false) → out[i]? = buf[i]? := by
  induction fs with
  | nil => intro buf out h _; cases h; rfl
  | cons f fs ih =>
    intro buf out h hc
    obtain ⟨b, h1, h2⟩ := packFields_cons_ok order f fs buf out h
    rw [ih b out h2 (fun g hg => hc g (by simp [hg])),
      packField_getElem? order f buf b i h1 (hc f (by simp))]

theorem packFields_spans (order : ByteOrder) (fs : List Field) :
    ∀ (buf out : List Byte), packFields order fs buf = .ok out →
      ∀ f ∈ fs, (¬ f.tag.getD "" = "" → f.span ≠ none) ∧
        ∀ o l, f.span = some (o, l) →
          0 ≤ o ∧ 0 ≤ l ∧ o + l ≤ (buf.length : Int) ∧ addInt o l = o + l := by
  induction fs with
  | nil => intro buf out _ f hf; cases hf
  | cons g fs ih =>
    intro buf out h f hf
    obtain ⟨b, h1, h2⟩ := packFields_cons_ok order g fs buf out h
    rcases List.mem_cons.mp hf with rfl | hf
    · rcases packField_ok order f buf b h1 with ⟨hs, hsk, _⟩ | ⟨o, l, enc, hs, _, ho, hl, hb, ha, _⟩
      · exact ⟨fun hn => absurd hsk hn, fun o l h => by rw [hs] at h; cases h⟩
      · refine ⟨fun _ => by rw [hs]; simp, fun o1 l1 h => ?_⟩
        rw [hs] at h
        cases h
        exact ⟨ho, hl, hb, ha⟩
    · have := ih b out h2 f hf
      rw [packField_length order g buf b h1] at this
      exact this

/-! ## The first loop of Pack -/

theorem packSize_spec (fs : List Field) :
    ∀ (m : Int),
      (∀ f ∈ fs, (¬ f.tag.getD "" = "" → f.span ≠ none) ∧
        ∀ o l, f.span = some (o, l) → addInt o l = o + l) →
      packSize fs m = .ok (maxSpanFrom fs m) := by
  induction fs with
  | nil => intro m _; rfl
  | cons f fs ih =>
    intro m h
    have hfs := fun g hg => h g (List.mem_cons_of_mem f hg)
    obtain ⟨h1, h2⟩ := h f (by simp)
    rw [packSize, maxSpanFrom]
    by_cases hs : f.tag.getD "" = ""
    · rw [if_pos hs, span_of_skipped f hs]
      exact ih m hfs
    · rw [if_neg hs]
      cases hsp : f.span with
      | none => exact absurd hsp (h1 hs)
      | some p =>
        obtain ⟨o, l⟩ := p
        obtain ⟨tag, ht, hp, _⟩ := tag_of_span f o l hsp
        simp only [ht, Option.getD_some, hp, h2 o l hsp]
        by_cases hm : o + l > m
        · rw [if_pos hm, max_eq_right (le_of_lt hm)]
          exact ih _ hfs
        · rw [if_neg hm, max_eq_left (by omega)]
          exact ih _ hfs

theorem maxSpanFrom_ge (fs : List Field) : ∀ (m : Int), m ≤ maxSpanFrom fs m := by
  induction fs with
  | nil => intro m; exact le_refl _
  | cons f fs ih =>
    intro m
    rw [maxSpanFrom]
    split
    · exact le_trans (le_max_left _ _) (ih _)
    · exact ih m

theorem maxSpanFrom_span (fs : List Field) :
    ∀ (m : Int), ∀ f ∈ fs, ∀ o l, f.span = some (o, l) → o + l ≤ maxSpanFrom fs m := by
  induction fs with
  | nil => intro m f hf; cases hf
  | cons g fs ih =>
    intro m f hf o l hs
    rw [maxSpanFrom]
    rcases List.mem_cons.mp hf with rfl | hf
    · rw [hs]
      exact le_trans (le_max_right _ _) (maxSpanFrom_ge fs _)
    · split
      · exact ih _ f hf o l hs
      · exact ih _ f hf o l hs

theorem Pack_ok (order : ByteOrder) (r : List Field) (out : List Byte)
    (h : Pack order r = .ok out) :
    0 ≤ maxSpan r ∧
      packFields order r (List.replicate (maxSpan r).toNat 0) = .ok out ∧
      (out.length : Int) = maxSpan r := by
  unfold Pack at h
  cases hs : packSize r 0 with
  | error m => simp [hs] at h
  | fault => simp [hs] at h
  | ok M =>
    simp only [hs] at h
    unfold makeBytes at h
    by_cases hM : M < 0
    · simp [hM] at h
    · simp only [hM, if_false] at h
      have hl := packFields_length order r _ out h
      have hsp := packFields_spans order r _ out h
      have hM2 := packSize_spec r 0 (fun f hf => ⟨(hsp f hf).1, fun o l h => ((hsp f hf).2 o l h).2.2.2⟩)
      rw [hs] at hM2
      simp only [Result.ok.injEq] at hM2
      subst hM2
      refine ⟨by unfold maxSpan; omega, h, ?_⟩
      rw [hl]
      simp only [List.length_replicate]
      unfold maxSpan
      omega

/-! ## Encoding then decoding an integer -/

theorem toByte_val (x : Nat) : (toByte x).val = x % 256 := rfl

theorem slice_all (s : List Byte) (n : Int) (h : n = (s.length : Int)) :
    slice s 0 n = .ok s := by
  subst h
  unfold slice
  simp

theorem uint16_roundtrip (order : ByteOrder) (v : Nat) (hv : v < 2 ^ 16) :
    (order.PutUint16 v).length = 2 ∧ order.Uint16 (order.PutUint16 v) = .ok v := by
  cases order <;> refine ⟨rfl, ?_⟩ <;>
    simp only [ByteOrder.Uint16, ByteOrder.PutUint16] <;> rw [uint16_value] <;>
    simp only [toByte_val, Nat.shiftRight_eq_div_pow, Result.ok.injEq] <;>
    norm_num at hv ⊢ <;> omega

theorem uint32_roundtrip (order : ByteOrder) (v : Nat) (hv : v < 2 ^ 32) :
    (order.PutUint32 v).length = 4 ∧ order.Uint32 (order.PutUint32 v) = .ok v := by
  cases order <;> refine ⟨rfl, ?_⟩ <;>
    simp only [ByteOrder.Uint32, ByteOrder.PutUint32] <;> rw [uint32_value] <;>
    simp only [toByte_val, Nat.shiftRight_eq_div_pow, Result.ok.injEq] <;>
    norm_num at hv ⊢ <;> omega

theorem uint64_roundtrip (order : ByteOrder) (v : Nat) (hv : v < 2 ^ 64) :
    (order.PutUint64 v).length = 8 ∧ order.Uint64 (order.PutUint64 v) = .ok v := by
  cases order <;> refine ⟨rfl, ?_⟩ <;>
    simp only [ByteOrder.Uint64, ByteOrder.PutUint64] <;> rw [uint64_value] <;>
    simp only [toByte_val, Nat.shiftRight_eq_div_pow, Result.ok.injEq] <;>
    norm_num at hv ⊢ <;> omega

theorem toU_wrapUint (bits : Nat) (v : UIntN bits) :
    toU bits ((wrapUint bits (v.val : Int) : Nat) : Int) = v := by
  apply Fin.ext
  have h : wrapUint bits (v.val : Int) = v.val := by
    unfold wrapUint
    have : ((v.val : Int) % 2 ^ bits) = ((v.val % 2 ^ bits : Nat) : Int) := by push_cast; rfl
    rw [this, Int.toNat_natCast, Nat.mod_eq_of_lt v.isLt]
  simp only [toU, h]

theorem toS_wrapUint8 (v : SIntN 8) : toS 8 ((wrapUint 8 v.val : Nat) : Int) = v := by
  apply Subtype.ext
  have hv := v.property
  simp only [toS, wrapUint, wrapInt]
  norm_num at hv ⊢
  omega

theorem toS_wrapUint16 (v : SIntN 16) : toS 16 ((wrapUint 16 v.val : Nat) : Int) = v := by
  apply Subtype.ext
  have hv := v.property
  simp only [toS, wrapUint, wrapInt]
  norm_num at hv ⊢
  omega

theorem toS_wrapUint32 (v : SIntN 32) : toS 32 ((wrapUint 32 v.val : Nat) : Int) = v := by
  apply Subtype.ext
  have hv := v.property
  simp only [toS, wrapUint, wrapInt]
  norm_num at hv ⊢
  omega

theorem toS_wrapUint64 (v : SIntN 64) : toS 64 ((wrapUint 64 v.val : Nat) : Int) = v := by
  apply Subtype.ext
  have hv := v.property
  simp only [toS, wrapUint, wrapInt]
  norm_num at hv ⊢
  omega

theorem byte_roundtrip (n : Nat) (h : n < 2 ^ 8) : ((toByte n).val : Int) = (n : Int) := by
  rw [toByte_val]
  norm_num at h
  omega

theorem decode_encode_int (tn tn1 : String) (fv fv1 : Value) (t : IntType) (l : Int)
    (order : ByteOrder) (h : fv.intType = some t) (h1 : fv1.intType = some t) :
    ∃ enc, fieldToBytes tn fv l order = .ok enc ∧ enc.length = t.width ∧
      setFieldFromBytes tn1 fv1 enc order = .ok fv := by
  cases fv <;> simp only [Value.intType, Option.some.injEq, reduceCtorEq] at h <;> subst h <;>
    cases fv1 <;> simp only [Value.intType, Option.some.injEq, reduceCtorEq] at h1 <;>
    rename_i v w
  · refine ⟨[toByte (wrapUint 8 v.val)], rfl, rfl, ?_⟩
    simp only [setFieldFromBytes, List.length_cons, List.length_nil]
    rw [if_neg (by decide), byte_roundtrip _ (wrapUint_lt 8 _), toU_wrapUint]
  · obtain ⟨hl, hr⟩ := uint16_roundtrip order _ (wrapUint_lt 16 v.val)
    refine ⟨order.PutUint16 (wrapUint 16 v.val), rfl, hl, ?_⟩
    simp only [setFieldFromBytes, hl, slice_all _ 2 (by rw [hl]; rfl), Result.bind, hr,
      toU_wrapUint]
    rw [if_neg (by decide)]
  · obtain ⟨hl, hr⟩ := uint32_roundtrip order _ (wrapUint_lt 32 v.val)
    refine ⟨order.PutUint32 (wrapUint 32 v.val), rfl, hl, ?_⟩
    simp only [setFieldFromBytes, hl, slice_all _ 4 (by rw [hl]; rfl), Result.bind, hr,
      toU_wrapUint]
    rw [if_neg (by decide)]
  · obtain ⟨hl, hr⟩ := uint64_roundtrip order _ (wrapUint_lt 64 v.val)
    refine ⟨order.PutUint64 (wrapUint 64 v.val), rfl, hl, ?_⟩
    simp only [setFieldFromBytes, hl, slice_all _ 8 (by rw [hl]; rfl), Result.bind, hr,
      toU_wrapUint]
    rw [if_neg (by decide)]
  · refine ⟨[toByte (wrapUint 8 v.val)], rfl, rfl, ?_⟩
    simp only [setFieldFromBytes, List.length_cons, List.length_nil]
    rw [if_neg (by decide), byte_roundtrip _ (wrapUint_lt 8 _), toS_wrapUint8]
  · obtain ⟨hl, hr⟩ := uint16_roundtrip order _ (wrapUint_lt 16 v.val)
    refine ⟨order.PutUint16 (wrapUint 16 v.val), rfl, hl, ?_⟩
    simp only [setFieldFromBytes, hl, slice_all _ 2 (by rw [hl]; rfl), Result.bind, hr,
      toS_wrapUint16]
    rw [if_neg (by decide)]
  · obtain ⟨hl, hr⟩ := uint32_roundtrip order _ (wrapUint_lt 32 v.val)
    refine ⟨order.PutUint32 (wrapUint 32 v.val), rfl, hl, ?_⟩
    simp only [setFieldFromBytes, hl, slice_all _ 4 (by rw [hl]; rfl), Result.bind, hr,
      toS_wrapUint32]
    rw [if_neg (by decide)]
  · obtain ⟨hl, hr⟩ := uint64_roundtrip order _ (wrapUint_lt 64 v.val)
    refine ⟨order.PutUint64 (wrapUint 64 v.val), rfl, hl, ?_⟩
    simp only [setFieldFromBytes, hl, slice_all _ 8 (by rw [hl]; rfl), Result.bind, hr,
      toS_wrapUint64]
    rw [if_neg (by decide)]

/-! ## Success of Pack -/

theorem packFields_success (order : ByteOrder) (fs : List Field) :
    ∀ (buf : List Byte),
      (∀ f ∈ fs, ¬ f.tag.getD "" = "" → ∃ o l enc, f.span = some (o, l) ∧
        fieldToBytes f.typeName f.value l order = .ok enc ∧
        0 ≤ o ∧ 0 ≤ l ∧ o + l ≤ (buf.length : Int) ∧ o + l ≤ maxInt) →
      ∃ out, packFields order fs buf = .ok out := by
  induction fs with
  | nil => intro buf _; exact ⟨buf, rfl⟩
  | cons f fs ih =>
    intro buf h
    have hstep : ∃ b, packField order f buf = .ok b := by
      by_cases hs : f.tag.getD "" = ""
      · exact ⟨buf, by unfold packField; rw [if_pos hs]⟩
      · obtain ⟨o, l, enc, h1, h2, h3, h4, h5, h6⟩ := h f (by simp) hs
        exact ⟨_, packField_tagged order f buf enc o l h1 h2 h3 h4 h5 h6⟩
    obtain ⟨b, hb⟩ := hstep
    have hl := packField_length order f buf b hb
    obtain ⟨out, hout⟩ := ih b (fun g hg hs => by
      rw [hl]; exact h g (List.mem_cons_of_mem f hg) hs)
    exact ⟨out, by rw [packFields_cons, hb]; exact hout⟩

theorem Pack_success (order : ByteOrder) (r : List Field)
    (h : ∀ f ∈ r, ¬ f.tag.getD "" = "" → ∃ o l enc, f.span = some (o, l) ∧
      fieldToBytes f.typeName f.value l order = .ok enc ∧ 0 ≤ o ∧ 0 ≤ l ∧ o + l ≤ maxInt) :
    ∃ out, Pack order r = .ok out := by
  have hsize : packSize r 0 = .ok (maxSpan r) := by
    refine packSize_spec r 0 (fun f hf => ⟨fun hs => ?_, fun o l hs => ?_⟩)
    · obtain ⟨o, l, _, h1, _⟩ := h f hf hs
      rw [h1]; simp
    · obtain ⟨_, _, _, hne⟩ := tag_of_span f o l hs
      obtain ⟨o1, l1, _, h1, _, h3, h4, h5⟩ := h f hf hne
      rw [hs] at h1
      cases h1
      exact addInt_eq _ _ (by unfold minInt; constructor <;> omega)
  have h0 : 0 ≤ maxSpan r := maxSpanFrom_ge r 0
  obtain ⟨out, hout⟩ := packFields_success order r (List.replicate (maxSpan r).toNat 0)
    (fun f hf hs => by
      obtain ⟨o, l, enc, h1, h2, h3, h4, h5⟩ := h f hf hs
      refine ⟨o, l, enc, h1, h2, h3, h4, ?_, h5⟩
      have := maxSpanFrom_span r 0 f hf o l h1
      simp only [List.length_replicate]
      unfold maxSpan
      omega)
  refine ⟨out, ?_⟩
  unfold Pack makeBytes
  simp only [hsize]
  rw [if_neg (by omega)]
  exact hout

theorem maxSpanFrom_le (fs : List Field) (B : Int) :
    ∀ (m : Int), m ≤ B → (∀ f ∈ fs, ∀ o l, f.span = some (o, l) → o + l ≤ B) →
      maxSpanFrom fs m ≤ B := by
  induction fs with
  | nil => intro m hm _; exact hm
  | cons f fs ih =>
    intro m hm h
    have hfs := fun g hg => h g (List.mem_cons_of_mem f hg)
    rw [maxSpanFrom]
    cases hs : f.span with
    | none => exact ih m hm hfs
    | some p =>
      obtain ⟨o, l⟩ := p
      exact ih _ (max_le hm (h f (by simp) o l hs)) hfs

/-! ## The bytes of a span after Pack -/

theorem packed_byte (order : ByteOrder) (pre post : List Field) (f : Field)
    (out enc : List Byte) (o l : Int) (i : Nat)
    (hpack : Pack order (pre ++ f :: post) = .ok out)
    (hspan : f.span = some (o, l))
    (henc : fieldToBytes f.typeName f.value l order = .ok enc)
    (hwidth : (enc.length : Int) = l)
    (hcov : f.covers i = true)
    (hlast : ∀ g ∈ post, g.covers i = false) :
    i - o.toNat < enc.length ∧ out[i]? = enc[i - o.toNat]? := by
  obtain ⟨_, hp, _⟩ := Pack_ok order _ out hpack
  obtain ⟨b1, _, h2⟩ := packFields_append_ok order pre (f :: post) _ out hp
  obtain ⟨b2, h3, h4⟩ := packFields_cons_ok order f post b1 out h2
  simp only [Field.covers, hspan, decide_eq_true_eq] at hcov
  rcases packField_ok order f b1 b2 h3 with ⟨hs, _⟩ | ⟨o1, l1, enc1, hs, he, ho, hl, hb, _, rfl⟩
  · rw [hs] at hspan; cases hspan
  · rw [hspan] at hs
    cases hs
    rw [henc] at he
    cases he
    refine ⟨by omega, ?_⟩
    rw [packFields_getElem? order post i _ out h4 hlast]
    have e : (o + l).toNat = o.toNat + l.toNat := by omega
    rw [e]
    unfold spanBytes
    rw [splice_getElem? b1 enc o.toNat l.toNat (by omega), if_pos (by omega)]

theorem packed_span (order : ByteOrder) (pre post : List Field) (f : Field)
    (out enc : List Byte) (o l : Int)
    (hpack : Pack order (pre ++ f :: post) = .ok out)
    (hspan : f.span = some (o, l)) (ho : 0 ≤ o)
    (henc : fieldToBytes f.typeName f.value l order = .ok enc)
    (hwidth : (enc.length : Int) = l)
    (hdisj : ∀ g ∈ post, ∀ o1 l1 o2 l2, f.span = some (o1, l1) → g.span = some (o2, l2) →
      o1 + l1 ≤ o2 ∨ o2 + l2 ≤ o1) :
    spanBytes out o l = enc := by
  apply List.ext_getElem?
  intro j
  by_cases hj : j < enc.length
  · have hcov : f.covers (o.toNat + j) = true := by
      simp only [Field.covers, hspan, decide_eq_true_eq]
      omega
    have hlast : ∀ g ∈ post, g.covers (o.toNat + j) = false := by
      intro g hg
      cases hs : g.span with
      | none => simp only [Field.covers, hs]
      | some p =>
        obtain ⟨o2, l2⟩ := p
        simp only [Field.covers, hs, decide_eq_false_iff_not]
        rcases hdisj g hg o l o2 l2 hspan hs with h | h <;> omega
    obtain ⟨_, hb⟩ := packed_byte order pre post f out enc o l _ hpack hspan henc hwidth hcov hlast
    unfold spanBytes
    rw [List.getElem?_take_of_lt (by omega), List.getElem?_drop, hb]
    congr 1; omega
  · unfold spanBytes
    rw [List.getElem?_eq_none (by simp only [List.length_take, List.length_drop]; omega),
      List.getElem?_eq_none (by omega)]

/-! ## Unpack of a packed record -/

theorem sameType_intType (v w : Value) (t : IntType) (h : v.kind = w.kind)
    (hv : v.intType = some t) : w.intType = some t := by
  cases v <;> simp only [Value.intType, reduceCtorEq] at hv <;> cases w <;>
    first
      | exact hv
      | exact absurd h (by simp only [Value.kind]; omega)

theorem field_eq_of_sameLayout (f g : Field) (h : sameLayout f g) :
    ({ g with value := f.value } : Field) = f := by
  obtain ⟨h1, h2, h3, _⟩ := h
  cases f
  cases g
  simp only [Field.mk.injEq] at *
  exact ⟨h1.symm, h2.symm, h3.symm, trivial⟩

theorem Unpack_packed (b : List Byte) (order : ByteOrder) (hlen : (b.length : Int) ≤ maxInt)
    (fs gs : List Field) (hsame : List.Forall₂ sameLayout fs gs) :
    (∀ f ∈ fs, ∀ tag, f.tag = some tag → ∃ o t enc,
      parseUnpackTag tag = .ok (o, (t.width : Int)) ∧ f.value.intType = some t ∧ 0 ≤ o ∧
      o + (t.width : Int) ≤ (b.length : Int) ∧
      fieldToBytes f.typeName f.value t.width order = .ok enc ∧
      spanBytes b o t.width = enc) →
    (Unpack b order gs).outcome = .ok () ∧
      ∀ (i : Nat) (f : Field), fs[i]? = some f → f.tag ≠ none →
        (Unpack b order gs).record[i]? = some f := by
  induction hsame with
  | nil => intro _; exact ⟨rfl, fun i f h => by simp at h⟩
  | @cons f g fs gs hfg _ ih =>
    intro h
    obtain ⟨ih1, ih2⟩ := ih (fun x hx => h x (List.mem_cons_of_mem f hx))
    have hstep : unpackField b order g = .ok (if f.tag = none then g else f) := by
      cases ht : f.tag with
      | none =>
        rw [if_pos rfl]
        exact unpackField_untagged b order g (by rw [← hfg.2.2.1]; exact ht)
      | some tag =>
        rw [if_neg (by simp)]
        obtain ⟨o, t, enc, hp, hty, ho, hb, he, hsp⟩ := h f (by simp) tag ht
        obtain ⟨enc1, he1, _, hd⟩ := decode_encode_int f.typeName g.typeName f.value g.value t
          t.width order hty (sameType_intType _ _ t hfg.2.2.2 hty)
        rw [he] at he1
        cases he1
        rw [← hsp] at hd
        have := unpackField_tagged b order g tag o t.width f.value hlen
          (by rw [← hfg.2.2.1]; exact ht) hp ho (Int.natCast_nonneg _) hb hd
        rw [this, field_eq_of_sameLayout f g hfg]
    rw [Unpack_cons, hstep]
    refine ⟨ih1, fun i x hx hne => ?_⟩
    cases i with
    | zero =>
      simp only [List.getElem?_cons_zero, Option.some.injEq] at hx
      subst hx
      simp only [List.getElem?_cons_zero, if_neg hne]
    | succ i =>
      simp only [List.getElem?_cons_succ] at hx ⊢
      exact ih2 i x hx hne

theorem integerField_spec (f : Field) (tag : String) (h : IntegerField f)
    (ht : f.tag = some tag) :
    ∃ o t, parseUnpackTag tag = .ok (o, (t.width : Int)) ∧ f.value.intType = some t ∧
      0 ≤ o ∧ f.span = some (o, (t.width : Int)) := by
  unfold IntegerField at h
  split at h
  · rename_i h1; rw [ht] at h1; cases h1
  · rename_i o l t h1 hs hty
    obtain ⟨ho, rfl⟩ := h
    obtain ⟨tag1, ht1, hp, _⟩ := tag_of_span f o _ hs
    rw [ht] at ht1
    cases ht1
    exact ⟨o, t, hp, hty, ho, hs⟩
  · exact absurd h id

theorem disjointSpans_spec (f g : Field) (h : disjointSpans f g) (o1 l1 o2 l2 : Int)
    (hf : f.span = some (o1, l1)) (hg : g.span = some (o2, l2)) :
    o1 + l1 ≤ o2 ∨ o2 + l2 ≤ o1 := by
  unfold disjointSpans at h
  rw [hf, hg] at h
  exact h

theorem maxAlloc_le_maxInt : maxAlloc ≤ maxInt := by decide

theorem fits_spec (r : List Field) (h : ∀ f ∈ r, f.fits) :
    ∀ f ∈ r, ∀ o l, f.span = some (o, l) → o + l ≤ maxAlloc := by
  intro f hf o l hs
  have := h f hf
  unfold Field.fits at this
  rw [hs] at this
  exact this

/-! ## Durations, big-endian -/

theorem Pack_length_le (order : ByteOrder) (r : List Field) (out : List Byte)
    (h : Pack order r = .ok out) : (out.length : Int) ≤ maxInt := by
  obtain ⟨_, hp, hl⟩ := Pack_ok order r out h
  have hsp := packFields_spans order r _ out hp
  rw [hl]
  refine maxSpanFrom_le r maxInt 0 (by decide) (fun f hf o l hs => ?_)
  have h1 := ((hsp f hf).2 o l hs).2.2.2
  have h2 := (wrapInt_range 64 (o + l)).2
  unfold addInt at h1
  unfold maxInt
  norm_num at h2
  omega

theorem Pack_span_bounds (order : ByteOrder) (r : List Field) (out : List Byte) (f : Field)
    (o l : Int) (h : Pack order r = .ok out) (hf : f ∈ r) (hs : f.span = some (o, l)) :
    0 ≤ o ∧ 0 ≤ l ∧ o + l ≤ (out.length : Int) := by
  obtain ⟨_, hp, _⟩ := Pack_ok order r out h
  have hsp := ((packFields_spans order r _ out hp f hf).2 o l hs)
  rw [← packFields_length order r _ out hp] at hsp
  exact ⟨hsp.1, hsp.2.1, hsp.2.2.1⟩

theorem bigEndianBytes_eight (v : Nat) :
    bigEndianBytes 8 v =
      [toByte (v >>> 56), toByte (v >>> 48), toByte (v >>> 40), toByte (v >>> 32),
       toByte (v >>> 24), toByte (v >>> 16), toByte (v >>> 8), toByte v] := by
  simp only [bigEndianBytes, Nat.shiftRight_eq_div_pow]
  norm_num [List.range_succ]

theorem wrapUint_of_nonneg (d : SIntN 64) (h : 0 ≤ d.val) : wrapUint 64 d.val = d.val.toNat := by
  have hd := d.property
  unfold wrapUint
  norm_num at hd ⊢
  omega

theorem slice_last_six (a b c d e f g k : Byte) :
    slice [a, b, c, d, e, f, g, k] 2 8 = .ok [c, d, e, f, g, k] := rfl

theorem fieldToBytes_duration_be6 (tn : String) (d : SIntN 64) (h : 0 ≤ d.val) :
    fieldToBytes tn (.duration d) 6 .BigEndian = .ok ((bigEndianBytes 8 d.val.toNat).drop 2) := by
  have hs : subInt 8 6 = 2 := by decide
  simp only [fieldToBytes, wrapUint_of_nonneg d h, bigEndianBytes_eight, ByteOrder.PutUint64, hs,
    slice_last_six, List.drop_succ_cons, List.drop_zero]

theorem decode_duration_six (tn : String) (d0 : SIntN 64) (a b c d e f : Byte) :
    setFieldFromBytes tn (.duration d0) [a, b, c, d, e, f] .BigEndian =
      .ok (.duration (toS 64 ((f.val ||| (e.val <<< 8) ||| (d.val <<< 16) ||| (c.val <<< 24)
        ||| (b.val <<< 32) ||| (a.val <<< 40) ||| ((0 : Byte).val <<< 48)
        ||| ((0 : Byte).val <<< 56) : Nat) : Int))) := by
  have hl : ((([a, b, c, d, e, f] : List Byte).length : Nat) : Int) = 6 := rfl
  have hs : subInt 8 6 = 2 := by decide
  have hm : makeBytes 2 = .ok [0, 0] := rfl
  simp only [setFieldFromBytes, hl, hs, hm]
  rw [if_neg (by decide)]
  rfl

theorem setFieldFromBytes_duration_be6 (tn : String) (d0 d : SIntN 64)
    (h : 0 ≤ d.val ∧ d.val < 2 ^ 48) :
    setFieldFromBytes tn (.duration d0) ((bigEndianBytes 8 d.val.toNat).drop 2) .BigEndian
      = .ok (.duration d) := by
  have hd := d.property
  rw [bigEndianBytes_eight]
  simp only [List.drop_succ_cons, List.drop_zero, decode_duration_six]
  rw [uint64_value]
  simp only [toByte_val, Nat.shiftRight_eq_div_pow, Result.ok.injEq, Value.duration.injEq]
  apply Subtype.ext
  simp only [toS, wrapInt]
  norm_num at h hd ⊢
  omega

theorem duration_of_kind (v : Value) (d : SIntN 64) (h : (Value.duration d).kind = v.kind) :
    ∃ d0, v = .duration d0 := by
  cases v <;>
    first
      | exact ⟨_, rfl⟩
      | exact absurd h (by simp only [Value.kind]; omega)

/-! ## Untagged fields -/

theorem Unpack_untagged (data : List Byte) (order : ByteOrder) (r : List Field) :
    ∀ (i : Nat) (f : Field), r[i]? = some f → f.tag = none →
      (Unpack data order r).record[i]? = some f := by
  induction r with
  | nil => intro i f h; simp at h
  | cons g rest ih =>
    intro i f hi hf
    rw [Unpack_cons]
    cases hg : unpackField data order g with
    | error m => exact hi
    | fault => exact hi
    | ok g1 =>
      cases i with
      | zero =>
        simp only [List.getElem?_cons_zero, Option.some.injEq] at hi
        subst hi
        rw [unpackField_untagged data order g hf] at hg
        cases hg
        simp only [List.getElem?_cons_zero]
      | succ i =>
        simp only [List.getElem?_cons_succ] at hi ⊢
        exact ih i f hi hf

theorem packSize_filter (r : List Field) :
    ∀ (m : Int), packSize r m = packSize (r.filter (fun g => g.tag.isSome)) m := by
  induction r with
  | nil => intro m; rfl
  | cons f rest ih =>
    intro m
    cases ht : f.tag with
    | none =>
      rw [List.filter_cons_of_neg (by simp [ht]), packSize, if_pos (by simp [ht])]
      exact ih m
    | some tag =>
      rw [List.filter_cons_of_pos (by simp [ht]), packSize, packSize]
      simp only [ih]

theorem packFields_filter (order : ByteOrder) (r : List Field) :
    ∀ (buf : List Byte),
      packFields order r buf = packFields order (r.filter (fun g => g.tag.isSome)) buf := by
  induction r with
  | nil => intro buf; rfl
  | cons f rest ih =>
    intro buf
    cases ht : f.tag with
    | none =>
      rw [List.filter_cons_of_neg (by simp [ht]), packFields_cons,
        packField_untagged order f buf ht]
      exact ih buf
    | some tag =>
      rw [List.filter_cons_of_pos (by simp [ht]), packFields_cons, packFields_cons]
      simp only [ih]

theorem Pack_filter (order : ByteOrder) (r : List Field) :
    Pack order r = Pack order (r.filter (fun g => g.tag.isSome)) := by
  unfold Pack
  rw [← packSize_filter]
  simp only [← packFields_filter]

theorem Unpack_out_of_bounds (data : List Byte) (order : ByteOrder) (pre post : List Field)
    (f : Field) (o l : Int) (hpre : (Unpack data order pre).outcome = .ok ())
    (hspan : f.span = some (o, l)) (hout : o + l > (data.length : Int))
    (hfit : o + l ≤ maxInt) :
    Unpack data order (pre ++ f :: post)
      = ⟨(Unpack data order pre).record ++ f :: post, .error "data out of bounds"⟩ := by
  obtain ⟨tag, ht, hp, _⟩ := tag_of_span f o l hspan
  have ha : addInt o l = o + l := addInt_eq _ _ (by unfold minInt; constructor <;> omega)
  have hf : unpackField data order f = .error "data out of bounds" := by
    unfold unpackField
    simp only [ht, hp, ha]
    rw [if_pos hout]
  rw [Unpack_append data order pre _ hpre, Unpack_cons, hf]

/-! ## Encoding of durations -/

theorem littleEndianBytes_eight (v : Nat) :
    littleEndianBytes 8 v =
      [toByte v, toByte (v >>> 8), toByte (v >>> 16), toByte (v >>> 24),
       toByte (v >>> 32), toByte (v >>> 40), toByte (v >>> 48), toByte (v >>> 56)] := by
  simp only [littleEndianBytes, Nat.shiftRight_eq_div_pow]
  norm_num [List.range_succ]

theorem PutUint64_orderBytes (order : ByteOrder) (v : Nat) :
    order.PutUint64 v = orderBytes order 8 v := by
  cases order
  · simp only [orderBytes, bigEndianBytes_eight, ByteOrder.PutUint64]
  · simp only [orderBytes, littleEndianBytes_eight, ByteOrder.PutUint64]

theorem orderBytes_length (order : ByteOrder) (w v : Nat) : (orderBytes order w v).length = w := by
  cases order <;> simp [orderBytes, bigEndianBytes, littleEndianBytes]

theorem slice_suffix (l : List Byte) (k n : Int) (h0 : 0 ≤ k) (hk : k ≤ n)
    (hn : n = (l.length : Int)) : slice l k n = .ok (l.drop k.toNat) := by
  subst hn
  unfold slice
  rw [if_pos ⟨h0, hk, le_refl _⟩]
  congr 1
  apply List.take_of_length_le
  simp only [List.length_drop]
  omega

theorem fieldToBytes_duration (tn : String) (d : SIntN 64) (n : Int) (order : ByteOrder)
    (hn : 0 ≤ n ∧ n ≤ 8) :
    fieldToBytes tn (.duration d) n order = .ok (durationTail order d n) := by
  have hs : subInt 8 n = 8 - n :=
    wrapInt_eq_self _ (by unfold minInt maxInt; constructor <;> omega)
  simp only [fieldToBytes, PutUint64_orderBytes, hs, durationTail]
  exact slice_suffix _ _ _ (by omega) (by omega) (by rw [orderBytes_length]; rfl)

theorem durationTail_length (order : ByteOrder) (d : SIntN 64) (n : Int) (hn : 0 ≤ n ∧ n ≤ 8) :
    ((durationTail order d n).length : Int) = n := by
  unfold durationTail
  rw [List.length_drop, orderBytes_length]
  omega

/-! ## Encoding of text -/

theorem fieldToBytes_string (tn : String) (s : List Byte) (n : Nat) (order : ByteOrder) :
    fieldToBytes tn (.string s) (n : Int) order = .ok (paddedText s n) := by
  have hm : makeBytes (n : Int) = .ok (List.replicate n 0) := by
    unfold makeBytes
    rw [if_neg (by omega)]
    simp
  unfold fieldToBytes paddedText
  by_cases h : (s.length : Int) > (n : Int)
  · have hsl : slice s 0 (n : Int) = .ok (s.take n) := by
      unfold slice
      rw [if_pos ⟨le_refl _, by omega, by omega⟩]
      simp
    simp only [h, if_true, hsl, hm, copyBytes, List.length_replicate, List.length_take]
    have h1 : min n s.length = n := by omega
    have h2 : min s.length n = n := by omega
    simp [h1, h2]
  · simp only [h, if_false, hm, copyBytes, List.length_replicate]
    have h2 : min s.length n = s.length := by omega
    rw [h2, List.take_of_length_le (by omega), List.take_of_length_le (le_refl _)]
    simp

theorem paddedText_length (s : List Byte) (n : Nat) : (paddedText s n).length = n := by
  unfold paddedText
  simp only [List.length_append, List.length_take, List.length_replicate]
  omega

theorem packed_span_of_pack (order : ByteOrder) (pre post : List Field) (f : Field)
    (out enc : List Byte) (o l : Int)
    (hpack : Pack order (pre ++ f :: post) = .ok out)
    (hspan : f.span = some (o, l))
    (henc : fieldToBytes f.typeName f.value l order = .ok enc)
    (hwidth : (enc.length : Int) = l)
    (hlast : ∀ g ∈ post, disjointSpans f g) :
    spanBytes out o l = enc := by
  obtain ⟨ho, _, _⟩ := Pack_span_bounds order _ out f o l hpack (by simp) hspan
  exact packed_span order pre post f out enc o l hpack hspan ho henc hwidth
    (fun g hg => disjointSpans_spec f g (hlast g hg))

/-! ## Decoding of durations -/

theorem Uint64_orderValue (order : ByteOrder) (a b c d e f g h : Byte) :
    order.Uint64 [a, b, c, d, e, f, g, h] = .ok (orderValue order [a, b, c, d, e, f, g, h]) ∧
      orderValue order [a, b, c, d, e, f, g, h] < 2 ^ 64 := by
  have ha := a.isLt; have hb := b.isLt; have hc := c.isLt; have hd := d.isLt
  have he := e.isLt; have hf := f.isLt; have hg := g.isLt; have hh := h.isLt
  cases order
  · simp only [ByteOrder.Uint64, uint64_value, orderValue, bigEndianValue]
    norm_num [List.range_succ]
    constructor <;> omega
  · simp only [ByteOrder.Uint64, uint64_value, orderValue, littleEndianValue]
    norm_num [List.range_succ]
    constructor <;> omega

theorem wrapUint_toS (v : Nat) (h : v < 2 ^ 64) : wrapUint 64 (toS 64 (v : Int)).val = v := by
  simp only [toS, wrapUint, wrapInt]
  norm_num at h ⊢
  omega

theorem length_cases_6_8 (span : List Byte) (h : 6 ≤ span.length ∧ span.length ≤ 8) :
    (∃ a b c d e f, span = [a, b, c, d, e, f]) ∨
    (∃ a b c d e f g, span = [a, b, c, d, e, f, g]) ∨
    (∃ a b c d e f g k, span = [a, b, c, d, e, f, g, k]) := by
  rcases span with _ | ⟨a, _ | ⟨b, _ | ⟨c, _ | ⟨d, _ | ⟨e, _ | ⟨f, _ | ⟨g, _ | ⟨k, _ | ⟨m, l⟩⟩⟩⟩⟩⟩⟩⟩⟩ <;>
    simp at h
  · exact Or.inl ⟨a, b, c, d, e, f, rfl⟩
  · exact Or.inr (Or.inl ⟨a, b, c, d, e, f, g, rfl⟩)
  · exact Or.inr (Or.inr ⟨a, b, c, d, e, f, g, k, rfl⟩)

theorem setFieldFromBytes_duration (tn : String) (d0 : SIntN 64) (span : List Byte)
    (order : ByteOrder) (h : 6 ≤ span.length ∧ span.length ≤ 8) :
    setFieldFromBytes tn (.duration d0) span order
      = .ok (.duration (toS 64 (orderValue order (zeroPadded span)))) ∧
    orderValue order (zeroPadded span) < 2 ^ 64 := by
  rcases length_cases_6_8 span h with ⟨a, b, c, d, e, f, rfl⟩ | ⟨a, b, c, d, e, f, g, rfl⟩ |
    ⟨a, b, c, d, e, f, g, k, rfl⟩
  · have hl : ((([a, b, c, d, e, f] : List Byte).length : Nat) : Int) = 6 := rfl
    have hs : subInt 8 6 = 2 := by decide
    have hm : makeBytes 2 = .ok [0, 0] := rfl
    have hz : zeroPadded [a, b, c, d, e, f] = [0, 0, a, b, c, d, e, f] := rfl
    have hv := Uint64_orderValue order 0 0 a b c d e f
    simp only [setFieldFromBytes, hl, hs, hm, hz]
    rw [if_neg (by decide)]
    simp only [List.cons_append, List.nil_append, hv.1]
    exact ⟨trivial, hv.2⟩
  · have hl : ((([a, b, c, d, e, f, g] : List Byte).length : Nat) : Int) = 7 := rfl
    have hs : subInt 8 7 = 1 := by decide
    have hm : makeBytes 1 = .ok [0] := rfl
    have hz : zeroPadded [a, b, c, d, e, f, g] = [0, a, b, c, d, e, f, g] := rfl
    have hv := Uint64_orderValue order 0 a b c d e f g
    simp only [setFieldFromBytes, hl, hs, hm, hz]
    rw [if_neg (by decide)]
    simp only [List.cons_append, List.nil_append, hv.1]
    exact ⟨trivial, hv.2⟩
  · have hl : ((([a, b, c, d, e, f, g, k] : List Byte).length : Nat) : Int) = 8 := rfl
    have hs : subInt 8 8 = 0 := by decide
    have hm : makeBytes 0 = .ok [] := rfl
    have hz : zeroPadded [a, b, c, d, e, f, g, k] = [a, b, c, d, e, f, g, k] := rfl
    have hv := Uint64_orderValue order a b c d e f g k
    simp only [setFieldFromBytes, hl, hs, hm, hz]
    rw [if_neg (by decide)]
    simp only [List.nil_append, hv.1]
    exact ⟨trivial, hv.2⟩

theorem setFieldFromBytes_duration_short (tn : String) (d0 : SIntN 64) (span : List Byte)
    (order : ByteOrder) (h : span.length < 6) :
    setFieldFromBytes tn (.duration d0) span order
      = .error "invalid length for time.Duration" := by
  simp only [setFieldFromBytes]
  rw [if_pos (by omega)]

/-! ## The walk of Unpack at a failure -/

theorem Unpack_stops (data : List Byte) (order : ByteOrder) (pre post : List Field)
    (f : Field) (m : String) (hpre : (Unpack data order pre).outcome = .ok ())
    (hf : unpackField data order f = .error m) :
    Unpack data order (pre ++ f :: post)
      = ⟨(Unpack data order pre).record ++ f :: post, .error m⟩ := by
  rw [Unpack_append data order pre _ hpre, Unpack_cons, hf]

theorem Unpack_faults (data : List Byte) (order : ByteOrder) (pre post : List Field)
    (f : Field) (hpre : (Unpack data order pre).outcome = .ok ())
    (hf : unpackField data order f = .fault) :
    Unpack data order (pre ++ f :: post)
      = ⟨(Unpack data order pre).record ++ f :: post, .fault⟩ := by
  rw [Unpack_append data order pre _ hpre, Unpack_cons, hf]

theorem unpackField_error (data : List Byte) (order : ByteOrder) (f : Field) (tag : String)
    (o l : Int) (m : String) (hlen : (data.length : Int) ≤ maxInt) (htag : f.tag = some tag)
    (hparse : parseUnpackTag tag = .ok (o, l)) (ho : 0 ≤ o) (hl : 0 ≤ l)
    (h : o + l ≤ (data.length : Int))
    (hset : setFieldFromBytes f.typeName f.value (spanBytes data o l) order = .error m) :
    unpackField data order f = .error ("failed to set field " ++ f.name ++ ": " ++ m) := by
  have hadd : addInt o l = o + l := addInt_eq _ _ (by unfold minInt; constructor <;> omega)
  unfold unpackField
  simp only [htag, hparse, hadd, slice_span data o l ho hl h, hset]
  rw [if_neg (by omega)]

/-! ## Durations, little-endian -/

theorem durationTail_le6 (d : SIntN 64) :
    durationTail .LittleEndian d 6 =
      [toByte (wrapUint 64 d.val >>> 16), toByte (wrapUint 64 d.val >>> 24),
       toByte (wrapUint 64 d.val >>> 32), toByte (wrapUint 64 d.val >>> 40),
       toByte (wrapUint 64 d.val >>> 48), toByte (wrapUint 64 d.val >>> 56)] := by
  have h : ((8 : Int) - 6).toNat = 2 := by decide
  simp only [durationTail, orderBytes, littleEndianBytes_eight, h, List.drop_succ_cons,
    List.drop_zero]

theorem orderValue_le6 (u : Nat) (hu : u < 2 ^ 64) :
    orderValue .LittleEndian (zeroPadded
      [toByte (u >>> 16), toByte (u >>> 24), toByte (u >>> 32), toByte (u >>> 40),
       toByte (u >>> 48), toByte (u >>> 56)]) = u - u % 65536 := by
  have hz : ∀ (a b c d e f : Byte), zeroPadded [a, b, c, d, e, f] = [0, 0, a, b, c, d, e, f] :=
    fun _ _ _ _ _ _ => rfl
  simp only [hz, orderValue, littleEndianValue, Nat.shiftRight_eq_div_pow]
  norm_num [List.range_succ, toByte_val] at hu ⊢
  omega

theorem cleared_eq_iff (d : SIntN 64) :
    toS 64 ((wrapUint 64 d.val - wrapUint 64 d.val % 65536 : Nat) : Int) = d
      ↔ d.val % 65536 = 0 := by
  have hd := d.property
  rw [Subtype.ext_iff]
  simp only [toS, wrapInt, wrapUint]
  norm_num at hd ⊢
  omega

/-! ## Pack on a record with a field that has no encoding -/

theorem isOk_iff {α : Type} (x : Result α) : x.isOk = true ↔ ∃ a, x = .ok a := by
  cases x <;> simp [Result.isOk]

theorem wellFormed_span (f : Field) (h : f.wellFormed) (hs : ¬ f.tag.getD "" = "") :
    ∃ o l, f.span = some (o, l) := by
  have ht := tag_of_not_skipped f hs
  unfold Field.wellFormed at h
  rw [ht] at h
  obtain ⟨p, hp⟩ := (isOk_iff _).mp h
  exact ⟨p.1, p.2, span_of_tag f _ p.1 p.2 ht hp⟩

theorem packSize_ok (fs : List Field) :
    ∀ (m : Int), (∀ g ∈ fs, g.wellFormed) →
      ∃ M, packSize fs m = .ok M ∧ m ≤ M ∧
        ∀ g ∈ fs, ∀ o l, g.span = some (o, l) → addInt o l ≤ M := by
  induction fs with
  | nil => intro m _; exact ⟨m, rfl, le_refl _, fun g hg => by cases hg⟩
  | cons f fs ih =>
    intro m h
    have hfs := fun g hg => h g (List.mem_cons_of_mem f hg)
    rw [packSize]
    by_cases hs : f.tag.getD "" = ""
    · rw [if_pos hs]
      obtain ⟨M, h1, h2, h3⟩ := ih m hfs
      refine ⟨M, h1, h2, fun g hg o l hsp => ?_⟩
      rcases List.mem_cons.mp hg with rfl | hg
      · rw [span_of_skipped g hs] at hsp; cases hsp
      · exact h3 g hg o l hsp
    · rw [if_neg hs]
      obtain ⟨o, l, hsp⟩ := wellFormed_span f (h f (by simp)) hs
      obtain ⟨tag, ht, hp, _⟩ := tag_of_span f o l hsp
      simp only [ht, Option.getD_some, hp]
      by_cases hm : addInt o l > m
      · rw [if_pos hm]
        obtain ⟨M, h1, h2, h3⟩ := ih (addInt o l) hfs
        refine ⟨M, h1, by omega, fun g hg o1 l1 hsp1 => ?_⟩
        rcases List.mem_cons.mp hg with rfl | hg
        · rw [hsp] at hsp1; cases hsp1; exact h2
        · exact h3 g hg o1 l1 hsp1
      · rw [if_neg hm]
        obtain ⟨M, h1, h2, h3⟩ := ih m hfs
        refine ⟨M, h1, h2, fun g hg o1 l1 hsp1 => ?_⟩
        rcases List.mem_cons.mp hg with rfl | hg
        · rw [hsp] at hsp1; cases hsp1; omega
        · exact h3 g hg o1 l1 hsp1

theorem withinLimit_spec (f : Field) (h : f.withinLimit) (o l : Int)
    (hs : f.span = some (o, l)) : addInt o l ≤ maxAlloc := by
  unfold Field.withinLimit at h
  rw [hs] at h
  exact h

theorem packSize_le (fs : List Field) (B : Int) :
    ∀ (m M : Int), m ≤ B → (∀ g ∈ fs, ∀ o l, g.span = some (o, l) → addInt o l ≤ B) →
      packSize fs m = .ok M → M ≤ B := by
  induction fs with
  | nil =>
    intro m M hm _ h
    simp only [packSize, Result.ok.injEq] at h
    omega
  | cons f fs ih =>
    intro m M hm hB h
    have hfs := fun g hg => hB g (List.mem_cons_of_mem f hg)
    rw [packSize] at h
    by_cases hs : f.tag.getD "" = ""
    · rw [if_pos hs] at h
      exact ih m M hm hfs h
    · rw [if_neg hs] at h
      have ht := tag_of_not_skipped f hs
      rw [ht] at h
      simp only [Option.getD_some] at h
      cases hp : parseUnpackTag _ with
      | error e => rw [hp] at h; cases h
      | fault => rw [hp] at h; cases h
      | ok p =>
        obtain ⟨o, l⟩ := p
        rw [hp] at h
        have hsp := span_of_tag f _ o l ht hp
        have hol := hB f (List.mem_cons_self _ _) o l hsp
        by_cases hgt : addInt o l > m
        · simp only [if_pos hgt] at h
          exact ih _ M hol hfs h
        · simp only [if_neg hgt] at h
          exact ih m M hm hfs h

theorem packFields_append (order : ByteOrder) (pre rest : List Field) :
    ∀ (buf : List Byte), packFields order (pre ++ rest) buf =
      (packFields order pre buf).bind (packFields order rest) := by
  induction pre with
  | nil => intro buf; rfl
  | cons f pre ih =>
    intro buf
    rw [List.cons_append, packFields_cons, packFields_cons]
    cases packField order f buf with
    | ok b => exact ih b
    | error m => rfl
    | fault => rfl

theorem packField_unsupported (order : ByteOrder) (f : Field) (buf : List Byte) (m : String)
    (hs : ∃ o l, f.span = some (o, l))
    (he : ∀ l, fieldToBytes f.typeName f.value l order = .error m) :
    packField order f buf
      = .error ("failed to convert field [" ++ f.name ++ "] to bytes: " ++ m) := by
  obtain ⟨o, l, hsp⟩ := hs
  obtain ⟨tag, ht, hp, hne⟩ := tag_of_span f o l hsp
  unfold packField
  rw [if_neg hne]
  simp only [ht, Option.getD_some, hp, he]

theorem Pack_unsupported (order : ByteOrder) (pre post : List Field) (f : Field) (m : String)
    (hwf : ∀ g ∈ pre ++ f :: post, g.wellFormed)
    (henc : ∀ g ∈ pre, g.encodable order)
    (htag : f.tag ≠ none)
    (he : ∀ l, fieldToBytes f.typeName f.value l order = .error m) :
    Pack order (pre ++ f :: post)
      = .error ("failed to convert field [" ++ f.name ++ "] to bytes: " ++ m) := by
  obtain ⟨M, hM, h0, hle⟩ := packSize_ok (pre ++ f :: post) 0 hwf
  have hpre : ∃ b1, packFields order pre (List.replicate M.toNat 0) = .ok b1 := by
    refine packFields_success order pre _ (fun g hg hs => ?_)
    obtain ⟨o, l, hsp⟩ := wellFormed_span g (hwf g (by simp [hg])) hs
    have hg1 := henc g hg
    unfold Field.encodable at hg1
    rw [hsp] at hg1
    obtain ⟨h1, h2, h3, h4⟩ := hg1
    obtain ⟨enc, hen⟩ := (isOk_iff _).mp h1
    have h5 : o + l ≤ maxInt := le_trans h4 maxAlloc_le_maxInt
    have ha : addInt o l = o + l := addInt_eq _ _ (by unfold minInt; constructor <;> omega)
    have hb := hle g (by simp [hg]) o l hsp
    refine ⟨o, l, enc, hsp, hen, h2, h3, ?_, h5⟩
    simp only [List.length_replicate]
    omega
  obtain ⟨b1, hb1⟩ := hpre
  have hfs : ∃ o l, f.span = some (o, l) := by
    refine wellFormed_span f (hwf f (by simp)) (fun hs => ?_)
    cases ht : f.tag with
    | none => exact htag ht
    | some tag =>
      have hw := hwf f (by simp)
      unfold Field.wellFormed at hw
      rw [ht] at hw hs
      simp only [Option.getD_some] at hs
      subst hs
      revert hw
      decide
  unfold Pack makeBytes
  simp only [hM]
  rw [if_neg (by omega)]
  simp only [packFields_append, hb1, Result.bind, packFields_cons,
    packField_unsupported order f b1 m hfs he]

theorem fieldToBytes_bool (tn : String) (v : Bool) (l : Int) (order : ByteOrder) :
    fieldToBytes tn (.bool v) l order = .error ("unsupported field type: " ++ tn) := rfl

theorem setFieldFromBytes_bool (tn : String) (v : Bool) (b : Byte) (rest : List Byte)
    (order : ByteOrder) :
    setFieldFromBytes tn (.bool v) (b :: rest) order = .ok (.bool (decide (b ≠ 0))) := by
  simp only [setFieldFromBytes, List.length_cons]
  rw [if_neg (by omega)]

theorem spanBytes_head (data : List Byte) (o l : Int) (ho : 0 ≤ o) (hl : 1 ≤ l)
    (h : o + l ≤ (data.length : Int)) :
    ∃ b rest, spanBytes data o l = b :: rest ∧ data[o.toNat]? = some b := by
  have hlen := spanBytes_length data o l ho h
  cases hs : spanBytes data o l with
  | nil => rw [hs] at hlen; simp at hlen; omega
  | cons b rest =>
    refine ⟨b, rest, rfl, ?_⟩
    have h0 : (spanBytes data o l)[0]? = some b := by rw [hs]; simp
    unfold spanBytes at h0
    rw [List.getElem?_take_of_lt (by omega), List.getElem?_drop] at h0
    simpa using h0

/-! ## The walk of Unpack, field by field -/

theorem Unpack_ok_fields (data : List Byte) (order : ByteOrder) (r : List Field) :
    (Unpack data order r).outcome = .ok () →
      ∀ (i : Nat) (f : Field), r[i]? = some f →
        ∃ g, unpackField data order f = .ok g ∧ (Unpack data order r).record[i]? = some g := by
  induction r with
  | nil => intro _ i f h; simp at h
  | cons x rest ih =>
    intro hok i f hi
    rw [Unpack_cons] at hok ⊢
    cases hx : unpackField data order x with
    | error m => rw [hx] at hok; cases hok
    | fault => rw [hx] at hok; cases hok
    | ok g =>
      rw [hx] at hok
      cases i with
      | zero =>
        simp only [List.getElem?_cons_zero, Option.some.injEq] at hi
        subst hi
        exact ⟨g, hx, by simp only [List.getElem?_cons_zero]⟩
      | succ i =>
        simp only [List.getElem?_cons_succ] at hi ⊢
        exact ih hok i f hi

theorem Unpack_all_ok (data : List Byte) (order : ByteOrder) (r : List Field) :
    (∀ f ∈ r, ∃ g, unpackField data order f = .ok g) →
      (Unpack data order r).outcome = .ok () := by
  induction r with
  | nil => intro _; rfl
  | cons x rest ih =>
    intro h
    obtain ⟨g, hg⟩ := h x (by simp)
    rw [Unpack_cons, hg]
    exact ih (fun f hf => h f (List.mem_cons_of_mem x hf))

theorem Unpack_ok_mem (data : List Byte) (order : ByteOrder) (r : List Field) (f : Field)
    (hok : (Unpack data order r).outcome = .ok ()) (hf : f ∈ r) :
    ∃ g, unpackField data order f = .ok g := by
  obtain ⟨i, hi⟩ := List.getElem?_of_mem hf
  obtain ⟨g, hg, _⟩ := Unpack_ok_fields data order r hok i f hi
  exact ⟨g, hg⟩

/-! ## strconv.Atoi and base-10 integers -/

theorem parseDigits_eq (s : List Char) :
    ∀ (acc : Nat), parseDigits s acc =
      if s.all isDigit then some (s.foldl (fun a c => a * 10 + (c.toNat - 48)) acc) else none := by
  induction s with
  | nil => intro acc; rfl
  | cons c cs ih =>
    intro acc
    rw [parseDigits]
    by_cases hc : isDigit c = true
    · simp only [hc, if_true, ih, List.all_cons, Bool.true_and, List.foldl_cons]
    · simp only [hc, List.all_cons, Bool.false_and]
      rfl

theorem Atoi_eq (s : List Char) :
    Atoi s = if isMachineInt s then some (numeralValue s) else none := by
  cases s with
  | nil => rfl
  | cons c rest =>
    by_cases hminus : c = '-'
    · subst hminus
      cases rest with
      | nil => rfl
      | cons d ds =>
        have hA : Atoi ('-' :: d :: ds) =
            match parseDigits (d :: ds) 0 with
            | none => none
            | some n =>
              if minInt ≤ -(n : Int) ∧ -(n : Int) ≤ maxInt then some (-(n : Int)) else none := rfl
        have hM : isMachineInt ('-' :: d :: ds) =
            ((d :: ds).all isDigit && decide (minInt ≤ -(digitsValue (d :: ds) : Int) ∧
              -(digitsValue (d :: ds) : Int) ≤ maxInt)) := rfl
        have hV : numeralValue ('-' :: d :: ds) = -(digitsValue (d :: ds) : Int) := rfl
        rw [hA, hM, hV, parseDigits_eq]
        by_cases hall : (d :: ds).all isDigit = true
        · rw [if_pos hall, hall]
          simp only [Bool.true_and, decide_eq_true_eq, digitsValue]
        · rw [if_neg hall]
          simp only [Bool.not_eq_true] at hall
          rw [hall]
          rfl
    · by_cases hplus : c = '+'
      · subst hplus
        cases rest with
        | nil => rfl
        | cons d ds =>
          have hA : Atoi ('+' :: d :: ds) =
              match parseDigits (d :: ds) 0 with
              | none => none
              | some n =>
                if minInt ≤ (n : Int) ∧ (n : Int) ≤ maxInt then some (n : Int) else none := rfl
          have hM : isMachineInt ('+' :: d :: ds) =
              ((d :: ds).all isDigit && decide (minInt ≤ (digitsValue (d :: ds) : Int) ∧
                (digitsValue (d :: ds) : Int) ≤ maxInt)) := rfl
          have hV : numeralValue ('+' :: d :: ds) = (digitsValue (d :: ds) : Int) := rfl
          rw [hA, hM, hV, parseDigits_eq]
          by_cases hall : (d :: ds).all isDigit = true
          · rw [if_pos hall, hall]
            simp only [Bool.true_and, decide_eq_true_eq, digitsValue]
          · rw [if_neg hall]
            simp only [Bool.not_eq_true] at hall
            rw [hall]
            rfl
      · have hsign : ¬ (c = '-' ∨ c = '+') := fun h => h.elim hminus hplus
        have hA : Atoi (c :: rest) =
            match parseDigits (c :: rest) 0 with
            | none => none
            | some n =>
              if minInt ≤ (n : Int) ∧ (n : Int) ≤ maxInt then some (n : Int) else none := by
          simp only [Atoi, if_neg hsign, decide_eq_false hminus]
          rfl
        have hM : isMachineInt (c :: rest) =
            ((c :: rest).all isDigit && decide (minInt ≤ (digitsValue (c :: rest) : Int) ∧
              (digitsValue (c :: rest) : Int) ≤ maxInt)) := by
          simp only [isMachineInt, isNumeral, numeralValue, if_neg hsign, if_neg hminus,
            if_neg hplus]
        have hV : numeralValue (c :: rest) = (digitsValue (c :: rest) : Int) := by
          simp only [numeralValue, if_neg hminus, if_neg hplus]
        rw [hA, hM, hV, parseDigits_eq]
        by_cases hall : (c :: rest).all isDigit = true
        · rw [if_pos hall, hall]
          simp only [Bool.true_and, decide_eq_true_eq, digitsValue]
        · rw [if_neg hall]
          simp only [Bool.not_eq_true] at hall
          rw [hall]
          rfl

theorem Atoi_none_iff (s : List Char) : Atoi s = none ↔ isMachineInt s = false := by
  rw [Atoi_eq]
  cases isMachineInt s <;> simp

/-! ## The first bad part of a tag -/

theorem parseParts_bad (bad : List Char) (rest : List (List Char))
    (hbad : badPart isMachineInt bad = true) :
    ∀ (good : List (List Char)) (o0 l0 : Int),
      (∀ p ∈ good, badPart isMachineInt p = false) →
      parseParts (good ++ bad :: rest) o0 l0 = .error (badPartError bad) := by
  intro good
  induction good with
  | nil =>
    intro o0 l0 _
    rw [List.nil_append, parseParts]
    unfold badPart at hbad
    unfold badPartError
    by_cases h1 : startsWith "offset=".toList bad = true
    · rw [if_pos h1] at hbad ⊢
      rw [if_pos h1]
      simp only [Bool.not_eq_true'] at hbad
      rw [(Atoi_none_iff _).mpr hbad]
    · rw [if_neg h1] at hbad ⊢
      rw [if_neg h1]
      by_cases h2 : startsWith "length=".toList bad = true
      · rw [if_pos h2] at hbad ⊢
        simp only [Bool.not_eq_true'] at hbad
        rw [(Atoi_none_iff _).mpr hbad]
      · rw [if_neg h2] at hbad
        cases hbad
  | cons p ps ih =>
    intro o0 l0 h
    have hps := fun q hq => h q (List.mem_cons_of_mem p hq)
    have hp := h p (by simp)
    rw [List.cons_append, parseParts]
    unfold badPart at hp
    by_cases h1 : startsWith "offset=".toList p = true
    · rw [if_pos h1] at hp ⊢
      simp only [Bool.not_eq_false'] at hp
      rw [Atoi_eq, hp]
      exact ih _ _ hps
    · rw [if_neg h1] at hp ⊢
      by_cases h2 : startsWith "length=".toList p = true
      · rw [if_pos h2] at hp ⊢
        simp only [Bool.not_eq_false'] at hp
        rw [Atoi_eq, hp]
        exact ih _ _ hps
      · rw [if_neg h2]
        exact ih _ _ hps

theorem parseUnpackTag_bad (tag : String) (good rest : List (List Char)) (bad : List Char)
    (hparts : splitOn ',' tag.toList = good ++ bad :: rest)
    (hgood : ∀ p ∈ good, badPart isMachineInt p = false)
    (hbad : badPart isMachineInt bad = true) :
    parseUnpackTag tag = .error (badPartError bad) := by
  unfold parseUnpackTag
  rw [hparts, parseParts_bad bad rest hbad good _ _ hgood]

/-! ## Records with a tag the parser rejects -/

theorem unpackField_bad_tag (data : List Byte) (order : ByteOrder) (f : Field) (tag m : String)
    (ht : f.tag = some tag) (hp : parseUnpackTag tag = .error m) :
    unpackField data order f
      = .error ("failed parsing unpack tag for field [" ++ f.name ++ "]: " ++ m) := by
  unfold unpackField
  simp only [ht, hp]

theorem packSize_bad_tag (fs : List Field) (f : Field) (tag m : String) (hf : f ∈ fs)
    (ht : f.tag = some tag) (hne : tag ≠ "") (hp : parseUnpackTag tag = .error m) :
    ∀ (m0 : Int), (packSize fs m0).isOk = false := by
  induction fs with
  | nil => cases hf
  | cons x rest ih =>
    intro m0
    rw [packSize]
    rcases List.mem_cons.mp hf with rfl | hf
    · simp only [ht, Option.getD_some, hne, if_false, hp]
      rfl
    · by_cases hs : x.tag.getD "" = ""
      · rw [if_pos hs]
        exact ih hf m0
      · rw [if_neg hs]
        cases hx : parseUnpackTag (x.tag.getD "") with
        | error e => rfl
        | fault => rfl
        | ok p =>
          obtain ⟨o, l⟩ := p
          simp only []
          split <;> exact ih hf _

theorem Pack_bad_tag (order : ByteOrder) (r : List Field) (f : Field) (tag m : String)
    (hf : f ∈ r) (ht : f.tag = some tag) (hne : tag ≠ "")
    (hp : parseUnpackTag tag = .error m) : (Pack order r).isOk = false := by
  have h := packSize_bad_tag r f tag m hf ht hne hp 0
  unfold Pack
  cases hs : packSize r 0 with
  | ok M => rw [hs] at h; cases h
  | error e => rfl
  | fault => rfl

/-! ## A call of Pack alone on the shared buffers -/

theorem run_returned (n : Nat) :
    ∀ (c : PackCall) (g : Scratch) (x : Result (List Byte)), c.returned = some x →
      (c.run n g).1.returned = some x := by
  induction n with
  | zero => intro c g x h; exact h
  | succ n ih =>
    intro c g x h
    have hs : c.step g = (c, g) := by
      unfold PackCall.step
      rw [h]
    rw [PackCall.run, hs]
    exact ih c g x h

theorem fieldToBytesShared_read (tn : String) (v : Value) (l : Int) (order : ByteOrder)
    (g : Scratch) :
    match fieldToBytesShared tn v l order g with
    | (.ok e, g1) => fieldToBytes tn v l order = .ok (e.read g1)
    | (.error m, _) => fieldToBytes tn v l order = .error m
    | (.fault, _) => fieldToBytes tn v l order = .fault := by
  cases v <;>
    first
      | rfl
      | (simp only [fieldToBytesShared]
         cases h : fieldToBytes tn _ l order <;> simp only [Encoded.ofResult, Encoded.read])

theorem run_alone (order : ByteOrder) (fs : List Field) :
    ∀ (buf : List Byte) (g : Scratch) (n : Nat), 2 * fs.length + 1 ≤ n →
      ((⟨order, fs, buf, none, none⟩ : PackCall).run n g).1.returned
        = some (packFields order fs buf) := by
  induction fs with
  | nil =>
    intro buf g n hn
    obtain ⟨k, rfl⟩ : ∃ k, n = k + 1 := ⟨n - 1, by omega⟩
    rw [PackCall.run]
    exact run_returned k _ _ _ rfl
  | cons f fs ih =>
    intro buf g n hn
    obtain ⟨k, rfl⟩ : ∃ k, n = k + 2 := ⟨n - 2, by simp only [List.length_cons] at hn; omega⟩
    have hk : 2 * fs.length + 1 ≤ k := by simp only [List.length_cons] at hn; omega
    rw [PackCall.run, packFields_cons]
    unfold packField
    by_cases hs : f.tag.getD "" = ""
    · have h1 : (⟨order, f :: fs, buf, none, none⟩ : PackCall).step g
          = (⟨order, fs, buf, none, none⟩, g) := by
        simp only [PackCall.step, hs, if_true]
      rw [h1, if_pos hs]
      exact ih buf g (k + 1) (by omega)
    · rw [if_neg hs]
      cases hp : parseUnpackTag (f.tag.getD "") with
      | error m =>
        have h1 : (⟨order, f :: fs, buf, none, none⟩ : PackCall).step g
            = (⟨order, f :: fs, buf, none, some (.error m)⟩, g) := by
          simp only [PackCall.step, hs, if_false, hp]
        rw [h1]
        exact run_returned _ _ _ _ rfl
      | fault =>
        have h1 : (⟨order, f :: fs, buf, none, none⟩ : PackCall).step g
            = (⟨order, f :: fs, buf, none, some .fault⟩, g) := by
          simp only [PackCall.step, hs, if_false, hp]
        rw [h1]
        exact run_returned _ _ _ _ rfl
      | ok p =>
        obtain ⟨o, l⟩ := p
        have hr := fieldToBytesShared_read f.typeName f.value l order g
        cases hsh : fieldToBytesShared f.typeName f.value l order g with
        | mk res g1 =>
          rw [hsh] at hr
          cases res with
          | error m =>
            simp only [] at hr
            have h1 : (⟨order, f :: fs, buf, none, none⟩ : PackCall).step g
                = (⟨order, f :: fs, buf, none, some (.error
                    ("failed to convert field [" ++ f.name ++ "] to bytes: " ++ m))⟩, g1) := by
              simp only [PackCall.step, hs, if_false, hp, hsh]
            rw [h1]
            simp only [hr]
            exact run_returned _ _ _ _ rfl
          | fault =>
            simp only [] at hr
            have h1 : (⟨order, f :: fs, buf, none, none⟩ : PackCall).step g
                = (⟨order, f :: fs, buf, none, some .fault⟩, g1) := by
              simp only [PackCall.step, hs, if_false, hp, hsh]
            rw [h1]
            simp only [hr]
            exact run_returned _ _ _ _ rfl
          | ok e =>
            simp only [] at hr
            have h1 : (⟨order, f :: fs, buf, none, none⟩ : PackCall).step g
                = (⟨order, fs, buf, some (e, o, l), none⟩, g1) := by
              simp only [PackCall.step, hs, if_false, hp, hsh]
            rw [h1]
            simp only [hr]
            rw [PackCall.run]
            cases hc : copyAt buf o (addInt o l) (e.read g1) with
            | ok r1 =>
              have h2 : (⟨order, fs, buf, some (e, o, l), none⟩ : PackCall).step g1
                  = (⟨order, fs, r1, none, none⟩, g1) := by
                simp only [PackCall.step, hc]
              rw [h2]
              exact ih r1 g1 k hk
            | error m =>
              have h2 : (⟨order, fs, buf, some (e, o, l), none⟩ : PackCall).step g1
                  = (⟨order, fs, buf, some (e, o, l), some (.error m)⟩, g1) := by
                simp only [PackCall.step, hc]
              rw [h2]
              exact run_returned _ _ _ _ rfl
            | fault =>
              have h2 : (⟨order, fs, buf, some (e, o, l), none⟩ : PackCall).step g1
                  = (⟨order, fs, buf, some (e, o, l), some .fault⟩, g1) := by
                simp only [PackCall.step, hc]
              rw [h2]
              exact run_returned _ _ _ _ rfl

theorem Pack_run_alone (order : ByteOrder) (r : List Field) (g : Scratch) :
    ((PackCall.start order r).run (2 * r.length + 1) g).1.returned = some (Pack order r) := by
  unfold PackCall.start Pack
  cases hs : packSize r 0 with
  | error m => exact run_returned _ _ _ _ rfl
  | fault => exact run_returned _ _ _ _ rfl
  | ok M =>
    simp only []
    cases hm : makeBytes M with
    | error m => exact run_returned _ _ _ _ rfl
    | fault => exact run_returned _ _ _ _ rfl
    | ok buf => exact run_alone order r buf g _ (le_refl _)

/-! ## Decoding then encoding -/

theorem put_get16 (order : ByteOrder) (a b : Byte) :
    ∃ u, order.Uint16 [a, b] = .ok u ∧ u < 2 ^ 16 ∧ order.PutUint16 u = [a, b] := by
  have ha := a.isLt; have hb := b.isLt
  cases order <;> refine ⟨_, rfl, ?_, ?_⟩ <;> rw [uint16_value] <;>
    (try simp only [ByteOrder.PutUint16, Nat.shiftRight_eq_div_pow, List.cons.injEq, and_true,
      Fin.ext_iff, toByte_val]) <;>
    norm_num <;> omega

theorem put_get32 (order : ByteOrder) (a b c d : Byte) :
    ∃ u, order.Uint32 [a, b, c, d] = .ok u ∧ u < 2 ^ 32 ∧ order.PutUint32 u = [a, b, c, d] := by
  have ha := a.isLt; have hb := b.isLt; have hc := c.isLt; have hd := d.isLt
  cases order <;> refine ⟨_, rfl, ?_, ?_⟩ <;> rw [uint32_value] <;>
    (try simp only [ByteOrder.PutUint32, Nat.shiftRight_eq_div_pow, List.cons.injEq, and_true,
      Fin.ext_iff, toByte_val]) <;>
    norm_num <;> omega

theorem put_get64 (order : ByteOrder) (a b c d e f g h : Byte) :
    ∃ u, order.Uint64 [a, b, c, d, e, f, g, h] = .ok u ∧ u < 2 ^ 64 ∧
      order.PutUint64 u = [a, b, c, d, e, f, g, h] := by
  have ha := a.isLt; have hb := b.isLt; have hc := c.isLt; have hd := d.isLt
  have he := e.isLt; have hf := f.isLt; have hg := g.isLt; have hh := h.isLt
  cases order <;> refine ⟨_, rfl, ?_, ?_⟩ <;> rw [uint64_value] <;>
    (try simp only [ByteOrder.PutUint64, Nat.shiftRight_eq_div_pow, List.cons.injEq, and_true,
      Fin.ext_iff, toByte_val]) <;>
    norm_num <;> omega

theorem wrapUint_toU (bits : Nat) (u : Nat) (h : u < 2 ^ bits) :
    wrapUint bits ((toU bits (u : Int)).val : Int) = u := by
  have h1 : wrapUint bits (u : Int) = u := by
    unfold wrapUint
    have : ((u : Int) % 2 ^ bits) = ((u % 2 ^ bits : Nat) : Int) := by push_cast; rfl
    rw [this, Int.toNat_natCast, Nat.mod_eq_of_lt h]
  simp only [toU, h1]

theorem wrapUint_toS8 (u : Nat) (h : u < 2 ^ 8) : wrapUint 8 (toS 8 (u : Int)).val = u := by
  simp only [toS, wrapUint, wrapInt]
  norm_num at h ⊢
  omega

theorem wrapUint_toS16 (u : Nat) (h : u < 2 ^ 16) : wrapUint 16 (toS 16 (u : Int)).val = u := by
  simp only [toS, wrapUint, wrapInt]
  norm_num at h ⊢
  omega

theorem wrapUint_toS32 (u : Nat) (h : u < 2 ^ 32) : wrapUint 32 (toS 32 (u : Int)).val = u := by
  simp only [toS, wrapUint, wrapInt]
  norm_num at h ⊢
  omega

theorem toByte_of_byte (a : Byte) : toByte a.val = a := by
  apply Fin.ext
  rw [toByte_val]
  exact Nat.mod_eq_of_lt a.isLt

theorem encode_decode_int (tn : String) (fv : Value) (t : IntType) (span : List Byte)
    (order : ByteOrder) (ht : fv.intType = some t) (hlen : span.length = t.width) :
    ∃ v, setFieldFromBytes tn fv span order = .ok v ∧
      ∀ (tn1 : String) (l : Int), fieldToBytes tn1 v l order = .ok span := by
  cases fv <;> simp only [Value.intType, Option.some.injEq, reduceCtorEq] at ht <;> subst ht <;>
    simp only [IntType.width] at hlen
  · obtain ⟨a, rfl⟩ := List.length_eq_one.mp hlen
    refine ⟨.uint8 (toU 8 a.val), ?_, fun tn1 l => ?_⟩
    · simp only [setFieldFromBytes, List.length_cons, List.length_nil]
      rw [if_neg (by decide)]
    · simp only [fieldToBytes, wrapUint_toU 8 a.val a.isLt, toByte_of_byte]
  · obtain ⟨a, b, rfl⟩ := List.length_eq_two.mp hlen
    obtain ⟨u, hu, hlt, hput⟩ := put_get16 order a b
    refine ⟨.uint16 (toU 16 u), ?_, fun tn1 l => ?_⟩
    · simp only [setFieldFromBytes, slice_all [a, b] 2 rfl, Result.bind, hu, List.length_cons,
        List.length_nil]
      rw [if_neg (by decide)]
    · simp only [fieldToBytes, wrapUint_toU 16 u hlt, hput]
  · obtain ⟨a, b, c, d, rfl⟩ := length_eq_four _ hlen
    obtain ⟨u, hu, hlt, hput⟩ := put_get32 order a b c d
    refine ⟨.uint32 (toU 32 u), ?_, fun tn1 l => ?_⟩
    · simp only [setFieldFromBytes, slice_all [a, b, c, d] 4 rfl, Result.bind, hu,
        List.length_cons, List.length_nil]
      rw [if_neg (by decide)]
    · simp only [fieldToBytes, wrapUint_toU 32 u hlt, hput]
  · obtain ⟨a, b, c, d, e, f, g, k, rfl⟩ := length_eq_eight _ hlen
    obtain ⟨u, hu, hlt, hput⟩ := put_get64 order a b c d e f g k
    refine ⟨.uint64 (toU 64 u), ?_, fun tn1 l => ?_⟩
    · simp only [setFieldFromBytes, slice_all [a, b, c, d, e, f, g, k] 8 rfl, Result.bind, hu,
        List.length_cons, List.length_nil]
      rw [if_neg (by decide)]
    · simp only [fieldToBytes, wrapUint_toU 64 u hlt, hput]
  · obtain ⟨a, rfl⟩ := List.length_eq_one.mp hlen
    refine ⟨.int8 (toS 8 a.val), ?_, fun tn1 l => ?_⟩
    · simp only [setFieldFromBytes, List.length_cons, List.length_nil]
      rw [if_neg (by decide)]
    · simp only [fieldToBytes, wrapUint_toS8 a.val a.isLt, toByte_of_byte]
  · obtain ⟨a, b, rfl⟩ := List.length_eq_two.mp hlen
    obtain ⟨u, hu, hlt, hput⟩ := put_get16 order a b
    refine ⟨.int16 (toS 16 u), ?_, fun tn1 l => ?_⟩
    · simp only [setFieldFromBytes, slice_all [a, b] 2 rfl, Result.bind, hu, List.length_cons,
        List.length_nil]
      rw [if_neg (by decide)]
    · simp only [fieldToBytes, wrapUint_toS16 u hlt, hput]
  · obtain ⟨a, b, c, d, rfl⟩ := length_eq_four _ hlen
    obtain ⟨u, hu, hlt, hput⟩ := put_get32 order a b c d
    refine ⟨.int32 (toS 32 u), ?_, fun tn1 l => ?_⟩
    · simp only [setFieldFromBytes, slice_all [a, b, c, d] 4 rfl, Result.bind, hu,
        List.length_cons, List.length_nil]
      rw [if_neg (by decide)]
    · simp only [fieldToBytes, wrapUint_toS32 u hlt, hput]
  · obtain ⟨a, b, c, d, e, f, g, k, rfl⟩ := length_eq_eight _ hlen
    obtain ⟨u, hu, hlt, hput⟩ := put_get64 order a b c d e f g k
    refine ⟨.int64 (toS 64 u), ?_, fun tn1 l => ?_⟩
    · simp only [setFieldFromBytes, slice_all [a, b, c, d, e, f, g, k] 8 rfl, Result.bind, hu,
        List.length_cons, List.length_nil]
      rw [if_neg (by decide)]
    · simp only [fieldToBytes, wrapUint_toS u hlt, hput]

theorem orderBytes_orderValue (order : ByteOrder) (a b c d e f g h : Byte) :
    orderBytes order 8 (orderValue order [a, b, c, d, e, f, g, h])
      = [a, b, c, d, e, f, g, h] := by
  obtain ⟨u, hu, _, hput⟩ := put_get64 order a b c d e f g h
  have hv := (Uint64_orderValue order a b c d e f g h).1
  rw [hu] at hv
  cases hv
  rw [← PutUint64_orderBytes]
  exact hput

theorem encode_decode_duration (tn : String) (d0 : SIntN 64) (span : List Byte)
    (order : ByteOrder) (h : 6 ≤ span.length ∧ span.length ≤ 8) :
    ∃ v, setFieldFromBytes tn (.duration d0) span order = .ok v ∧
      ∀ (tn1 : String), fieldToBytes tn1 v (span.length : Int) order = .ok span := by
  obtain ⟨hset, hlt⟩ := setFieldFromBytes_duration tn d0 span order h
  refine ⟨_, hset, fun tn1 => ?_⟩
  rw [fieldToBytes_duration _ _ _ order (by omega)]
  unfold durationTail
  rw [wrapUint_toS _ hlt]
  congr 1
  rcases length_cases_6_8 span h with ⟨a, b, c, d, e, f, rfl⟩ | ⟨a, b, c, d, e, f, g, rfl⟩ |
    ⟨a, b, c, d, e, f, g, k, rfl⟩
  · have hz : zeroPadded [a, b, c, d, e, f] = [0, 0, a, b, c, d, e, f] := rfl
    rw [hz, orderBytes_orderValue]
    rfl
  · have hz : zeroPadded [a, b, c, d, e, f, g] = [0, a, b, c, d, e, f, g] := rfl
    rw [hz, orderBytes_orderValue]
    rfl
  · have hz : zeroPadded [a, b, c, d, e, f, g, k] = [a, b, c, d, e, f, g, k] := rfl
    rw [hz, orderBytes_orderValue]
    rfl

theorem spanBytes_getElem? (data : List Byte) (o l : Int) (j : Nat)
    (hj : (j : Int) < l) : (spanBytes data o l)[j]? = data[o.toNat + j]? := by
  unfold spanBytes
  rw [List.getElem?_take_of_lt (by omega), List.getElem?_drop]

theorem kind_zero (v : Value) (h : v.kind = 0) : ∃ d, v = .duration d := by
  cases v <;> simp only [Value.kind] at h <;> try omega
  exact ⟨_, rfl⟩

theorem unpackField_layout (b : List Byte) (order : ByteOrder) (f : Field)
    (hlen : (b.length : Int) ≤ maxInt) (h : LayoutField b.length f) :
    ∃ g, unpackField b order f = .ok g ∧ g.tag = f.tag ∧
      (f.tag = none ∨ ∃ o l, f.span = some (o, l) ∧ 0 ≤ o ∧ 0 ≤ l ∧
        o + l ≤ (b.length : Int) ∧
        fieldToBytes g.typeName g.value l order = .ok (spanBytes b o l)) := by
  unfold LayoutField at h
  split at h
  · rename_i h1
    exact ⟨f, unpackField_untagged b order f h1, rfl, Or.inl h1⟩
  · rename_i tag0 o l t h1 hs hty
    obtain ⟨ho, hin, rfl⟩ := h
    obtain ⟨tag, ht, hp, _⟩ := tag_of_span f o _ hs
    have hsl : (spanBytes b o (t.width : Int)).length = t.width := by
      have := spanBytes_length b o (t.width : Int) ho hin
      omega
    obtain ⟨v, hset, henc⟩ := encode_decode_int f.typeName f.value t _ order hty hsl
    refine ⟨{ f with value := v }, ?_, rfl, Or.inr ⟨o, _, hs, ho, by omega, hin, henc _ _⟩⟩
    exact unpackField_tagged b order f tag o _ v hlen ht hp ho (by omega) hin hset
  · rename_i tag0 o l h1 hs hty
    obtain ⟨ho, hin, hk, h6, h8⟩ := h
    obtain ⟨tag, ht, hp, _⟩ := tag_of_span f o _ hs
    obtain ⟨d0, hd⟩ := kind_zero f.value hk
    have hsl : ((spanBytes b o l).length : Int) = l := by
      have := spanBytes_length b o l ho hin
      omega
    obtain ⟨v, hset, henc⟩ := encode_decode_duration f.typeName d0 (spanBytes b o l) order
      (by omega)
    rw [hsl] at henc
    refine ⟨{ f with value := v }, ?_, rfl, Or.inr ⟨o, l, hs, ho, by omega, hin, henc _⟩⟩
    exact unpackField_tagged b order f tag o l v hlen ht hp ho (by omega) hin (by rw [hd]; exact hset)
  · exact absurd h id

theorem span_congr (f g : Field) (h : g.tag = f.tag) : g.span = f.span := by
  unfold Field.span
  rw [h]

theorem covers_congr (f g : Field) (h : g.tag = f.tag) (i : Nat) : g.covers i = f.covers i := by
  unfold Field.covers
  rw [span_congr f g h]

theorem Unpack_layout (b : List Byte) (order : ByteOrder)
    (hlen : (b.length : Int) ≤ maxInt) (r : List Field) :
    (∀ f ∈ r, LayoutField b.length f) →
      (Unpack b order r).outcome = .ok () ∧
      (∀ m, maxSpanFrom (Unpack b order r).record m = maxSpanFrom r m) ∧
      (∀ i, (Unpack b order r).record.any (fun f => f.covers i) = r.any (fun f => f.covers i)) ∧
      ∀ g ∈ (Unpack b order r).record, g.tag = none ∨ ∃ o l, g.span = some (o, l) ∧ 0 ≤ o ∧
        0 ≤ l ∧ o + l ≤ (b.length : Int) ∧
        fieldToBytes g.typeName g.value l order = .ok (spanBytes b o l) := by
  induction r with
  | nil =>
    intro _
    refine ⟨rfl, fun _ => rfl, fun _ => rfl, ?_⟩
    intro g hg
    simp [Unpack] at hg
  | cons f rest ih =>
    intro h
    obtain ⟨g, hg, htag, hfaith⟩ := unpackField_layout b order f hlen (h f (List.mem_cons_self _ _))
    obtain ⟨h1, h2, h3, h4⟩ := ih (fun x hx => h x (List.mem_cons_of_mem _ hx))
    have hU : Unpack b order (f :: rest)
        = ⟨g :: (Unpack b order rest).record, (Unpack b order rest).outcome⟩ := by
      rw [Unpack_cons, hg]
    rw [hU]
    refine ⟨h1, ?_, ?_, ?_⟩
    · intro m
      simp only [maxSpanFrom, span_congr f g htag]
      split <;> exact h2 _
    · intro i
      simp only [List.any_cons, covers_congr f g htag, h3]
    · intro x hx
      rcases List.mem_cons.mp hx with rfl | hx
      · rcases hfaith with hn | ⟨o, l, hs, rest1⟩
        · exact Or.inl (by rw [htag]; exact hn)
        · exact Or.inr ⟨o, l, by rw [span_congr f x htag]; exact hs, rest1⟩
      · exact h4 x hx

theorem packFields_content (order : ByteOrder) (b : List Byte) (fs : List Field) :
    ∀ (buf out : List Byte), packFields order fs buf = .ok out →
      (∀ g ∈ fs, ∀ o l, g.span = some (o, l) →
        fieldToBytes g.typeName g.value l order = .ok (spanBytes b o l) ∧
          o + l ≤ (b.length : Int)) →
      ∀ i, out[i]? = if fs.any (fun f => f.covers i) then b[i]? else buf[i]? := by
  induction fs with
  | nil =>
    intro buf out h _ i
    simp only [packFields, Result.ok.injEq] at h
    subst h
    simp
  | cons f rest ih =>
    intro buf out h hf i
    obtain ⟨b1, hb1, hrest⟩ := packFields_cons_ok order f rest buf out h
    rw [ih b1 out hrest (fun g hg => hf g (List.mem_cons_of_mem _ hg)) i]
    simp only [List.any_cons]
    by_cases hr : (rest.any fun f => f.covers i) = true
    · simp only [hr, Bool.or_true, if_true]
    · simp only [hr, Bool.or_false, if_false]
      rcases packField_ok order f buf b1 hb1 with ⟨hs, _, rfl⟩ | ⟨o, l, enc, hs, he, ho, hl, hin, _, rfl⟩
      · have : f.covers i = false := by simp only [Field.covers, hs]
        simp only [this, Bool.false_eq_true, if_false]
      · obtain ⟨he1, hb⟩ := hf f (List.mem_cons_self _ _) o l hs
        rw [he] at he1
        cases he1
        have hsl := spanBytes_length b o l ho hb
        have h1 : buf.take o.toNat ++ copyBytes (spanBytes buf o l) (spanBytes b o l)
              ++ buf.drop (o + l).toNat
            = buf.take o.toNat ++ copyBytes ((buf.drop o.toNat).take l.toNat) (spanBytes b o l)
              ++ buf.drop (o.toNat + l.toNat) := by
          have : (o + l).toNat = o.toNat + l.toNat := by omega
          rw [this]
          rfl
        rw [h1, splice_getElem? buf _ o.toNat l.toNat (by omega) i]
        have hmin : min l.toNat (spanBytes b o l).length = l.toNat := by omega
        rw [hmin]
        by_cases hc : o.toNat ≤ i ∧ i < o.toNat + l.toNat
        · have hcov : f.covers i = true := by
            simp only [Field.covers, hs, decide_eq_true_eq]
            omega
          have hi : o.toNat + (i - o.toNat) = i := by omega
          rw [if_pos hc, if_pos hcov, spanBytes_getElem? b o l (i - o.toNat) (by omega), hi]
          simp only [Bool.false_eq_true, if_false]
        · have hcov : f.covers i = false := by
            simp only [Field.covers, hs, decide_eq_false_iff_not]
            omega
          rw [if_neg hc]
          simp only [hcov, Bool.false_eq_true, if_false]

/-! ## The properties C1 to C10 -/

/-- C1 (amended): integer round trip.  For every byte order and every record
whose tagged fields are of the eight integer types, with non-negative offsets,
pairwise non-overlapping spans, each declared length equal to the byte width of
the type, and every span ending at or below the allocation limit `maxAlloc` of
the runtime, `Pack` returns a buffer, of at most `maxAlloc` bytes, and `Unpack`
of that buffer into a struct of the same type succeeds and leaves every tagged
field equal to the same field of the record. -/
theorem pack_unpack_integers (order : ByteOrder) (r q : List Field)
    (hint : ∀ f ∈ r, IntegerField f) (hdisj : r.Pairwise disjointSpans)
    (hsame : List.Forall₂ sameLayout r q) (hfit : ∀ f ∈ r, f.fits) :
    IntegerRoundTrip order r q ∧
      ∀ b, Pack order r = .ok b → (b.length : Int) ≤ maxAlloc := by
  have hfit0 := fits_spec r hfit
  have hfit1 : ∀ f ∈ r, ∀ o l, f.span = some (o, l) → o + l ≤ maxInt :=
    fun f hf o l hs => le_trans (hfit0 f hf o l hs) maxAlloc_le_maxInt
  have hfield : ∀ f ∈ r, ∀ tag, f.tag = some tag → ∃ o t enc,
      parseUnpackTag tag = .ok (o, (t.width : Int)) ∧ f.value.intType = some t ∧ 0 ≤ o ∧
      f.span = some (o, (t.width : Int)) ∧ o + (t.width : Int) ≤ maxInt ∧
      fieldToBytes f.typeName f.value t.width order = .ok enc ∧
      (enc.length : Int) = (t.width : Int) := by
    intro f hf tag ht
    obtain ⟨o, t, hp, hty, ho, hs⟩ := integerField_spec f tag (hint f hf) ht
    obtain ⟨enc, he, hl, _⟩ := decode_encode_int f.typeName f.typeName f.value f.value t
      t.width order hty hty
    exact ⟨o, t, enc, hp, hty, ho, hs, hfit1 f hf _ _ hs, he, by rw [hl]⟩
  obtain ⟨b, hb⟩ := Pack_success order r (fun f hf hs => by
    obtain ⟨o, t, enc, _, _, ho, hsp, hm, he, _⟩ := hfield f hf _ (tag_of_not_skipped f hs)
    exact ⟨o, t.width, enc, hsp, he, ho, Int.natCast_nonneg _, hm⟩)
  obtain ⟨_, _, hlen⟩ := Pack_ok order r b hb
  have hmax : maxSpan r ≤ maxInt := maxSpanFrom_le r maxInt 0 (by decide) hfit1
  have hlim : maxSpan r ≤ maxAlloc := maxSpanFrom_le r maxAlloc 0 (by decide) hfit0
  have hun := Unpack_packed b order (by omega) r q hsame (fun f hf tag ht => by
    obtain ⟨o, t, enc, hp, hty, ho, hsp, _, he, hl⟩ := hfield f hf tag ht
    obtain ⟨pre, post, rfl⟩ := List.append_of_mem hf
    have hpost : ∀ g ∈ post, ∀ o1 l1 o2 l2, f.span = some (o1, l1) → g.span = some (o2, l2) →
        o1 + l1 ≤ o2 ∨ o2 + l2 ≤ o1 := by
      have h1 := (List.pairwise_append.mp hdisj).2.1
      exact fun g hg => disjointSpans_spec f g ((List.pairwise_cons.mp h1).1 g hg)
    have hspan := packed_span order pre post f b enc o t.width hb hsp ho he hl hpost
    have hle := maxSpanFrom_span (pre ++ f :: post) 0 f hf o t.width hsp
    exact ⟨o, t, enc, hp, hty, ho, by unfold maxSpan at hlen; omega, he, hspan⟩)
  refine ⟨⟨b, hb, hun.1, hun.2⟩, fun b1 hb1 => ?_⟩
  rw [hb] at hb1
  cases hb1
  omega

/-- C1, witness: the two `uint16` fields and the `uint8` field of a `SystemEvent`
beside an untagged field, little-endian. -/
theorem pack_unpack_integers_witness :
    IntegerRoundTrip .LittleEndian
      [⟨"StockLocate", "uint16", some "offset=1,length=2", .uint16 0x0102⟩,
       ⟨"Note", "string", none, .string [65]⟩,
       ⟨"TrackingNumber", "uint16", some "offset=3,length=2", .uint16 0x0304⟩,
       ⟨"EventCode", "main.EventCode", some "offset=11,length=1", .uint8 0x53⟩]
      [⟨"StockLocate", "uint16", some "offset=1,length=2", .uint16 0⟩,
       ⟨"Note", "string", none, .string []⟩,
       ⟨"TrackingNumber", "uint16", some "offset=3,length=2", .uint16 0⟩,
       ⟨"EventCode", "main.EventCode", some "offset=11,length=1", .uint8 0⟩] ∧
    ∀ b, Pack .LittleEndian
      [⟨"StockLocate", "uint16", some "offset=1,length=2", .uint16 0x0102⟩,
       ⟨"Note", "string", none, .string [65]⟩,
       ⟨"TrackingNumber", "uint16", some "offset=3,length=2", .uint16 0x0304⟩,
       ⟨"EventCode", "main.EventCode", some "offset=11,length=1", .uint8 0x53⟩] = .ok b →
      (b.length : Int) ≤ maxAlloc :=
  pack_unpack_integers .LittleEndian _ _ (by decide) (by decide)
    (List.Forall₂.cons ⟨rfl, rfl, rfl, rfl⟩ (List.Forall₂.cons ⟨rfl, rfl, rfl, rfl⟩
      (List.Forall₂.cons ⟨rfl, rfl, rfl, rfl⟩ (List.Forall₂.cons ⟨rfl, rfl, rfl, rfl⟩
        List.Forall₂.nil))))
    (by decide)

/-- C1, counterexample: a `uint8` field at the largest `int` as offset meets the
conditions of the claim, and `Pack` ends in a fault on it, the sum of offset and
length having wrapped around. -/
theorem pack_unpack_integers_overflow :
    ¬ ∀ (order : ByteOrder) (r q : List Field),
      (∀ f ∈ r, IntegerField f) → r.Pairwise disjointSpans → List.Forall₂ sameLayout r q →
        IntegerRoundTrip order r q := by
  intro h
  obtain ⟨b, hb, _⟩ := h .BigEndian
    [⟨"A", "uint8", some "offset=9223372036854775807,length=1", .uint8 0⟩]
    [⟨"A", "uint8", some "offset=9223372036854775807,length=1", .uint8 0⟩]
    (by decide) (by decide)
    (List.Forall₂.cons ⟨rfl, rfl, rfl, rfl⟩ List.Forall₂.nil)
  have hf : Pack .BigEndian
      [⟨"A", "uint8", some "offset=9223372036854775807,length=1", .uint8 0⟩] = .fault := by
    decide
  rw [hf] at hb
  cases hb

/-- C2: integer decode equals the reference definition.  When the walk of `Unpack`
reaches a tagged field of an integer type of width `w` (every earlier field
decoded) whose span `[offset, offset+w)` lies in the buffer, the field is set to
the big-endian value of the `w` bytes of the span under big-endian order and to
their little-endian value under little-endian order, read in two's complement
for a signed type; name, tag and type of the field are kept. -/
theorem unpack_integer_reference (data : List Byte) (order : ByteOrder)
    (pre post : List Field) (f : Field) (tag : String) (o : Int) (t : IntType)
    (hlen : (data.length : Int) ≤ maxInt)
    (hpre : (Unpack data order pre).outcome = .ok ())
    (htag : f.tag = some tag) (hparse : parseUnpackTag tag = .ok (o, (t.width : Int)))
    (htype : f.value.intType = some t)
    (hspan : 0 ≤ o ∧ o + (t.width : Int) ≤ (data.length : Int)) :
    ∃ g, (Unpack data order (pre ++ f :: post)).record[pre.length]? = some g ∧
      g.name = f.name ∧ g.typeName = f.typeName ∧ g.tag = f.tag ∧
      g.value.intType = some t ∧
      g.value.toInt = referenceInt t order (spanBytes data o t.width) := by
  have hw : (0 : Int) ≤ (t.width : Int) := Int.natCast_nonneg _
  have hsl : (spanBytes data o t.width).length = t.width := by
    have := spanBytes_length data o t.width hspan.1 hspan.2
    omega
  obtain ⟨v, hv, hvt, hvi⟩ := setFieldFromBytes_int f.typeName f.value t _ order htype hsl
  have hf := unpackField_tagged data order f tag o t.width v hlen htag hparse hspan.1 hw
    hspan.2 hv
  exact ⟨_, Unpack_reaches data order pre post f _ hpre hf, rfl, rfl, rfl, hvt, hvi⟩

/-- C2, witness: an `int16` at offset 1 of the buffer `01 FF FE`, big-endian. -/
theorem unpack_integer_reference_witness :
    ∃ g, (Unpack [1, 255, 254] .BigEndian
        ([] ++ (⟨"A", "int16", some "offset=1,length=2", .int16 ⟨0, by decide⟩⟩ : Field)
          :: [])).record[([] : List Field).length]? = some g ∧
      g.name = "A" ∧ g.typeName = "int16" ∧ g.tag = some "offset=1,length=2" ∧
      g.value.intType = some .int16 ∧
      g.value.toInt = referenceInt .int16 .BigEndian (spanBytes [1, 255, 254] 1 2) :=
  unpack_integer_reference [1, 255, 254] .BigEndian [] []
    ⟨"A", "int16", some "offset=1,length=2", .int16 ⟨0, by decide⟩⟩ "offset=1,length=2" 1 .int16
    (by decide) (by decide) rfl (by decide) rfl (by decide)

/-- C3, failing input: on a tag whose offset plus length passes the largest
`int`, the sum wraps to a negative number, the bounds check of `Unpack` lets
it through, and the slice expression ends the call in a fault instead of the
error "data out of bounds". -/
theorem unpack_bounds_check_wraps :
    parseUnpackTag "offset=9223372036854775807,length=1" = .ok (9223372036854775807, 1) ∧
      (9223372036854775807 : Int) + 1 > (([] : List Byte).length : Int) ∧
      Unpack [] .BigEndian
          [⟨"A", "uint8", some "offset=9223372036854775807,length=1", .uint8 0⟩]
        = ⟨[⟨"A", "uint8", some "offset=9223372036854775807,length=1", .uint8 0⟩], .fault⟩ := by
  decide

/-- C4, failing input: tags that `parseUnpackTag` accepts and on which `Unpack`
and `Pack` end in a fault: a negative offset, a negative length, and a
duration field of length 9. -/
theorem unpack_pack_fault :
    (parseUnpackTag "offset=-2,length=3" = .ok (-2, 3) ∧
      (Unpack [1, 2, 3] .BigEndian
        [⟨"A", "uint8", some "offset=-2,length=3", .uint8 0⟩]).outcome = .fault ∧
      Pack .BigEndian [⟨"A", "uint8", some "offset=-2,length=3", .uint8 0⟩] = .fault) ∧
    (parseUnpackTag "offset=3,length=-2" = .ok (3, -2) ∧
      (Unpack [1, 2, 3] .BigEndian
        [⟨"A", "uint8", some "offset=3,length=-2", .uint8 0⟩]).outcome = .fault ∧
      Pack .BigEndian [⟨"A", "uint8", some "offset=3,length=-2", .uint8 0⟩] = .fault) ∧
    (parseUnpackTag "offset=0,length=9" = .ok (0, 9) ∧
      (Unpack [1, 2, 3, 4, 5, 6, 7, 8, 9] .BigEndian
        [⟨"D", "time.Duration", some "offset=0,length=9",
          .duration ⟨0, by decide⟩⟩]).outcome = .fault ∧
      Pack .BigEndian [⟨"D", "time.Duration", some "offset=0,length=9",
          .duration ⟨0, by decide⟩⟩] = .fault) := by
  decide

/-- C5: buffer sizing.  When `Pack` returns a buffer, its length is the largest
`offset + length` over the tagged fields (0 when no field is tagged), and every
byte whose index lies in the span of no tagged field is zero. -/
theorem pack_buffer_size (order : ByteOrder) (r : List Field) (out : List Byte)
    (h : Pack order r = .ok out) :
    (out.length : Int) = maxSpan r ∧
      ∀ i, i < out.length → (∀ f ∈ r, f.covers i = false) → out[i]? = some 0 := by
  obtain ⟨h0, hp, hl⟩ := Pack_ok order r out h
  refine ⟨hl, fun i hi hc => ?_⟩
  rw [packFields_getElem? order r i _ out hp hc]
  rw [List.getElem?_replicate]
  rw [if_pos (by omega)]

/-- C5, witness: fields at spans `[0,2)` and `[5,6)` give a 6-byte buffer whose
bytes 2, 3, 4 are zero. -/
theorem pack_buffer_size_witness :
    Pack .BigEndian
        [⟨"A", "uint16", some "offset=0,length=2", .uint16 0x0102⟩,
         ⟨"B", "uint8", some "offset=5,length=1", .uint8 3⟩] = .ok [1, 2, 0, 0, 0, 3] ∧
      ((([1, 2, 0, 0, 0, 3] : List Byte).length : Int) = maxSpan
        [⟨"A", "uint16", some "offset=0,length=2", .uint16 0x0102⟩,
         ⟨"B", "uint8", some "offset=5,length=1", .uint8 3⟩] ∧
      ∀ i, i < ([1, 2, 0, 0, 0, 3] : List Byte).length →
        (∀ f ∈ ([⟨"A", "uint16", some "offset=0,length=2", .uint16 0x0102⟩,
          ⟨"B", "uint8", some "offset=5,length=1", .uint8 3⟩] : List Field),
            f.covers i = false) →
        ([1, 2, 0, 0, 0, 3] : List Byte)[i]? = some 0) :=
  ⟨by decide, pack_buffer_size .BigEndian _ _ (by decide)⟩

/-- C6: overlap precedence.  In the buffer `Pack` returns, a byte index covered
by the span of a field and by the span of no field declared after it holds the
byte of that field's encoding at the index less the offset, the declared length
being the width of the encoding. -/
theorem pack_last_field_wins (order : ByteOrder) (pre post : List Field) (f : Field)
    (out enc : List Byte) (o l : Int) (i : Nat)
    (hpack : Pack order (pre ++ f :: post) = .ok out)
    (hspan : f.span = some (o, l))
    (henc : fieldToBytes f.typeName f.value l order = .ok enc)
    (hwidth : (enc.length : Int) = l)
    (hcov : f.covers i = true)
    (hlast : ∀ g ∈ post, g.covers i = false) :
    i - o.toNat < enc.length ∧ out[i]? = enc[i - o.toNat]? :=
  packed_byte order pre post f out enc o l i hpack hspan henc hwidth hcov hlast

/-- C6, witness: a `uint64` written to bytes 3 to 10 and a `uint16` declared
after it at bytes 3 and 4, the way `SystemEvent.Bytes` writes the timestamp and
then the tracking number: byte 4 is the second byte of the `uint16`. -/
theorem pack_last_field_wins_witness :
    4 - (3 : Int).toNat < ([3, 4] : List Byte).length ∧
      ([0, 0, 0, 3, 4, 0x46, 0x30, 0xb8, 0xa0, 0x00, 0x53] : List Byte)[4]?
        = ([3, 4] : List Byte)[4 - (3 : Int).toNat]? :=
  pack_last_field_wins .BigEndian
    [⟨"Timestamp", "uint64", some "offset=3,length=8", .uint64 0x00034630b8a00053⟩] []
    ⟨"TrackingNumber", "uint16", some "offset=3,length=2", .uint16 0x0304⟩
    [0, 0, 0, 3, 4, 0x46, 0x30, 0xb8, 0xa0, 0x00, 0x53] [3, 4] 3 2 4
    (by decide) (by decide) (by decide) (by decide) (by decide) (by decide)

/-- C7: duration round trip, big-endian.  For a duration `d` with
`0 <= d < 2^48` held in a field tagged `length=6` whose span no field declared
after it overlaps, the buffer `Pack` returns under big-endian holds in the span
of the field the 6 rightmost bytes of the 8-byte big-endian representation of
`d`, and `Unpack` of that buffer under big-endian, on reaching the field, sets
it back to `d`. -/
theorem duration_roundtrip_big_endian (pre post pre1 post1 : List Field) (f f1 : Field)
    (b : List Byte) (o : Int) (d : SIntN 64)
    (hval : f.value = .duration d) (hd : 0 ≤ d.val ∧ d.val < 2 ^ 48)
    (hspan : f.span = some (o, 6))
    (hpack : Pack .BigEndian (pre ++ f :: post) = .ok b)
    (hlast : ∀ g ∈ post, disjointSpans f g)
    (hsame : sameLayout f f1)
    (hreach : (Unpack b .BigEndian pre1).outcome = .ok ()) :
    spanBytes b o 6 = (bigEndianBytes 8 d.val.toNat).drop 2 ∧
      (Unpack b .BigEndian (pre1 ++ f1 :: post1)).record[pre1.length]? = some f := by
  have henc : fieldToBytes f.typeName f.value 6 .BigEndian
      = .ok ((bigEndianBytes 8 d.val.toNat).drop 2) := by
    rw [hval]; exact fieldToBytes_duration_be6 _ d hd.1
  have hlen : ((((bigEndianBytes 8 d.val.toNat).drop 2).length : Nat) : Int) = 6 := by
    rw [bigEndianBytes_eight]; rfl
  obtain ⟨ho, _, hb⟩ := Pack_span_bounds .BigEndian _ b f o 6 hpack (by simp) hspan
  have hsp := packed_span .BigEndian pre post f b _ o 6 hpack hspan ho henc hlen
    (fun g hg => disjointSpans_spec f g (hlast g hg))
  refine ⟨hsp, ?_⟩
  obtain ⟨tag, ht, hp, _⟩ := tag_of_span f o 6 hspan
  obtain ⟨d0, hd0⟩ := duration_of_kind f1.value d (by rw [← hval]; exact hsame.2.2.2)
  have hset : setFieldFromBytes f1.typeName f1.value (spanBytes b o 6) .BigEndian
      = .ok f.value := by
    rw [hsp, hd0, hval]
    exact setFieldFromBytes_duration_be6 _ d0 d hd
  have hf := unpackField_tagged b .BigEndian f1 tag o 6 f.value
    (Pack_length_le .BigEndian _ b hpack) (by rw [← hsame.2.2.1]; exact ht) hp ho (by decide)
    hb hset
  rw [field_eq_of_sameLayout f f1 hsame] at hf
  exact Unpack_reaches b .BigEndian pre1 post1 f1 f hreach hf

/-- C7, witness: one hour, 3,600,000,000,000 ns, in the `Timestamp` field of a
`SystemEvent`. -/
theorem duration_roundtrip_big_endian_witness :
    spanBytes [0, 0, 1, 0, 2, 0x03, 0x46, 0x30, 0xb8, 0xa0, 0x00, 0x53] 5 6
        = (bigEndianBytes 8 ((3600000000000 : Int)).toNat).drop 2 ∧
      (Unpack [0, 0, 1, 0, 2, 0x03, 0x46, 0x30, 0xb8, 0xa0, 0x00, 0x53] .BigEndian
        ([] ++ (⟨"Timestamp", "time.Duration", some "offset=5,length=6",
            .duration ⟨0, by decide⟩⟩ : Field)
          :: (systemEvent ⟨0, by decide⟩ 0 0 0).tail)).record[([] : List Field).length]?
        = some ⟨"Timestamp", "time.Duration", some "offset=5,length=6",
            .duration ⟨3600000000000, by decide⟩⟩ :=
  duration_roundtrip_big_endian [] (systemEvent ⟨0, by decide⟩ 1 2 0x53).tail []
    (systemEvent ⟨0, by decide⟩ 0 0 0).tail
    ⟨"Timestamp", "time.Duration", some "offset=5,length=6", .duration ⟨3600000000000, by decide⟩⟩
    ⟨"Timestamp", "time.Duration", some "offset=5,length=6", .duration ⟨0, by decide⟩⟩
    [0, 0, 1, 0, 2, 0x03, 0x46, 0x30, 0xb8, 0xa0, 0x00, 0x53] 5 ⟨3600000000000, by decide⟩
    rfl (by decide) (by decide) (by decide) (by decide) ⟨rfl, rfl, rfl, rfl⟩ (by decide)

/-- C8, failing input: the text `AB` in a 5-byte field is packed as `AB` and
three zero bytes, and `Unpack` of these bytes sets the field to all five bytes,
the zero bytes included, `strings.TrimSpace` removing white space only. -/
theorem text_roundtrip_keeps_padding :
    Pack .BigEndian [⟨"S", "string", some "offset=0,length=5", .string [65, 66]⟩]
        = .ok [65, 66, 0, 0, 0] ∧
      Unpack [65, 66, 0, 0, 0] .BigEndian
          [⟨"S", "string", some "offset=0,length=5", .string []⟩]
        = ⟨[⟨"S", "string", some "offset=0,length=5", .string [65, 66, 0, 0, 0]⟩], .ok ()⟩ := by
  decide

/-- C9: untagged fields are outside the layout.  `Unpack`, whatever it returns,
leaves every field without a tag as it was and keeps the number of fields, and
`Pack` gives the same result on two records whose tagged fields agree. -/
theorem untagged_fields_outside_layout (data : List Byte) (order : ByteOrder)
    (r : List Field) (i : Nat) (f : Field) (hi : r[i]? = some f) (hf : f.tag = none)
    (order1 : ByteOrder) (r1 r2 : List Field)
    (hagree : r1.filter (fun g => g.tag.isSome) = r2.filter (fun g => g.tag.isSome)) :
    (Unpack data order r).record[i]? = some f ∧
      (Unpack data order r).record.length = r.length ∧
      Pack order1 r1 = Pack order1 r2 := by
  refine ⟨Unpack_untagged data order r i f hi hf, Unpack_length data order r, ?_⟩
  rw [Pack_filter order1 r1, Pack_filter order1 r2, hagree]

/-- C9, witness: a tagged `uint8` beside an untagged `string`; the second record
has an untagged `bool` of another name in its place. -/
theorem untagged_fields_outside_layout_witness :
    (Unpack [7] .BigEndian
        [⟨"A", "uint8", some "offset=0,length=1", .uint8 0⟩,
         ⟨"S", "string", none, .string [65]⟩]).record[1]?
        = some ⟨"S", "string", none, .string [65]⟩ ∧
      (Unpack [7] .BigEndian
        [⟨"A", "uint8", some "offset=0,length=1", .uint8 0⟩,
         ⟨"S", "string", none, .string [65]⟩]).record.length
        = ([⟨"A", "uint8", some "offset=0,length=1", .uint8 0⟩,
            ⟨"S", "string", none, .string [65]⟩] : List Field).length ∧
      Pack .LittleEndian
        [⟨"A", "uint8", some "offset=0,length=1", .uint8 9⟩,
         ⟨"S", "string", none, .string [65]⟩]
        = Pack .LittleEndian
        [⟨"B", "bool", none, .bool true⟩,
         ⟨"A", "uint8", some "offset=0,length=1", .uint8 9⟩] :=
  untagged_fields_outside_layout [7] .BigEndian _ 1 _ rfl rfl .LittleEndian _ _ (by decide)

/-- C10 (amended): tag parser success.  For machine integers `o` and `l` and a
tag made of comma-separated parts among which are `offset=<o>` and `length=<l>`
in decimal, in either order, every other part having another key,
`parseUnpackTag` returns `(o, l)` without a range check when neither is -1; when
`o` or `l` is -1, the value that marks an absent key, it returns the error
"missing offset or length". -/
theorem parseUnpackTag_offset_length (o l : Int) (parts : List (List Char))
    (h : TagParts o l parts) :
    parseUnpackTag (String.mk (joinComma parts)) =
      if o = -1 ∨ l = -1 then .error "missing offset or length" else .ok (o, l) := by
  obtain ⟨ho, hl, hop, hlp, hall⟩ := h
  have hcomma : ∀ p ∈ parts, ',' ∉ p := by
    intro p hp
    rcases hall p hp with rfl | rfl | h
    · unfold offsetPart
      simp only [List.mem_append, not_or]
      exact ⟨by decide, decimal_no_comma o⟩
    · unfold lengthPart
      simp only [List.mem_append, not_or]
      exact ⟨by decide, decimal_no_comma l⟩
    · exact h.1
  have hsplit := splitOn_joinComma parts (List.ne_nil_of_mem hop) hcomma
  unfold parseUnpackTag
  simp only [String.toList, hsplit, parseParts_tagParts o l ho hl parts (-1) (-1) hall, hop, hlp,
    if_true]

/-- C10, witness: the tag `length=6,x=1,offset=-2`. -/
theorem parseUnpackTag_offset_length_witness :
    parseUnpackTag (String.mk (joinComma [lengthPart 6, "x=1".toList, offsetPart (-2)])) =
      if (-2 : Int) = -1 ∨ (6 : Int) = -1 then .error "missing offset or length"
      else .ok (-2, 6) :=
  parseUnpackTag_offset_length (-2) 6 [lengthPart 6, "x=1".toList, offsetPart (-2)]
    ⟨by decide, by decide, by decide, by decide, by
      intro p hp
      simp only [List.mem_cons, List.mem_singleton, List.not_mem_nil, or_false] at hp
      rcases hp with rfl | rfl | rfl
      · exact Or.inr (Or.inl rfl)
      · exact Or.inr (Or.inr (by unfold OtherPart; decide))
      · exact Or.inl rfl⟩

/-- C10, counterexample: the tag `offset=-1,length=2` gives a machine integer
for each key, and `parseUnpackTag` returns an error on it. -/
theorem parseUnpackTag_minus_one :
    ¬ ∀ (o l : Int) (parts : List (List Char)), TagParts o l parts →
      parseUnpackTag (String.mk (joinComma parts)) = .ok (o, l) := by
  intro h
  have h1 := h (-1) 2 [offsetPart (-1), lengthPart 2]
    ⟨by decide, by decide, by decide, by decide, by
      intro p hp
      simp only [List.mem_cons, List.mem_singleton, List.not_mem_nil, or_false] at hp
      rcases hp with rfl | rfl
      · exact Or.inl rfl
      · exact Or.inr (Or.inl rfl)⟩
  have h2 : parseUnpackTag (String.mk (joinComma [offsetPart (-1), lengthPart 2]))
      = .error "missing offset or length" := by decide
  rw [h2] at h1
  cases h1

/-! ## The properties C11 to C20 -/

/-- C11 (amended): boolean is decode-only, on a record with a tagged boolean
field.  When every tag of the record is accepted by the parser, the sum of
offset and length of every tag, as `Pack` computes it, is at most the allocation
limit `maxAlloc`, and every field declared before the boolean is encodable, the
first loop of `Pack` asks for a buffer of at most `maxAlloc` bytes and `Pack`
returns the error "unsupported field type" for the boolean field and no buffer.
When the walk of `Unpack` reaches the field (the fields before it decoded) with
its span of one byte or more inside the buffer, `Unpack` sets the boolean to
true exactly when the first byte of the span is not zero. -/
theorem boolean_decode_only (order : ByteOrder) (pre post : List Field) (f : Field) (v : Bool)
    (hbool : f.value = .bool v) (htag : f.tag ≠ none) :
    ((∀ g ∈ pre ++ f :: post, g.wellFormed) → (∀ g ∈ pre ++ f :: post, g.withinLimit) →
      (∀ g ∈ pre, g.encodable order) →
      (∃ M, packSize (pre ++ f :: post) 0 = .ok M ∧ 0 ≤ M ∧ M ≤ maxAlloc) ∧
        Pack order (pre ++ f :: post)
          = .error ("failed to convert field [" ++ f.name ++ "] to bytes: "
              ++ ("unsupported field type: " ++ f.typeName))) ∧
    ∀ (data : List Byte) (o l : Int), f.span = some (o, l) →
      (data.length : Int) ≤ maxInt → (0 ≤ o ∧ 1 ≤ l ∧ o + l ≤ (data.length : Int)) →
      (Unpack data order pre).outcome = .ok () →
      ∃ byte, data[o.toNat]? = some byte ∧
        (Unpack data order (pre ++ f :: post)).record[pre.length]?
          = some { f with value := .bool (decide (byte ≠ 0)) } := by
  constructor
  · intro hwf hsize henc
    obtain ⟨M, hM, h0, _⟩ := packSize_ok (pre ++ f :: post) 0 hwf
    refine ⟨⟨M, hM, h0, ?_⟩, ?_⟩
    · exact packSize_le (pre ++ f :: post) maxAlloc 0 M (by decide)
        (fun g hg o l hs => withinLimit_spec g (hsize g hg) o l hs) hM
    · exact Pack_unsupported order pre post f _ hwf henc htag (fun l1 => by rw [hbool]; rfl)
  · intro data o l hspan hlen hin hreach
    obtain ⟨tag, ht, hp, _⟩ := tag_of_span f o l hspan
    obtain ⟨b, rest, hs, hb⟩ := spanBytes_head data o l hin.1 hin.2.1 hin.2.2
    have hset : setFieldFromBytes f.typeName f.value (spanBytes data o l) order
        = .ok (.bool (decide (b ≠ 0))) := by
      rw [hs, hbool]
      exact setFieldFromBytes_bool _ v b rest order
    have hf := unpackField_tagged data order f tag o l _ hlen ht hp hin.1 (by omega) hin.2.2 hset
    exact ⟨b, hb, Unpack_reaches data order pre post f _ hreach hf⟩

/-- C11, witness: an `Active` flag after the two `uint16` fields of a
`SystemEvent`; `Pack` asks for 12 bytes and returns the error, and `Unpack` of a
buffer whose first byte is 2 sets the flag. -/
theorem boolean_decode_only_witness :
    ((∃ M, packSize
          ([⟨"StockLocate", "uint16", some "offset=1,length=2", .uint16 1⟩,
            ⟨"TrackingNumber", "uint16", some "offset=3,length=2", .uint16 2⟩]
            ++ (⟨"Active", "bool", some "offset=0,length=1", .bool false⟩ : Field)
            :: [⟨"EventCode", "main.EventCode", some "offset=11,length=1", .uint8 3⟩]) 0
          = .ok M ∧ 0 ≤ M ∧ M ≤ maxAlloc) ∧
      Pack .BigEndian
        ([⟨"StockLocate", "uint16", some "offset=1,length=2", .uint16 1⟩,
          ⟨"TrackingNumber", "uint16", some "offset=3,length=2", .uint16 2⟩]
          ++ (⟨"Active", "bool", some "offset=0,length=1", .bool false⟩ : Field)
          :: [⟨"EventCode", "main.EventCode", some "offset=11,length=1", .uint8 3⟩])
        = .error ("failed to convert field [" ++ "Active" ++ "] to bytes: "
            ++ ("unsupported field type: " ++ "bool"))) ∧
      ∃ byte, ([2, 0, 1, 0, 2, 0, 0, 0, 0, 0, 0, 3] : List Byte)[(0 : Int).toNat]? = some byte ∧
        (Unpack [2, 0, 1, 0, 2, 0, 0, 0, 0, 0, 0, 3] .BigEndian
          ([⟨"StockLocate", "uint16", some "offset=1,length=2", .uint16 1⟩,
            ⟨"TrackingNumber", "uint16", some "offset=3,length=2", .uint16 2⟩]
            ++ (⟨"Active", "bool", some "offset=0,length=1", .bool false⟩ : Field)
            :: [⟨"EventCode", "main.EventCode", some "offset=11,length=1", .uint8 3⟩])).record[
            ([⟨"StockLocate", "uint16", some "offset=1,length=2", .uint16 1⟩,
              ⟨"TrackingNumber", "uint16", some "offset=3,length=2", .uint16 2⟩]
              : List Field).length]?
          = some { (⟨"Active", "bool", some "offset=0,length=1", .bool false⟩ : Field) with
              value := .bool (decide (byte ≠ 0)) } :=
  ⟨(boolean_decode_only .BigEndian
      [⟨"StockLocate", "uint16", some "offset=1,length=2", .uint16 1⟩,
       ⟨"TrackingNumber", "uint16", some "offset=3,length=2", .uint16 2⟩]
      [⟨"EventCode", "main.EventCode", some "offset=11,length=1", .uint8 3⟩]
      ⟨"Active", "bool", some "offset=0,length=1", .bool false⟩ false rfl (by decide)).1
      (by decide) (by decide) (by decide),
    (boolean_decode_only .BigEndian
      [⟨"StockLocate", "uint16", some "offset=1,length=2", .uint16 1⟩,
       ⟨"TrackingNumber", "uint16", some "offset=3,length=2", .uint16 2⟩]
      [⟨"EventCode", "main.EventCode", some "offset=11,length=1", .uint8 3⟩]
      ⟨"Active", "bool", some "offset=0,length=1", .bool false⟩ false rfl (by decide)).2
      [2, 0, 1, 0, 2, 0, 0, 0, 0, 0, 0, 3] 0 1 (by decide) (by decide) (by decide)
      (by decide)⟩

/-- C11, counterexample: a boolean declared after a `uint16` tagged `length=1`.
Every tag is accepted by the parser and the `uint16` is encodable, the span of
the boolean is the one byte of the buffer, 7, yet `Unpack` stops at the `uint16`
with an error and the boolean keeps the value false. -/
theorem boolean_decode_unreached :
    ¬ ∀ (order : ByteOrder) (pre post : List Field) (f : Field) (v : Bool) (data : List Byte)
      (o l : Int), f.value = .bool v → f.span = some (o, l) →
      (∀ g ∈ pre ++ f :: post, g.wellFormed) → (∀ g ∈ pre, g.encodable order) →
      (data.length : Int) ≤ maxInt → (0 ≤ o ∧ 1 ≤ l ∧ o + l ≤ (data.length : Int)) →
      ∃ byte, data[o.toNat]? = some byte ∧
        (Unpack data order (pre ++ f :: post)).record[pre.length]?
          = some { f with value := .bool (decide (byte ≠ 0)) } := by
  intro h
  obtain ⟨byte, hb, hrec⟩ := h .BigEndian
    [⟨"X", "uint16", some "offset=0,length=1", .uint16 0⟩] []
    ⟨"B", "bool", some "offset=0,length=1", .bool false⟩ false [7] 0 1 rfl (by decide)
    (by decide) (by decide) (by decide) (by decide)
  have hU : Unpack [7] .BigEndian
      ([⟨"X", "uint16", some "offset=0,length=1", .uint16 0⟩]
        ++ (⟨"B", "bool", some "offset=0,length=1", .bool false⟩ : Field) :: [])
      = ⟨[⟨"X", "uint16", some "offset=0,length=1", .uint16 0⟩,
          ⟨"B", "bool", some "offset=0,length=1", .bool false⟩],
        .error "failed to set field X: invalid length for uint16"⟩ := by decide
  have hb7 : byte = 7 := by
    have h0 : ([7] : List Byte)[(0 : Int).toNat]? = some 7 := by decide
    rw [h0] at hb
    exact (Option.some.inj hb).symm
  subst hb7
  rw [hU] at hrec
  revert hrec
  decide

/-- C12, failing input: two calls of `Pack`, each on its own struct with one
`uint16` field, sharing only the package-level `buf2`.  Run alone, the first
call returns `01 02`.  When the second call runs `fieldToBytes` between the
`fieldToBytes` and the `copy` of the first, the first returns `03 04`, the
value of the other struct. -/
theorem pack_calls_share_buffers :
    ((PackCall.start .BigEndian
        [⟨"A", "uint16", some "offset=0,length=2", .uint16 0x0102⟩]).run 3 Scratch.init).1.returned
      = some (Pack .BigEndian [⟨"A", "uint16", some "offset=0,length=2", .uint16 0x0102⟩]) ∧
    Pack .BigEndian [⟨"A", "uint16", some "offset=0,length=2", .uint16 0x0102⟩] = .ok [1, 2] ∧
    (runTwo [true, false, true, true, false, false]
        (PackCall.start .BigEndian [⟨"A", "uint16", some "offset=0,length=2", .uint16 0x0102⟩])
        (PackCall.start .BigEndian [⟨"A", "uint16", some "offset=0,length=2", .uint16 0x0304⟩])
        Scratch.init).1.returned
      = some (.ok [3, 4]) ∧
    (runTwo [true, false, true, true, false, false]
        (PackCall.start .BigEndian [⟨"A", "uint16", some "offset=0,length=2", .uint16 0x0102⟩])
        (PackCall.start .BigEndian [⟨"A", "uint16", some "offset=0,length=2", .uint16 0x0304⟩])
        Scratch.init).2.1.returned
      = some (.ok [3, 4]) := by
  decide

/-- C13, failing input: a `uint16` field tagged `length=1`.  `Unpack` returns
"invalid length for uint16" and leaves the field as it was, as the claim says;
`Pack` returns no error: it writes the first byte of the 2-byte encoding, the
high byte under big-endian and the low byte under little-endian.  The same
for a `uint32` tagged `length=3` and an `int64` tagged `length=4`. -/
theorem short_span_pack_writes_part :
    (Unpack [7] .BigEndian [⟨"A", "uint16", some "offset=0,length=1", .uint16 0⟩]
        = ⟨[⟨"A", "uint16", some "offset=0,length=1", .uint16 0⟩],
            .error "failed to set field A: invalid length for uint16"⟩ ∧
      Pack .BigEndian [⟨"A", "uint16", some "offset=0,length=1", .uint16 0x0102⟩]
        = .ok [1] ∧
      Pack .LittleEndian [⟨"A", "uint16", some "offset=0,length=1", .uint16 0x0102⟩]
        = .ok [2]) ∧
    Pack .BigEndian [⟨"B", "uint32", some "offset=0,length=3", .uint32 0x01020304⟩]
      = .ok [1, 2, 3] ∧
    Pack .LittleEndian
        [⟨"C", "int64", some "offset=0,length=4", .int64 ⟨0x0102030405060708, by decide⟩⟩]
      = .ok [8, 7, 6, 5] := by
  decide

/-- C14 (amended): duration decode rule.  When the walk of `Unpack` reaches a
duration field whose span of length `n`, `1 <= n < 8`, lies in the buffer: for
`6 <= n` the field is decoded by the rule, set to the count read as an unsigned
integer, in the byte order, from the span with `8 - n` zero bytes put in front;
for `n < 6` `Unpack` returns the error "invalid length for time.Duration" and
leaves the field and the fields after it as they were. -/
theorem duration_decode_rule (data : List Byte) (order : ByteOrder) (pre post : List Field)
    (f : Field) (tag : String) (o n : Int) (d0 : SIntN 64)
    (hlen : (data.length : Int) ≤ maxInt)
    (hpre : (Unpack data order pre).outcome = .ok ())
    (htag : f.tag = some tag) (hparse : parseUnpackTag tag = .ok (o, n))
    (hval : f.value = .duration d0) (hn : 1 ≤ n ∧ n < 8)
    (hspan : 0 ≤ o ∧ o + n ≤ (data.length : Int)) :
    (6 ≤ n → DurationDecoded data order f o n ∧
      ∃ g, unpackField data order f = .ok g ∧
        (Unpack data order (pre ++ f :: post)).record[pre.length]? = some g) ∧
    (n < 6 → Unpack data order (pre ++ f :: post)
      = ⟨(Unpack data order pre).record ++ f :: post,
        .error ("failed to set field " ++ f.name ++ ": " ++ "invalid length for time.Duration")⟩) := by
  have hsl := spanBytes_length data o n hspan.1 hspan.2
  constructor
  · intro h6
    obtain ⟨hset, hlt⟩ := setFieldFromBytes_duration f.typeName d0 (spanBytes data o n) order
      (by omega)
    rw [← hval] at hset
    have hf := unpackField_tagged data order f tag o n _ hlen htag hparse hspan.1 (by omega)
      hspan.2 hset
    exact ⟨⟨_, hf, wrapUint_toS _ hlt⟩, _, hf, Unpack_reaches data order pre post f _ hpre hf⟩
  · intro h6
    have hset := setFieldFromBytes_duration_short f.typeName d0 (spanBytes data o n) order
      (by omega)
    rw [← hval] at hset
    exact Unpack_stops data order pre post f _ hpre
      (unpackField_error data order f tag o n _ hlen htag hparse hspan.1 (by omega) hspan.2 hset)

/-- C14, witness: a 7-byte span, little-endian, decoded by the rule. -/
theorem duration_decode_rule_witness :
    DurationDecoded [9, 1, 2, 3, 4, 5, 6, 7] .LittleEndian
        ⟨"D", "time.Duration", some "offset=1,length=7", .duration ⟨0, by decide⟩⟩ 1 7 ∧
      orderValue .LittleEndian (zeroPadded (spanBytes [9, 1, 2, 3, 4, 5, 6, 7] 1 7))
        = 0x0706050403020100 :=
  ⟨((duration_decode_rule [9, 1, 2, 3, 4, 5, 6, 7] .LittleEndian [] []
      ⟨"D", "time.Duration", some "offset=1,length=7", .duration ⟨0, by decide⟩⟩
      "offset=1,length=7" 1 7 ⟨0, by decide⟩ (by decide) (by decide) rfl (by decide) rfl
      (by decide) (by decide)).1 (by decide)).1,
    by decide⟩

/-- C14, counterexample: a duration field on a 4-byte span, inside the buffer,
is not decoded: `Unpack` returns an error. -/
theorem duration_decode_rule_short_span :
    ¬ ∀ (data : List Byte) (order : ByteOrder) (f : Field) (tag : String) (o n : Int)
      (d0 : SIntN 64), (data.length : Int) ≤ maxInt → f.tag = some tag →
      parseUnpackTag tag = .ok (o, n) → f.value = .duration d0 → (1 ≤ n ∧ n < 8) →
      (0 ≤ o ∧ o + n ≤ (data.length : Int)) → DurationDecoded data order f o n := by
  intro h
  obtain ⟨d, hd, _⟩ := h [1, 2, 3, 4] .BigEndian
    ⟨"D", "time.Duration", some "offset=0,length=4", .duration ⟨0, by decide⟩⟩
    "offset=0,length=4" 0 4 ⟨0, by decide⟩ (by decide) rfl (by decide) rfl (by decide)
    (by decide)
  have he : unpackField [1, 2, 3, 4] .BigEndian
      ⟨"D", "time.Duration", some "offset=0,length=4", .duration ⟨0, by decide⟩⟩
      = .error "failed to set field D: invalid length for time.Duration" := by decide
  rw [he] at hd
  cases hd

/-- C15: duration encode rule.  For every duration `d`, taken as a 64-bit value,
every declared length `n` with `0 <= n <= 8` and either byte order,
`fieldToBytes` gives the last `n` bytes of the 8-byte encoding of `d` in that
byte order, and these are the bytes the span of the field holds in the buffer
`Pack` returns, no field declared later overlapping the span. -/
theorem duration_encode_rule (tn : String) (d : SIntN 64) (n : Int) (order : ByteOrder)
    (hn : 0 ≤ n ∧ n ≤ 8) :
    fieldToBytes tn (.duration d) n order = .ok (durationTail order d n) ∧
      ∀ (pre post : List Field) (f : Field) (b : List Byte) (o : Int),
        f.value = .duration d → f.span = some (o, n) →
        Pack order (pre ++ f :: post) = .ok b → (∀ g ∈ post, disjointSpans f g) →
        spanBytes b o n = durationTail order d n := by
  refine ⟨fieldToBytes_duration tn d n order hn, ?_⟩
  intro pre post f b o hval hspan hpack hlast
  exact packed_span_of_pack order pre post f b _ o n hpack hspan
    (by rw [hval]; exact fieldToBytes_duration _ d n order hn)
    (durationTail_length order d n hn) hlast

/-- C15, witness: one hour in the 6-byte `Timestamp` of a `SystemEvent`,
little-endian: the span holds bytes 2 to 7 of `00 a0 b8 30 46 03 00 00`. -/
theorem duration_encode_rule_witness :
    fieldToBytes "time.Duration" (.duration ⟨3600000000000, by decide⟩) 6 .LittleEndian
        = .ok (durationTail .LittleEndian ⟨3600000000000, by decide⟩ 6) ∧
      durationTail .LittleEndian ⟨3600000000000, by decide⟩ 6 = [0xb8, 0x30, 0x46, 0x03, 0, 0] ∧
      spanBytes [0, 1, 0, 2, 0, 0xb8, 0x30, 0x46, 0x03, 0, 0, 0x53] 5 6
        = durationTail .LittleEndian ⟨3600000000000, by decide⟩ 6 :=
  ⟨(duration_encode_rule "time.Duration" ⟨3600000000000, by decide⟩ 6 .LittleEndian
      (by decide)).1,
    by decide,
    (duration_encode_rule "time.Duration" ⟨3600000000000, by decide⟩ 6 .LittleEndian
      (by decide)).2 [] (systemEvent ⟨0, by decide⟩ 1 2 0x53).tail
      ⟨"Timestamp", "time.Duration", some "offset=5,length=6",
        .duration ⟨3600000000000, by decide⟩⟩
      [0, 1, 0, 2, 0, 0xb8, 0x30, 0x46, 0x03, 0, 0, 0x53] 5 rfl (by decide) (by decide)
      (by decide)⟩

/-- C16: text encode rule.  For every text `s`, declared length `n >= 0` and
byte order, the encoding of `s` has exactly `n` bytes, the first
`min(len(s), n)` bytes of `s` followed by `n - min(len(s), n)` zero bytes, and
these are the bytes the span of the field holds in the buffer `Pack` returns,
no field declared later overlapping the span. -/
theorem text_encode_rule (tn : String) (s : List Byte) (n : Nat) (order : ByteOrder) :
    fieldToBytes tn (.string s) (n : Int) order = .ok (paddedText s n) ∧
      (paddedText s n).length = n ∧
      ∀ (pre post : List Field) (f : Field) (b : List Byte) (o : Int),
        f.value = .string s → f.span = some (o, (n : Int)) →
        Pack order (pre ++ f :: post) = .ok b → (∀ g ∈ post, disjointSpans f g) →
        spanBytes b o n = paddedText s n := by
  refine ⟨fieldToBytes_string tn s n order, paddedText_length s n, ?_⟩
  intro pre post f b o hval hspan hpack hlast
  exact packed_span_of_pack order pre post f b _ o n hpack hspan
    (by rw [hval]; exact fieldToBytes_string _ s n order)
    (by rw [paddedText_length]) hlast

/-- C16, witness: `AB` in a 5-byte field and `ABCDEF` in a 4-byte field. -/
theorem text_encode_rule_witness :
    (fieldToBytes "string" (.string [65, 66]) ((5 : Nat) : Int) .BigEndian
        = .ok (paddedText [65, 66] 5) ∧
      paddedText [65, 66] 5 = [65, 66, 0, 0, 0]) ∧
    (fieldToBytes "string" (.string [65, 66, 67, 68, 69, 70]) ((4 : Nat) : Int) .BigEndian
        = .ok (paddedText [65, 66, 67, 68, 69, 70] 4) ∧
      paddedText [65, 66, 67, 68, 69, 70] 4 = [65, 66, 67, 68]) ∧
    spanBytes [7, 65, 66, 0, 0, 0] 1 ((5 : Nat) : Int) = paddedText [65, 66] 5 :=
  ⟨⟨(text_encode_rule "string" [65, 66] 5 .BigEndian).1, by decide⟩,
    ⟨(text_encode_rule "string" [65, 66, 67, 68, 69, 70] 4 .BigEndian).1, by decide⟩,
    (text_encode_rule "string" [65, 66] 5 .BigEndian).2.2
      [⟨"A", "uint8", some "offset=0,length=1", .uint8 7⟩] []
      ⟨"S", "string", some "offset=1,length=5", .string [65, 66]⟩
      [7, 65, 66, 0, 0, 0] 1 rfl (by decide) (by decide) (by decide)⟩

/-- C17 (amended): malformed metadata.  When the first part of a tag, from the
left, that starts with `offset=` or `length=` and whose value is not a base-10
integer within the range of `int` is an offset part, `parseUnpackTag` fails with
"invalid offset", and with "invalid length" when it is a length part; `Unpack`
and `Pack` then fail on every record that has a field with this tag. -/
theorem malformed_tag_rejected (tag : String) (good rest : List (List Char)) (bad : List Char)
    (hparts : splitOn ',' tag.toList = good ++ bad :: rest)
    (hgood : ∀ p ∈ good, badPart isMachineInt p = false)
    (hbad : badPart isMachineInt bad = true) :
    parseUnpackTag tag = .error (badPartError bad) ∧
      ∀ (data : List Byte) (order : ByteOrder) (r : List Field) (f : Field),
        f ∈ r → f.tag = some tag →
        (Unpack data order r).outcome ≠ .ok () ∧ (Pack order r).isOk = false := by
  have hp := parseUnpackTag_bad tag good rest bad hparts hgood hbad
  refine ⟨hp, fun data order r f hf ht => ⟨fun hok => ?_, ?_⟩⟩
  · obtain ⟨g, hg⟩ := Unpack_ok_mem data order r f hok hf
    rw [unpackField_bad_tag data order f tag _ ht hp] at hg
    cases hg
  · refine Pack_bad_tag order r f tag _ hf ht (fun e => ?_) hp
    subst e
    have hd : parseUnpackTag "" = .error "missing offset or length" := by decide
    rw [hd] at hp
    unfold badPartError at hp
    split at hp <;> simp at hp

/-- C17, witness: the tag `offset=abc,length=2` fails on its offset, and so do
`Unpack` and `Pack` on a record with it. -/
theorem malformed_tag_rejected_witness :
    parseUnpackTag "offset=abc,length=2" = .error (badPartError "offset=abc".toList) ∧
      badPartError "offset=abc".toList = "invalid offset" ∧
      (Unpack [1, 2] .BigEndian
        [⟨"A", "uint16", some "offset=abc,length=2", .uint16 0⟩]).outcome ≠ .ok () ∧
      (Pack .BigEndian [⟨"A", "uint16", some "offset=abc,length=2", .uint16 0⟩]).isOk = false :=
  ⟨(malformed_tag_rejected "offset=abc,length=2" [] ["length=2".toList] "offset=abc".toList
      (by decide) (by decide) (by decide)).1,
    by decide,
    (malformed_tag_rejected "offset=abc,length=2" [] ["length=2".toList] "offset=abc".toList
      (by decide) (by decide) (by decide)).2 [1, 2] .BigEndian
      [⟨"A", "uint16", some "offset=abc,length=2", .uint16 0⟩]
      ⟨"A", "uint16", some "offset=abc,length=2", .uint16 0⟩ (by simp) rfl⟩

/-- C17, counterexample: in the tag `length=9223372036854775808,offset=abc` the
value of the length part is a base-10 integer and the first part whose value is
not one is the offset part, yet `parseUnpackTag` fails with "invalid length":
the integer does not fit a machine `int`. -/
theorem malformed_tag_out_of_range :
    ¬ ∀ (tag : String) (good rest : List (List Char)) (bad : List Char),
      splitOn ',' tag.toList = good ++ bad :: rest →
      (∀ p ∈ good, badPart isNumeral p = false) → badPart isNumeral bad = true →
      parseUnpackTag tag = .error (badPartError bad) := by
  intro h
  have h1 := h "length=9223372036854775808,offset=abc"
    ["length=9223372036854775808".toList] [] "offset=abc".toList
    (by decide) (by decide) (by decide)
  have h2 : parseUnpackTag "length=9223372036854775808,offset=abc"
      = .error "invalid length" := by decide
  have h3 : badPartError "offset=abc".toList = "invalid offset" := by decide
  rw [h2, h3] at h1
  simp at h1

/-- C18, failing input: on a record whose first field is tagged
`offset=-2,length=3`, with a 3-byte buffer, the tag parses, the bounds check
passes (`-2+3 <= 3`) and no decode returns an error, yet `Unpack` returns
neither success nor an error: the slice expression ends the call in a fault,
the fields left as they were. -/
theorem unpack_walk_faults :
    parseUnpackTag "offset=-2,length=3" = .ok (-2, 3) ∧
      ¬ addInt (-2) 3 > ((([1, 2, 3] : List Byte).length : Nat) : Int) ∧
      Unpack [1, 2, 3] .BigEndian
          [⟨"A", "uint8", some "offset=-2,length=3", .uint8 0⟩,
           ⟨"B", "uint8", some "offset=0,length=1", .uint8 0⟩]
        = ⟨[⟨"A", "uint8", some "offset=-2,length=3", .uint8 0⟩,
            ⟨"B", "uint8", some "offset=0,length=1", .uint8 0⟩], .fault⟩ := by
  decide

/-- C19: little-endian duration round trip.  For every duration `d` held in a
field tagged `length=6` whose span no field declared after it overlaps, `Unpack`
under little-endian of the buffer `Pack` returns under little-endian, on
reaching the field, decodes it without error and sets it to the duration whose
64-bit value is that of `d` with the 16 least-significant bits cleared; the
field is back at `d` exactly when `d` is a multiple of 65536. -/
theorem duration_roundtrip_little_endian (pre post pre1 post1 : List Field) (f f1 : Field)
    (b : List Byte) (o : Int) (d : SIntN 64)
    (hval : f.value = .duration d)
    (hspan : f.span = some (o, 6))
    (hpack : Pack .LittleEndian (pre ++ f :: post) = .ok b)
    (hlast : ∀ g ∈ post, disjointSpans f g)
    (hsame : sameLayout f f1)
    (hreach : (Unpack b .LittleEndian pre1).outcome = .ok ()) :
    ∃ d1 : SIntN 64,
      unpackField b .LittleEndian f1 = .ok { f with value := .duration d1 } ∧
      (Unpack b .LittleEndian (pre1 ++ f1 :: post1)).record[pre1.length]?
        = some { f with value := .duration d1 } ∧
      wrapUint 64 d1.val = wrapUint 64 d.val - wrapUint 64 d.val % 65536 ∧
      (d1 = d ↔ d.val % 65536 = 0) := by
  have henc : fieldToBytes f.typeName f.value 6 .LittleEndian
      = .ok (durationTail .LittleEndian d 6) := by
    rw [hval]; exact fieldToBytes_duration _ d 6 .LittleEndian (by decide)
  have hsp := packed_span_of_pack .LittleEndian pre post f b _ o 6 hpack hspan henc
    (durationTail_length .LittleEndian d 6 (by decide)) hlast
  obtain ⟨ho, _, hb⟩ := Pack_span_bounds .LittleEndian _ b f o 6 hpack (by simp) hspan
  obtain ⟨tag, ht, hp, _⟩ := tag_of_span f o 6 hspan
  obtain ⟨d0, hd0⟩ := duration_of_kind f1.value d (by rw [← hval]; exact hsame.2.2.2)
  have hu := wrapUint_lt 64 d.val
  obtain ⟨hset, hlt⟩ := setFieldFromBytes_duration f1.typeName d0 (spanBytes b o 6) .LittleEndian
    (by have := durationTail_length .LittleEndian d 6 (by decide); rw [hsp]; omega)
  rw [← hd0] at hset
  have hf := unpackField_tagged b .LittleEndian f1 tag o 6 _
    (Pack_length_le .LittleEndian _ b hpack) (by rw [← hsame.2.2.1]; exact ht) hp ho (by decide)
    hb hset
  have hv : orderValue .LittleEndian (zeroPadded (spanBytes b o 6))
      = wrapUint 64 d.val - wrapUint 64 d.val % 65536 := by
    rw [hsp, durationTail_le6]
    exact orderValue_le6 _ hu
  have hfield : ({ f1 with value := .duration (toS 64 (orderValue .LittleEndian
      (zeroPadded (spanBytes b o 6)))) } : Field)
      = { f with value := .duration (toS 64 (orderValue .LittleEndian
      (zeroPadded (spanBytes b o 6)))) } := by
    obtain ⟨h1, h2, h3, _⟩ := hsame
    cases f
    cases f1
    simp only [Field.mk.injEq] at *
    exact ⟨h1.symm, h2.symm, h3.symm, trivial⟩
  rw [hfield] at hf
  refine ⟨_, hf, ?_, ?_, ?_⟩
  · rw [← hfield] at hf ⊢
    exact Unpack_reaches b .LittleEndian pre1 post1 f1 _ hreach hf
  · rw [wrapUint_toS _ hlt, hv]
  · rw [hv]
    exact cleared_eq_iff d

/-- C19, witness: one hour, 3,600,000,000,000 ns, which is not a multiple of
65536, in the `Timestamp` field of a `SystemEvent`, little-endian. -/
theorem duration_roundtrip_little_endian_witness :
    ∃ d1 : SIntN 64,
      unpackField [0, 1, 0, 2, 0, 0xb8, 0x30, 0x46, 0x03, 0, 0, 0x53] .LittleEndian
          ⟨"Timestamp", "time.Duration", some "offset=5,length=6", .duration ⟨0, by decide⟩⟩
        = .ok { (⟨"Timestamp", "time.Duration", some "offset=5,length=6",
            .duration ⟨3600000000000, by decide⟩⟩ : Field) with value := .duration d1 } ∧
      (Unpack [0, 1, 0, 2, 0, 0xb8, 0x30, 0x46, 0x03, 0, 0, 0x53] .LittleEndian
        ([] ++ (⟨"Timestamp", "time.Duration", some "offset=5,length=6",
            .duration ⟨0, by decide⟩⟩ : Field)
          :: (systemEvent ⟨0, by decide⟩ 0 0 0).tail)).record[([] : List Field).length]?
        = some { (⟨"Timestamp", "time.Duration", some "offset=5,length=6",
            .duration ⟨3600000000000, by decide⟩⟩ : Field) with value := .duration d1 } ∧
      wrapUint 64 d1.val = wrapUint 64 ((⟨3600000000000, by decide⟩ : SIntN 64)).val
        - wrapUint 64 ((⟨3600000000000, by decide⟩ : SIntN 64)).val % 65536 ∧
      (d1 = ⟨3600000000000, by decide⟩
        ↔ ((⟨3600000000000, by decide⟩ : SIntN 64)).val % 65536 = 0) :=
  duration_roundtrip_little_endian [] (systemEvent ⟨0, by decide⟩ 1 2 0x53).tail []
    (systemEvent ⟨0, by decide⟩ 0 0 0).tail
    ⟨"Timestamp", "time.Duration", some "offset=5,length=6", .duration ⟨3600000000000, by decide⟩⟩
    ⟨"Timestamp", "time.Duration", some "offset=5,length=6", .duration ⟨0, by decide⟩⟩
    [0, 1, 0, 2, 0, 0xb8, 0x30, 0x46, 0x03, 0, 0, 0x53] 5 ⟨3600000000000, by decide⟩
    rfl (by decide) (by decide) (by decide) ⟨rfl, rfl, rfl, rfl⟩ (by decide)


/-- C20. Decode-then-encode reproduces the tagged bytes: for every byte order,
every buffer `b` (of at most `2^63 - 1` bytes, as every Go slice) and every record
whose tagged fields are integers with the byte width of their type as declared
length or durations with a declared length from 6 to 8, at non-negative offsets
and with spans inside `b` that may overlap, `Unpack b order r` succeeds, and
`Pack` of the record it leaves returns a buffer whose length is the largest
`offset + length`, that equals `b` at every index covered by some tagged span and
holds zero at every other index. -/
theorem decode_then_encode (order : ByteOrder) (b : List Byte) (r : List Field)
    (hlen : (b.length : Int) ≤ maxInt) (hfields : ∀ f ∈ r, LayoutField b.length f) :
    (Unpack b order r).outcome = .ok () ∧
      ∃ out, Pack order (Unpack b order r).record = .ok out ∧
        (out.length : Int) = maxSpan r ∧
        ∀ i, i < out.length →
          out[i]? = if r.any (fun f => f.covers i) then b[i]? else some 0 := by
  obtain ⟨h1, h2, h3, h4⟩ := Unpack_layout b order hlen r hfields
  have hspans : ∀ g ∈ (Unpack b order r).record, ∀ o l, g.span = some (o, l) →
      fieldToBytes g.typeName g.value l order = .ok (spanBytes b o l) ∧
        0 ≤ o ∧ 0 ≤ l ∧ o + l ≤ (b.length : Int) := by
    intro g hg o l hs
    rcases h4 g hg with hn | ⟨o1, l1, hs1, ho, hl, hin, he⟩
    · simp only [Field.span, hn, reduceCtorEq] at hs
    · rw [hs] at hs1
      cases hs1
      exact ⟨he, ho, hl, hin⟩
  obtain ⟨out, hout⟩ := Pack_success order (Unpack b order r).record (by
    intro g hg hne
    rcases h4 g hg with hn | ⟨o, l, hs, ho, hl, hin, he⟩
    · exact absurd (by rw [hn]; rfl) hne
    · exact ⟨o, l, _, hs, he, ho, hl, by omega⟩)
  obtain ⟨_, hpf, hol⟩ := Pack_ok order _ out hout
  have hm : maxSpan (Unpack b order r).record = maxSpan r := h2 0
  rw [hm] at hpf hol
  refine ⟨h1, out, hout, hol, fun i hi => ?_⟩
  rw [packFields_content order b _ _ out hpf
    (fun g hg o l hs => ⟨(hspans g hg o l hs).1, (hspans g hg o l hs).2.2.2⟩) i, h3]
  have hz : (List.replicate (maxSpan r).toNat (0 : Byte))[i]? = some 0 := by
    rw [List.getElem?_replicate, if_pos (by omega)]
  rw [hz]

theorem decode_then_encode_witness :
    ((Unpack [0x53, 0, 1, 0, 2, 3, 4, 5, 6, 7, 8, 9] .BigEndian
        [⟨"Timestamp", "time.Duration", some "offset=3,length=8", .duration ⟨0, by decide⟩⟩,
         ⟨"StockLocate", "uint16", some "offset=1,length=2", .uint16 0⟩,
         ⟨"TrackingNumber", "uint16", some "offset=3,length=2", .uint16 0⟩,
         ⟨"EventCode", "main.EventCode", some "offset=11,length=1", .uint8 0⟩]).outcome = .ok () ∧
      ∃ out, Pack .BigEndian (Unpack [0x53, 0, 1, 0, 2, 3, 4, 5, 6, 7, 8, 9] .BigEndian
          [⟨"Timestamp", "time.Duration", some "offset=3,length=8", .duration ⟨0, by decide⟩⟩,
           ⟨"StockLocate", "uint16", some "offset=1,length=2", .uint16 0⟩,
           ⟨"TrackingNumber", "uint16", some "offset=3,length=2", .uint16 0⟩,
           ⟨"EventCode", "main.EventCode", some "offset=11,length=1", .uint8 0⟩]).record
          = .ok out ∧
        (out.length : Int) = maxSpan
          [⟨"Timestamp", "time.Duration", some "offset=3,length=8", .duration ⟨0, by decide⟩⟩,
           ⟨"StockLocate", "uint16", some "offset=1,length=2", .uint16 0⟩,
           ⟨"TrackingNumber", "uint16", some "offset=3,length=2", .uint16 0⟩,
           ⟨"EventCode", "main.EventCode", some "offset=11,length=1", .uint8 0⟩] ∧
        ∀ i, i < out.length →
          out[i]? = if List.any
              ([⟨"Timestamp", "time.Duration", some "offset=3,length=8", .duration ⟨0, by decide⟩⟩,
                ⟨"StockLocate", "uint16", some "offset=1,length=2", .uint16 0⟩,
                ⟨"TrackingNumber", "uint16", some "offset=3,length=2", .uint16 0⟩,
                ⟨"EventCode", "main.EventCode", some "offset=11,length=1", .uint8 0⟩]
                : List Field)
              (fun f => f.covers i)
            then ([0x53, 0, 1, 0, 2, 3, 4, 5, 6, 7, 8, 9] : List Byte)[i]? else some 0) ∧
      Pack .BigEndian (Unpack [0x53, 0, 1, 0, 2, 3, 4, 5, 6, 7, 8, 9] .BigEndian
          [⟨"Timestamp", "time.Duration", some "offset=3,length=8", .duration ⟨0, by decide⟩⟩,
           ⟨"StockLocate", "uint16", some "offset=1,length=2", .uint16 0⟩,
           ⟨"TrackingNumber", "uint16", some "offset=3,length=2", .uint16 0⟩,
           ⟨"EventCode", "main.EventCode", some "offset=11,length=1", .uint8 0⟩]).record
        = .ok [0, 0, 1, 0, 2, 3, 4, 5, 6, 7, 8, 9] :=
  ⟨decode_then_encode .BigEndian [0x53, 0, 1, 0, 2, 3, 4, 5, 6, 7, 8, 9]
      [⟨"Timestamp", "time.Duration", some "offset=3,length=8", .duration ⟨0, by decide⟩⟩,
       ⟨"StockLocate", "uint16", some "offset=1,length=2", .uint16 0⟩,
       ⟨"TrackingNumber", "uint16", some "offset=3,length=2", .uint16 0⟩,
       ⟨"EventCode", "main.EventCode", some "offset=11,length=1", .uint8 0⟩]
      (by decide) (by decide),
    by decide⟩

end Unpacket
